import Mathlib

/-!
Route counting on a street grid.

A shallow embedding of `routecount.cc` (the edge-blocked engine, namespace
`RouteCount`) and of `routecount-old.cc` (the node-blocked engine, namespace
`RouteCountOld`), followed by theorems about both.

Modelling conventions.
* `unsigned` coordinates are natural numbers.  The counts of the edge-blocked
  engine and of `RouteCountOld.num_routes` are unbounded natural numbers;
  `RouteCountOld.num_routes32` is the node-blocked engine with the 32-bit
  `unsigned` counts of the source, sums and differences taken modulo `2^32`.
  The two node-blocked readings agree while the unbounded count is below `2^32`
  and differ on `ring_map`, a 64x64 map with blocked coordinates.
* `std::unordered_map` / `std::unordered_set` are association lists / lists:
  `find` returns the first entry of a key, `emplace` inserts only when the key
  is absent.  The code never iterates over these containers inside the engines.
* `SearchState::num_routes` mutates `lookup_cache`; the embedding passes the
  cache explicitly and returns the new one together with the count.
* The recursion is indexed by fuel; `none` means that the fuel ran out.
* `num_routes_checked` is `num_routes` with every predecessor coordinate computed
  by a checked `n - 1`, to say that none is computed from 0.
* `read_map` is modelled on well-formed streams: the two bounds, then complete
  records.
* `routes` lists all routes between two coordinates; it is used to count them.
-/

namespace RouteCount

/-- Grid coordinate type (`struct Coords`). -/
structure Coords where
  x : Nat
  y : Nat
deriving DecidableEq, Repr

/-- The `find` of an unordered map keyed by coordinates. -/
def find {V : Type} (k : Coords) : List (Coords × V) → Option V
  | [] => none
  | (k', v) :: rest => if k' = k then some v else find k rest

/-- The `emplace` of an unordered map: an existing entry is left alone. -/
def emplace {V : Type} (m : List (Coords × V)) (k : Coords) (v : V) : List (Coords × V) :=
  match find k m with
  | some _ => m
  | none => (k, v) :: m

/-- Overwrite the value stored under an existing key (`block_it->second = v`). -/
def assign {V : Type} (k : Coords) (v : V) : List (Coords × V) → List (Coords × V)
  | [] => []
  | (k', v') :: rest => if k' = k then (k', v) :: rest else (k', v') :: assign k v rest

/-- Bit of a blocked street coming from the left. -/
def STREET_HORIZ : Nat := 1

/-- Bit of a blocked street coming from above. -/
def STREET_VERT : Nat := 2

/-- The edge-blocked map (`class Map` of `routecount.cc`). -/
structure Map where
  width : Nat
  height : Nat
  blocks : List (Coords × Nat)
deriving DecidableEq, Repr

/-- The constructor `Map (_width, _height)`: no blocked streets. -/
def Map.new (width height : Nat) : Map := ⟨width, height, []⟩

/-- The method `Map::add_blocks`. -/
def Map.add_blocks (m : Map) (x y streets : Nat) : Map :=
  match find ⟨x, y⟩ m.blocks with
  | none => { m with blocks := emplace m.blocks ⟨x, y⟩ streets }
  | some old => { m with blocks := assign ⟨x, y⟩ (old ||| streets) m.blocks }

/-- The method `Map::get_blocks`. -/
def Map.get_blocks (m : Map) (x y : Nat) : Nat :=
  let streets := match find ⟨x, y⟩ m.blocks with
    | none => 0
    | some s => s
  let streets := if x = 0 then streets ||| STREET_HORIZ else streets
  let streets := if y = 0 then streets ||| STREET_VERT else streets
  streets

/-- The memo table `lookup_cache`. -/
abbrev Cache := List (Coords × Nat)

/-- The method `SearchState::num_routes` of `routecount.cc`, for the search state
with map `map`, start `(start_x, start_y)` and memo table `cache`; it returns
the count and the memo table after the call.  The predecessor `end_x - 1`
(`end_y - 1`) is computed only when `get_blocks` reports the street open, and
`get_blocks` reports it blocked at `end_x = 0` (`end_y = 0`). -/
def num_routes_fuel (map : Map) (start_x start_y : Nat) :
    Nat → Cache → Nat → Nat → Option (Nat × Cache)
  | 0, _, _, _ => none
  | fuel + 1, cache, end_x, end_y =>
    if end_x < start_x ∨ end_y < start_y then some (0, cache)
    else if end_x = start_x ∧ end_y = start_y then some (1, cache)
    else if end_x ≥ map.width ∨ end_y ≥ map.height then some (0, cache)
    else
      match find ⟨end_x, end_y⟩ cache with
      | some prev_result => some (prev_result, cache)
      | none =>
        let incoming_blocks := map.get_blocks end_x end_y
        match (if incoming_blocks &&& STREET_HORIZ = 0
               then num_routes_fuel map start_x start_y fuel cache (end_x - 1) end_y
               else some (0, cache)) with
        | none => none
        | some (h_count, cache1) =>
          match (if incoming_blocks &&& STREET_VERT = 0
                 then num_routes_fuel map start_x start_y fuel cache1 end_x (end_y - 1)
                 else some (0, cache1)) with
          | none => none
          | some (v_count, cache2) =>
            let count := h_count + v_count
            some (count, emplace cache2 ⟨end_x, end_y⟩ (if count = 0 then 0 else 1))

/-- The call `num_routes (end_x, end_y)` on the memo table `cache`, with the fuel
`end_x + end_y + 1`, which the recursion never exhausts (`eval_total`). -/
def eval (map : Map) (start_x start_y : Nat) (cache : Cache) (end_x end_y : Nat) :
    Option (Nat × Cache) :=
  num_routes_fuel map start_x start_y (end_x + end_y + 1) cache end_x end_y

/-- The search state (`struct SearchState`). -/
structure SearchState where
  map : Map
  start_x : Nat
  start_y : Nat
  lookup_cache : Cache
deriving DecidableEq, Repr

/-- The constructor of `SearchState`: an empty memo table. -/
def SearchState.new (map : Map) (start_x start_y : Nat) : SearchState :=
  ⟨map, start_x, start_y, []⟩

/-- One call `search_state.num_routes (end_x, end_y)`, with fuel for the whole
recursion: the count and the search state after the call. -/
def SearchState.num_routes (st : SearchState) (end_x end_y : Nat) :
    Option (Nat × SearchState) :=
  match eval st.map st.start_x st.start_y st.lookup_cache end_x end_y with
  | none => none
  | some (count, cache) => some (count, { st with lookup_cache := cache })

/-- The free function `num_routes`: a fresh search state for one query. -/
def num_routes (map : Map) (start_x start_y end_x end_y : Nat) : Option Nat :=
  match (SearchState.new map start_x start_y).num_routes end_x end_y with
  | none => none
  | some (count, _) => some count

/-- A sequence of calls issued through one search state: the values returned, in
order, and the final search state. -/
def SearchState.run (st : SearchState) : List Coords → Option (List Nat × SearchState)
  | [] => some ([], st)
  | c :: rest =>
    match st.num_routes c.x c.y with
    | none => none
    | some (r, st1) =>
      match SearchState.run st1 rest with
      | none => none
      | some (rs, st2) => some (r :: rs, st2)

/-- One step of a route on the edge-blocked map: `x` or `y` increases by one and
the matching incoming street of the coordinate stepped into is open according
to `get_blocks`. -/
def Step (m : Map) (a b : Coords) : Prop :=
  (b.x = a.x + 1 ∧ b.y = a.y ∧ m.get_blocks b.x b.y &&& STREET_HORIZ = 0) ∨
  (b.x = a.x ∧ b.y = a.y + 1 ∧ m.get_blocks b.x b.y &&& STREET_VERT = 0)

instance (m : Map) (a b : Coords) : Decidable (Step m a b) := by
  unfold Step; infer_instance

/-- Reachability on the edge-blocked map: there is a sequence of coordinates
from `s` to `e` (`s` followed by `l`), each step of which is a `Step`. -/
def Reachable (m : Map) (s e : Coords) : Prop :=
  ∃ l : List Coords, List.Chain (Step m) s l ∧ (s :: l).getLast (List.cons_ne_nil s l) = e

/-- What stops the checked embedding of `num_routes`: the fuel ran out, or a
predecessor coordinate was computed from 0. -/
inductive Fault where
  | out_of_fuel
  | underflow
deriving DecidableEq, Repr

/-- The unsigned `n - 1` of a coordinate, which wraps around at `n = 0`; the
checked embedding reports that case instead of wrapping. -/
def pred_checked (n : Nat) : Except Fault Nat :=
  if n = 0 then .error .underflow else .ok (n - 1)

/-- The method `SearchState::num_routes` of `routecount.cc` once more, with every
`end_x - 1` and `end_y - 1` computed by `pred_checked`. -/
def num_routes_checked (map : Map) (start_x start_y : Nat) :
    Nat → Cache → Nat → Nat → Except Fault (Nat × Cache)
  | 0, _, _, _ => .error .out_of_fuel
  | fuel + 1, cache, end_x, end_y =>
    if end_x < start_x ∨ end_y < start_y then .ok (0, cache)
    else if end_x = start_x ∧ end_y = start_y then .ok (1, cache)
    else if end_x ≥ map.width ∨ end_y ≥ map.height then .ok (0, cache)
    else
      match find ⟨end_x, end_y⟩ cache with
      | some prev_result => .ok (prev_result, cache)
      | none =>
        let incoming_blocks := map.get_blocks end_x end_y
        match (if incoming_blocks &&& STREET_HORIZ = 0
               then (match pred_checked end_x with
                     | .error e => Except.error e
                     | .ok prev_x => num_routes_checked map start_x start_y fuel cache prev_x end_y)
               else .ok (0, cache)) with
        | .error e => Except.error e
        | .ok (h_count, cache1) =>
          match (if incoming_blocks &&& STREET_VERT = 0
                 then (match pred_checked end_y with
                       | .error e => Except.error e
                       | .ok prev_y =>
                         num_routes_checked map start_x start_y fuel cache1 end_x prev_y)
                 else .ok (0, cache1)) with
          | .error e => Except.error e
          | .ok (v_count, cache2) =>
            let count := h_count + v_count
            .ok (count, emplace cache2 ⟨end_x, end_y⟩ (if count = 0 then 0 else 1))

/-- The function `read_map` of `routecount.cc` on a well-formed stream: the width
and the height, then complete records `x y streets`, added in order. -/
def read_map (width height : Nat) (records : List (Nat × Nat × Nat)) : Map :=
  records.foldl (fun map r => map.add_blocks r.1 r.2.1 r.2.2) (Map.new width height)

/-- A path is a route from `s` to `e` on the edge-blocked map: it is `s` followed
by `l`, every step is a `Step`, and it ends at `e`. -/
def is_route (m : Map) (s e : Coords) (p : List Coords) : Prop :=
  ∃ l : List Coords, p = s :: l ∧ List.Chain (Step m) s l ∧
    (s :: l).getLast (List.cons_ne_nil s l) = e

/-- One step of a monotone path where `open_h x y` (`open_v x y`) says whether
`(x, y)` may be entered from the left (from above). -/
def OpenStep (open_h open_v : Nat → Nat → Bool) (a b : Coords) : Prop :=
  (b.x = a.x + 1 ∧ b.y = a.y ∧ open_h b.x b.y = true) ∨
  (b.x = a.x ∧ b.y = a.y + 1 ∧ open_v b.x b.y = true)

/-- All monotone paths from `s` to `(x, y)`, each written backwards (from `(x, y)`
to `s`): a path enters `(x, y)` from the left when `open_h x y` and from above
when `open_v x y`. -/
def paths_fuel (open_h open_v : Nat → Nat → Bool) (s : Coords) :
    Nat → Nat → Nat → List (List Coords)
  | 0, _, _ => []
  | fuel + 1, x, y =>
    if x < s.x ∨ y < s.y then []
    else if x = s.x ∧ y = s.y then [[s]]
    else
      (if x ≠ 0 ∧ open_h x y = true
       then (paths_fuel open_h open_v s fuel (x - 1) y).map (fun p => ⟨x, y⟩ :: p)
       else []) ++
      (if y ≠ 0 ∧ open_v x y = true
       then (paths_fuel open_h open_v s fuel x (y - 1)).map (fun p => ⟨x, y⟩ :: p)
       else [])

/-- The list of all routes from `s` to `e` on the edge-blocked map. -/
def routes (m : Map) (s e : Coords) : List (List Coords) :=
  (paths_fuel (fun x y => decide (m.get_blocks x y &&& STREET_HORIZ = 0))
    (fun x y => decide (m.get_blocks x y &&& STREET_VERT = 0)) s (e.x + e.y + 1) e.x e.y).map
    List.reverse

end RouteCount

namespace RouteCountOld

open RouteCount (Coords find emplace Cache Fault pred_checked OpenStep paths_fuel)

/-- The node-blocked map (`struct Map` of `routecount-old.cc`). -/
structure Map where
  width : Nat
  height : Nat
  blocks : List Coords
deriving DecidableEq, Repr

/-- The method `SearchState::num_routes` of `routecount-old.cc`, for the search
state with map `map`, start `(start_x, start_y)` and memo table `cache`, with
counts read as unbounded natural numbers: `count -= ...` is the subtraction of
`Nat`, and from a fresh counter the subtrahend never exceeds the sum
(`count_free_diag_le`).  The `unsigned` counts of the source are those of
`num_routes32_fuel`; the two agree as long as the unbounded count stays below
`2^32` (`num_routes32_eq_num_routes`). -/
def num_routes_fuel (map : Map) (start_x start_y : Nat) :
    Nat → Cache → Nat → Nat → Option (Nat × Cache)
  | 0, _, _, _ => none
  | fuel + 1, cache, end_x, end_y =>
    if end_x < start_x ∨ end_y < start_y then some (0, cache)
    else if end_x = start_x ∧ end_y = start_y then some (1, cache)
    else if end_x ≥ map.width ∨ end_y ≥ map.height then some (0, cache)
    else
      match find ⟨end_x, end_y⟩ cache with
      | some prev_result => some (prev_result, cache)
      | none =>
        if (⟨end_x, end_y⟩ : Coords) ∈ map.blocks then some (0, cache)
        else
          match (if end_y = 0 then some (0, cache)
                 else num_routes_fuel map start_x start_y fuel cache end_x (end_y - 1)) with
          | none => none
          | some (v_count, cache1) =>
            match (if end_x = 0 then some (0, cache1)
                   else num_routes_fuel map start_x start_y fuel cache1 (end_x - 1) end_y) with
            | none => none
            | some (h_count, cache2) =>
              if v_count ≠ 0 ∧ h_count ≠ 0 then
                match num_routes_fuel map start_x start_y fuel cache2 (end_x - 1) (end_y - 1) with
                | none => none
                | some (d_count, cache3) =>
                  let count := v_count + h_count - d_count + 1
                  some (count, emplace cache3 ⟨end_x, end_y⟩ count)
              else
                let count := v_count + h_count
                some (count, emplace cache2 ⟨end_x, end_y⟩ count)

/-- The call `num_routes (end_x, end_y)` on the memo table `cache`, with the fuel
`end_x + end_y + 1`, which the recursion never exhausts (`node_eval_total`). -/
def eval (map : Map) (start_x start_y : Nat) (cache : Cache) (end_x end_y : Nat) :
    Option (Nat × Cache) :=
  num_routes_fuel map start_x start_y (end_x + end_y + 1) cache end_x end_y

/-- The search state (`struct SearchState`). -/
structure SearchState where
  map : Map
  start_x : Nat
  start_y : Nat
  lookup_cache : Cache
deriving DecidableEq, Repr

/-- The constructor of `SearchState`: an empty memo table. -/
def SearchState.new (map : Map) (start_x start_y : Nat) : SearchState :=
  ⟨map, start_x, start_y, []⟩

/-- One call `search_state.num_routes (end_x, end_y)`, with fuel for the whole
recursion: the count and the search state after the call. -/
def SearchState.num_routes (st : SearchState) (end_x end_y : Nat) :
    Option (Nat × SearchState) :=
  match eval st.map st.start_x st.start_y st.lookup_cache end_x end_y with
  | none => none
  | some (count, cache) => some (count, { st with lookup_cache := cache })

/-- The free function `num_routes`: a fresh search state for one query. -/
def num_routes (map : Map) (start_x start_y end_x end_y : Nat) : Option Nat :=
  match (SearchState.new map start_x start_y).num_routes end_x end_y with
  | none => none
  | some (count, _) => some count

/-- A sequence of calls issued through one search state: the values returned, in
order, and the final search state. -/
def SearchState.run (st : SearchState) : List Coords → Option (List Nat × SearchState)
  | [] => some ([], st)
  | c :: rest =>
    match st.num_routes c.x c.y with
    | none => none
    | some (r, st1) =>
      match SearchState.run st1 rest with
      | none => none
      | some (rs, st2) => some (r :: rs, st2)

/-- The memo-free recurrence of the node-blocked route counter, written from the
specification, section 4.3 (steps 1, 2, 3, 5 and 6; step 4, the memo lookup,
and the memo write are left out). -/
def count_free (map : Map) (start_x start_y : Nat) (end_x end_y : Nat) : Nat :=
  if _h1 : end_x < start_x ∨ end_y < start_y then 0
  else if _h2 : end_x = start_x ∧ end_y = start_y then 1
  else if end_x ≥ map.width ∨ end_y ≥ map.height then 0
  else if (⟨end_x, end_y⟩ : Coords) ∈ map.blocks then 0
  else
    let v := if _hy : end_y = 0 then 0 else count_free map start_x start_y end_x (end_y - 1)
    let h := if _hx : end_x = 0 then 0 else count_free map start_x start_y (end_x - 1) end_y
    if v ≠ 0 ∧ h ≠ 0 then
      v + h - count_free map start_x start_y (end_x - 1) (end_y - 1) + 1
    else v + h
termination_by end_x + end_y
decreasing_by all_goals (simp_wf; omega)

/-- One step of a monotone right/down path: `x` or `y` increases by one. -/
def Step (a b : Coords) : Prop :=
  (b.x = a.x + 1 ∧ b.y = a.y) ∨ (b.x = a.x ∧ b.y = a.y + 1)

instance (a b : Coords) : Decidable (Step a b) := by
  unfold Step; infer_instance

/-- The method `SearchState::num_routes` of `routecount-old.cc` once more, with
every `end_x - 1` and `end_y - 1` computed by `pred_checked`. -/
def num_routes_checked (map : Map) (start_x start_y : Nat) :
    Nat → Cache → Nat → Nat → Except Fault (Nat × Cache)
  | 0, _, _, _ => .error .out_of_fuel
  | fuel + 1, cache, end_x, end_y =>
    if end_x < start_x ∨ end_y < start_y then .ok (0, cache)
    else if end_x = start_x ∧ end_y = start_y then .ok (1, cache)
    else if end_x ≥ map.width ∨ end_y ≥ map.height then .ok (0, cache)
    else
      match find ⟨end_x, end_y⟩ cache with
      | some prev_result => .ok (prev_result, cache)
      | none =>
        if (⟨end_x, end_y⟩ : Coords) ∈ map.blocks then .ok (0, cache)
        else
          match (if end_y = 0 then .ok (0, cache)
                 else (match pred_checked end_y with
                       | .error e => Except.error e
                       | .ok prev_y =>
                         num_routes_checked map start_x start_y fuel cache end_x prev_y)) with
          | .error e => Except.error e
          | .ok (v_count, cache1) =>
            match (if end_x = 0 then .ok (0, cache1)
                   else (match pred_checked end_x with
                         | .error e => Except.error e
                         | .ok prev_x =>
                           num_routes_checked map start_x start_y fuel cache1 prev_x end_y)) with
            | .error e => Except.error e
            | .ok (h_count, cache2) =>
              if v_count ≠ 0 ∧ h_count ≠ 0 then
                match pred_checked end_x, pred_checked end_y with
                | .error e, _ => Except.error e
                | .ok _, .error e => Except.error e
                | .ok prev_x, .ok prev_y =>
                  match num_routes_checked map start_x start_y fuel cache2 prev_x prev_y with
                  | .error e => Except.error e
                  | .ok (d_count, cache3) =>
                    let count := v_count + h_count - d_count + 1
                    .ok (count, emplace cache3 ⟨end_x, end_y⟩ count)
              else
                let count := v_count + h_count
                .ok (count, emplace cache2 ⟨end_x, end_y⟩ count)

/-- The `insert` of the unordered set of blocked coordinates. -/
def insert_block (c : Coords) (blocks : List Coords) : List Coords :=
  if c ∈ blocks then blocks else c :: blocks

/-- The function `read_map` of `routecount-old.cc` on a well-formed stream: the
width and the height, then complete records `x y`, inserted in order. -/
def read_map (width height : Nat) (records : List (Nat × Nat)) : Map :=
  records.foldl (fun map r => { map with blocks := insert_block ⟨r.1, r.2⟩ map.blocks })
    ⟨width, height, []⟩

/-- A path is a route from `s` to `e` on the node-blocked map: it is `s` followed
by `l`, every step goes right or down by one, it ends at `e`, and none of its
coordinates is blocked. -/
def is_route (map : Map) (s e : Coords) (p : List Coords) : Prop :=
  ∃ l : List Coords, p = s :: l ∧ List.Chain Step s l ∧
    (s :: l).getLast (List.cons_ne_nil s l) = e ∧ ∀ k ∈ s :: l, k ∉ map.blocks

/-- The list of all routes from `s` to `e` on the node-blocked map. -/
def routes (map : Map) (s e : Coords) : List (List Coords) :=
  if s ∈ map.blocks then []
  else
    (paths_fuel (fun x y => decide ((⟨x, y⟩ : Coords) ∉ map.blocks))
      (fun x y => decide ((⟨x, y⟩ : Coords) ∉ map.blocks)) s (e.x + e.y + 1) e.x e.y).map
      List.reverse

/-- The sum of two `unsigned` counts: addition modulo `2^32`. -/
def add32 (a b : Nat) : Nat := (a + b) % 4294967296

/-- The difference of two `unsigned` counts: subtraction modulo `2^32`. -/
def sub32 (a b : Nat) : Nat := (a + 4294967296 - b % 4294967296) % 4294967296

/-- The method `SearchState::num_routes` of `routecount-old.cc` with the `unsigned`
(32-bit) counts of the source: `v_count + h_count`, `count -= ...` and
`count += 1` wrap around at `2^32`. -/
def num_routes32_fuel (map : Map) (start_x start_y : Nat) :
    Nat → Cache → Nat → Nat → Option (Nat × Cache)
  | 0, _, _, _ => none
  | fuel + 1, cache, end_x, end_y =>
    if end_x < start_x ∨ end_y < start_y then some (0, cache)
    else if end_x = start_x ∧ end_y = start_y then some (1, cache)
    else if end_x ≥ map.width ∨ end_y ≥ map.height then some (0, cache)
    else
      match find ⟨end_x, end_y⟩ cache with
      | some prev_result => some (prev_result, cache)
      | none =>
        if (⟨end_x, end_y⟩ : Coords) ∈ map.blocks then some (0, cache)
        else
          match (if end_y = 0 then some (0, cache)
                 else num_routes32_fuel map start_x start_y fuel cache end_x (end_y - 1)) with
          | none => none
          | some (v_count, cache1) =>
            match (if end_x = 0 then some (0, cache1)
                   else num_routes32_fuel map start_x start_y fuel cache1 (end_x - 1) end_y) with
            | none => none
            | some (h_count, cache2) =>
              if v_count ≠ 0 ∧ h_count ≠ 0 then
                match num_routes32_fuel map start_x start_y fuel cache2
                    (end_x - 1) (end_y - 1) with
                | none => none
                | some (d_count, cache3) =>
                  let count := add32 (sub32 (add32 v_count h_count) d_count) 1
                  some (count, emplace cache3 ⟨end_x, end_y⟩ count)
              else
                let count := add32 v_count h_count
                some (count, emplace cache2 ⟨end_x, end_y⟩ count)

/-- The call `num_routes (end_x, end_y)` with 32-bit counts on the memo table
`cache`, with the fuel `end_x + end_y + 1`, which the recursion never exhausts
(`node32_eval_total`). -/
def eval32 (map : Map) (start_x start_y : Nat) (cache : Cache) (end_x end_y : Nat) :
    Option (Nat × Cache) :=
  num_routes32_fuel map start_x start_y (end_x + end_y + 1) cache end_x end_y

/-- One call `search_state.num_routes (end_x, end_y)` with 32-bit counts: the
count and the search state after the call. -/
def SearchState.num_routes32 (st : SearchState) (end_x end_y : Nat) :
    Option (Nat × SearchState) :=
  match eval32 st.map st.start_x st.start_y st.lookup_cache end_x end_y with
  | none => none
  | some (count, cache) => some (count, { st with lookup_cache := cache })

/-- The free function `num_routes` with 32-bit counts: a fresh search state for
one query. -/
def num_routes32 (map : Map) (start_x start_y end_x end_y : Nat) : Option Nat :=
  match (SearchState.new map start_x start_y).num_routes32 end_x end_y with
  | none => none
  | some (count, _) => some count

/-- A sequence of calls with 32-bit counts issued through one search state: the
values returned, in order, and the final search state. -/
def SearchState.run32 (st : SearchState) : List Coords → Option (List Nat × SearchState)
  | [] => some ([], st)
  | c :: rest =>
    match st.num_routes32 c.x c.y with
    | none => none
    | some (r, st1) =>
      match SearchState.run32 st1 rest with
      | none => none
      | some (rs, st2) => some (r :: rs, st2)

/-- The memo-free recurrence of the node-blocked route counter (the
specification, section 4.3, without the memo table) evaluated in the 32-bit
unsigned arithmetic of the source. -/
def count_free32 (map : Map) (start_x start_y : Nat) (end_x end_y : Nat) : Nat :=
  if _h1 : end_x < start_x ∨ end_y < start_y then 0
  else if _h2 : end_x = start_x ∧ end_y = start_y then 1
  else if end_x ≥ map.width ∨ end_y ≥ map.height then 0
  else if (⟨end_x, end_y⟩ : Coords) ∈ map.blocks then 0
  else
    let v := if _hy : end_y = 0 then 0 else count_free32 map start_x start_y end_x (end_y - 1)
    let h := if _hx : end_x = 0 then 0 else count_free32 map start_x start_y (end_x - 1) end_y
    if v ≠ 0 ∧ h ≠ 0 then
      add32 (sub32 (add32 v h) (count_free32 map start_x start_y (end_x - 1) (end_y - 1))) 1
    else add32 v h
termination_by end_x + end_y
decreasing_by all_goals (simp_wf; omega)

/-- The open coordinates of the ring map: a chain of 3x3 rings with blocked
centres along the diagonal, from (0,0) to (62,62), and the coordinate (63,63). -/
def ring_open (x y : Nat) : Prop :=
  (x = y ∧ x % 2 = 0) ∨ x = y + 1 ∨ y = x + 1 ∨ (x = y + 2 ∧ y % 2 = 0) ∨
    (y = x + 2 ∧ x % 2 = 0) ∨ (x = 63 ∧ y = 63)

instance (x y : Nat) : Decidable (ring_open x y) := by
  unfold ring_open; infer_instance

/-- The blocked coordinates of the ring map: all coordinates of the 64x64 grid
that are not open (3875 of the 4096 coordinates). -/
def ring_blocks : List Coords :=
  (List.range 64).flatMap fun x =>
    ((List.range 64).filter fun y => decide (¬ ring_open x y)).map fun y => ⟨x, y⟩

/-- The ring map: the 64x64 grid with the blocks `ring_blocks`. -/
def ring_map : Map := ⟨64, 64, ring_blocks⟩

end RouteCountOld


/-! ## Bits, memo tables and fuel (edge-blocked engine) -/

namespace RouteCount

theorem horiz_bit_of_or (s : Nat) : (s ||| STREET_HORIZ) &&& STREET_HORIZ ≠ 0 := by
  intro h
  have := congrArg (fun n => Nat.testBit n 0) h
  simp [STREET_HORIZ, Nat.testBit_and, Nat.testBit_or] at this

theorem vert_bit_of_or (s : Nat) : (s ||| STREET_VERT) &&& STREET_VERT ≠ 0 := by
  intro h
  have := congrArg (fun n => Nat.testBit n 1) h
  simp [STREET_VERT, Nat.testBit_and, Nat.testBit_or] at this
  have h2 : Nat.testBit 2 1 = true := by decide
  simp [h2] at this

theorem horiz_bit_of_or_or (s : Nat) : ((s ||| STREET_HORIZ) ||| STREET_VERT) &&& STREET_HORIZ ≠ 0 := by
  intro h
  have := congrArg (fun n => Nat.testBit n 0) h
  simp [STREET_HORIZ, Nat.testBit_and, Nat.testBit_or] at this

theorem get_blocks_horiz_zero (m : Map) (y : Nat) : m.get_blocks 0 y &&& STREET_HORIZ ≠ 0 := by
  unfold Map.get_blocks
  by_cases hy : y = 0
  · simp only [hy, if_true]; exact horiz_bit_of_or_or _
  · simp only [hy, if_true, if_false]; exact horiz_bit_of_or _

theorem get_blocks_vert_zero (m : Map) (x : Nat) : m.get_blocks x 0 &&& STREET_VERT ≠ 0 := by
  unfold Map.get_blocks
  simp only [if_true]; exact vert_bit_of_or _

theorem pos_of_horiz_clear {m : Map} {x y : Nat} (h : m.get_blocks x y &&& STREET_HORIZ = 0) :
    0 < x := by
  rcases Nat.eq_zero_or_pos x with hx | hx
  · subst hx; exact absurd h (get_blocks_horiz_zero m y)
  · exact hx

theorem pos_of_vert_clear {m : Map} {x y : Nat} (h : m.get_blocks x y &&& STREET_VERT = 0) :
    0 < y := by
  rcases Nat.eq_zero_or_pos y with hy | hy
  · subst hy; exact absurd h (get_blocks_vert_zero m x)
  · exact hy

theorem find_emplace {V : Type} (m : List (Coords × V)) (k k' : Coords) (v : V) :
    find k' (emplace m k v) =
      match find k' m with
      | some w => some w
      | none => if k = k' then some v else none := by
  unfold emplace
  cases hk : find k m with
  | some w =>
    simp only
    cases hk' : find k' m with
    | some w' => rfl
    | none =>
      simp only
      have : k ≠ k' := by rintro rfl; rw [hk] at hk'; cases hk'
      simp [this]
  | none =>
    simp only [find]
    by_cases h : k = k'
    · subst h; simp [hk]
    · simp only [h, if_false]
      cases find k' m <;> rfl

theorem num_routes_fuel_succ (map : Map) (sx sy : Nat) :
    ∀ (f : Nat) (c : Cache) (x y : Nat) (r : Nat × Cache),
      num_routes_fuel map sx sy f c x y = some r →
      num_routes_fuel map sx sy (f + 1) c x y = some r := by
  intro f
  induction f with
  | zero => intro c x y r h; simp [num_routes_fuel] at h
  | succ f ih =>
    intro c x y r h
    rw [num_routes_fuel] at h ⊢
    by_cases h1 : x < sx ∨ y < sy
    · simpa only [h1, if_true] using h
    simp only [h1, if_false] at h ⊢
    by_cases h2 : x = sx ∧ y = sy
    · simpa only [h2, if_true] using h
    simp only [h2, if_false] at h ⊢
    by_cases h3 : x ≥ map.width ∨ y ≥ map.height
    · simpa only [h3, if_true] using h
    simp only [h3, if_false] at h ⊢
    cases hf : find ⟨x, y⟩ c with
    | some p => simpa only [hf] using h
    | none =>
      simp only [hf] at h ⊢
      by_cases hb : map.get_blocks x y &&& STREET_HORIZ = 0
      · simp only [hb, if_true] at h ⊢
        cases hr1 : num_routes_fuel map sx sy f c (x - 1) y with
        | none => simp [hr1] at h
        | some r1 =>
          rw [ih _ _ _ _ hr1]
          rw [hr1] at h
          obtain ⟨hc, c1⟩ := r1
          simp only at h ⊢
          by_cases hv : map.get_blocks x y &&& STREET_VERT = 0
          · simp only [hv, if_true] at h ⊢
            cases hr2 : num_routes_fuel map sx sy f c1 x (y - 1) with
            | none => simp [hr2] at h
            | some r2 =>
              rw [ih _ _ _ _ hr2]
              rw [hr2] at h
              exact h
          · simpa only [hv, if_false] using h
      · simp only [hb, if_false] at h ⊢
        by_cases hv : map.get_blocks x y &&& STREET_VERT = 0
        · simp only [hv, if_true] at h ⊢
          cases hr2 : num_routes_fuel map sx sy f c x (y - 1) with
          | none => simp [hr2] at h
          | some r2 =>
            rw [ih _ _ _ _ hr2]
            rw [hr2] at h
            exact h
        · simpa only [hv, if_false] using h

theorem num_routes_fuel_mono (map : Map) (sx sy : Nat) {f f' : Nat} (hf : f ≤ f')
    {c : Cache} {x y : Nat} {r : Nat × Cache}
    (h : num_routes_fuel map sx sy f c x y = some r) :
    num_routes_fuel map sx sy f' c x y = some r := by
  induction hf with
  | refl => exact h
  | step _ ih => exact num_routes_fuel_succ map sx sy _ _ _ _ _ ih

theorem eval_out (map : Map) (sx sy : Nat) (c : Cache) (x y : Nat) (h : x < sx ∨ y < sy) :
    eval map sx sy c x y = some (0, c) := by
  simp [eval, num_routes_fuel, h]

theorem eval_start (map : Map) (sx sy : Nat) (c : Cache) :
    eval map sx sy c sx sy = some (1, c) := by
  simp [eval, num_routes_fuel]

theorem eval_oob (map : Map) (sx sy : Nat) (c : Cache) (x y : Nat)
    (h2 : ¬ (x = sx ∧ y = sy)) (h3 : x ≥ map.width ∨ y ≥ map.height) :
    eval map sx sy c x y = some (0, c) := by
  unfold eval
  rw [num_routes_fuel]
  by_cases h1 : x < sx ∨ y < sy
  · simp only [h1, if_true]
  · simp only [h1, h2, h3, if_true, if_false]

theorem eval_hit (map : Map) (sx sy : Nat) (c : Cache) (x y p : Nat)
    (h1 : ¬ (x < sx ∨ y < sy)) (h2 : ¬ (x = sx ∧ y = sy))
    (h3 : ¬ (x ≥ map.width ∨ y ≥ map.height)) (hf : find ⟨x, y⟩ c = some p) :
    eval map sx sy c x y = some (p, c) := by
  unfold eval
  rw [num_routes_fuel]
  simp only [h1, h2, h3, if_false, hf]

theorem eval_miss (map : Map) (sx sy : Nat) (c : Cache) (x y : Nat)
    (h1 : ¬ (x < sx ∨ y < sy)) (h2 : ¬ (x = sx ∧ y = sy))
    (h3 : ¬ (x ≥ map.width ∨ y ≥ map.height)) (hf : find ⟨x, y⟩ c = none) :
    eval map sx sy c x y =
      match (if map.get_blocks x y &&& STREET_HORIZ = 0
             then eval map sx sy c (x - 1) y else some (0, c)) with
      | none => none
      | some (h_count, cache1) =>
        match (if map.get_blocks x y &&& STREET_VERT = 0
               then eval map sx sy cache1 x (y - 1) else some (0, cache1)) with
        | none => none
        | some (v_count, cache2) =>
          some (h_count + v_count,
            emplace cache2 ⟨x, y⟩ (if h_count + v_count = 0 then 0 else 1)) := by
  unfold eval
  rw [num_routes_fuel]
  simp only [h1, h2, h3, if_false, hf]
  have e1 : map.get_blocks x y &&& STREET_HORIZ = 0 → x - 1 + y + 1 = x + y := by
    intro hb; have := pos_of_horiz_clear hb; omega
  have e2 : map.get_blocks x y &&& STREET_VERT = 0 → x + (y - 1) + 1 = x + y := by
    intro hb; have := pos_of_vert_clear hb; omega
  by_cases hb : map.get_blocks x y &&& STREET_HORIZ = 0
  · by_cases hv : map.get_blocks x y &&& STREET_VERT = 0
    · simp only [hb, hv, if_true, e1 hb, e2 hv]
    · simp only [hb, hv, if_true, if_false, e1 hb]
  · by_cases hv : map.get_blocks x y &&& STREET_VERT = 0
    · simp only [hb, hv, if_true, if_false, e2 hv]
    · simp only [hb, hv, if_false]

/-- Big-step induction for the edge-blocked engine: every call returns, and a
property of (memo table before, end, count, memo table after) that holds in the
four return paths of `num_routes` holds of every call. -/
theorem eval_induction (map : Map) (sx sy : Nat)
    (P : Cache → Nat → Nat → Nat → Cache → Prop)
    (h_out : ∀ c x y, (x < sx ∨ y < sy) → P c x y 0 c)
    (h_start : ∀ c, P c sx sy 1 c)
    (h_oob : ∀ c x y, ¬ (x < sx ∨ y < sy) → ¬ (x = sx ∧ y = sy) →
      (x ≥ map.width ∨ y ≥ map.height) → P c x y 0 c)
    (h_hit : ∀ c x y p, ¬ (x < sx ∨ y < sy) → ¬ (x = sx ∧ y = sy) →
      ¬ (x ≥ map.width ∨ y ≥ map.height) → find ⟨x, y⟩ c = some p → P c x y p c)
    (h_miss : ∀ c x y hc c1 vc c2, ¬ (x < sx ∨ y < sy) → ¬ (x = sx ∧ y = sy) →
      ¬ (x ≥ map.width ∨ y ≥ map.height) → find ⟨x, y⟩ c = none →
      (map.get_blocks x y &&& STREET_HORIZ = 0 → 0 < x ∧ P c (x - 1) y hc c1) →
      (map.get_blocks x y &&& STREET_HORIZ ≠ 0 → hc = 0 ∧ c1 = c) →
      (map.get_blocks x y &&& STREET_VERT = 0 → 0 < y ∧ P c1 x (y - 1) vc c2) →
      (map.get_blocks x y &&& STREET_VERT ≠ 0 → vc = 0 ∧ c2 = c1) →
      P c x y (hc + vc) (emplace c2 ⟨x, y⟩ (if hc + vc = 0 then 0 else 1))) :
    ∀ c x y, ∃ r c', eval map sx sy c x y = some (r, c') ∧ P c x y r c' := by
  have key : ∀ n c x y, x + y < n → ∃ r c', eval map sx sy c x y = some (r, c') ∧ P c x y r c' := by
    intro n
    induction n with
    | zero => intro c x y h; omega
    | succ n ih =>
      intro c x y hn
      by_cases h1 : x < sx ∨ y < sy
      · exact ⟨0, c, eval_out map sx sy c x y h1, h_out c x y h1⟩
      by_cases h2 : x = sx ∧ y = sy
      · obtain ⟨rfl, rfl⟩ := h2
        exact ⟨1, c, eval_start map _ _ c, h_start c⟩
      by_cases h3 : x ≥ map.width ∨ y ≥ map.height
      · exact ⟨0, c, eval_oob map sx sy c x y h2 h3, h_oob c x y h1 h2 h3⟩
      cases hf : find ⟨x, y⟩ c with
      | some p => exact ⟨p, c, eval_hit map sx sy c x y p h1 h2 h3 hf, h_hit c x y p h1 h2 h3 hf⟩
      | none =>
        rw [eval_miss map sx sy c x y h1 h2 h3 hf]
        -- the horizontal predecessor
        have H1 : ∃ hc c1, (if map.get_blocks x y &&& STREET_HORIZ = 0
              then eval map sx sy c (x - 1) y else some (0, c)) = some (hc, c1) ∧
            (map.get_blocks x y &&& STREET_HORIZ = 0 → 0 < x ∧ P c (x - 1) y hc c1) ∧
            (map.get_blocks x y &&& STREET_HORIZ ≠ 0 → hc = 0 ∧ c1 = c) := by
          by_cases hb : map.get_blocks x y &&& STREET_HORIZ = 0
          · have hx := pos_of_horiz_clear hb
            obtain ⟨r, c', he, hp⟩ := ih c (x - 1) y (by omega)
            exact ⟨r, c', by simp only [hb, if_true, he], fun _ => ⟨hx, hp⟩, fun h => absurd hb h⟩
          · exact ⟨0, c, by simp only [hb, if_false], fun h => absurd h hb, fun _ => ⟨rfl, rfl⟩⟩
        obtain ⟨hc, c1, e1, p1, q1⟩ := H1
        have H2 : ∃ vc c2, (if map.get_blocks x y &&& STREET_VERT = 0
              then eval map sx sy c1 x (y - 1) else some (0, c1)) = some (vc, c2) ∧
            (map.get_blocks x y &&& STREET_VERT = 0 → 0 < y ∧ P c1 x (y - 1) vc c2) ∧
            (map.get_blocks x y &&& STREET_VERT ≠ 0 → vc = 0 ∧ c2 = c1) := by
          by_cases hb : map.get_blocks x y &&& STREET_VERT = 0
          · have hy := pos_of_vert_clear hb
            obtain ⟨r, c', he, hp⟩ := ih c1 x (y - 1) (by omega)
            exact ⟨r, c', by simp only [hb, if_true, he], fun _ => ⟨hy, hp⟩, fun h => absurd hb h⟩
          · exact ⟨0, c1, by simp only [hb, if_false], fun h => absurd h hb, fun _ => ⟨rfl, rfl⟩⟩
        obtain ⟨vc, c2, e2, p2, q2⟩ := H2
        rw [e1]; simp only; rw [e2]
        exact ⟨_, _, rfl, h_miss c x y hc c1 vc c2 h1 h2 h3 hf p1 q1 p2 q2⟩
  intro c x y
  exact key (x + y + 1) c x y (by omega)

theorem eval_total (map : Map) (sx sy : Nat) (c : Cache) (x y : Nat) :
    ∃ r c', eval map sx sy c x y = some (r, c') := by
  obtain ⟨r, c', h, _⟩ := eval_induction map sx sy (fun _ _ _ _ _ => True)
    (fun _ _ _ _ => trivial) (fun _ => trivial) (fun _ _ _ _ _ _ => trivial)
    (fun _ _ _ _ _ _ _ _ => trivial) (fun _ _ _ _ _ _ _ _ _ _ _ _ _ _ _ => trivial) c x y
  exact ⟨r, c', h⟩

/-- Any fuel above `end_x + end_y` gives the result of `eval`. -/
theorem num_routes_fuel_eq_eval (map : Map) (sx sy : Nat) (c : Cache) (x y fuel : Nat)
    (h : x + y < fuel) : num_routes_fuel map sx sy fuel c x y = eval map sx sy c x y := by
  obtain ⟨r, c', he⟩ := eval_total map sx sy c x y
  rw [he]
  exact num_routes_fuel_mono map sx sy (by omega) he

end RouteCount

/-! ## Fuel and the equations of a call (node-blocked engine) -/

namespace RouteCountOld
open RouteCount (Coords find emplace Cache find_emplace)

theorem node_num_routes_fuel_succ (map : Map) (sx sy : Nat) :
    ∀ (f : Nat) (c : Cache) (x y : Nat) (r : Nat × Cache),
      num_routes_fuel map sx sy f c x y = some r →
      num_routes_fuel map sx sy (f + 1) c x y = some r := by
  intro f
  induction f with
  | zero => intro c x y r h; simp [num_routes_fuel] at h
  | succ f ih =>
    intro c x y r h
    rw [num_routes_fuel] at h ⊢
    by_cases h1 : x < sx ∨ y < sy
    · simpa only [h1, if_true] using h
    simp only [h1, if_false] at h ⊢
    by_cases h2 : x = sx ∧ y = sy
    · simpa only [h2, if_true] using h
    simp only [h2, if_false] at h ⊢
    by_cases h3 : x ≥ map.width ∨ y ≥ map.height
    · simpa only [h3, if_true] using h
    simp only [h3, if_false] at h ⊢
    cases hf : find ⟨x, y⟩ c with
    | some p => simpa only [hf] using h
    | none =>
      simp only [hf] at h ⊢
      by_cases hb : (⟨x, y⟩ : Coords) ∈ map.blocks
      · simpa only [hb, if_true] using h
      simp only [hb, if_false] at h ⊢
      -- the vertical predecessor
      have H1 : ∀ r1, (if y = 0 then some (0, c)
            else num_routes_fuel map sx sy f c x (y - 1)) = some r1 →
          (if y = 0 then some (0, c)
            else num_routes_fuel map sx sy (f + 1) c x (y - 1)) = some r1 := by
        intro r1 hr1
        by_cases hy : y = 0
        · simpa only [hy, if_true] using hr1
        · simp only [hy, if_false] at hr1 ⊢; exact ih _ _ _ _ hr1
      cases hr1 : (if y = 0 then some (0, c)
            else num_routes_fuel map sx sy f c x (y - 1)) with
      | none => rw [hr1] at h; simp at h
      | some r1 =>
        rw [H1 r1 hr1]; rw [hr1] at h
        obtain ⟨vc, c1⟩ := r1
        try simp only at h ⊢
        have H2 : ∀ r2, (if x = 0 then some (0, c1)
              else num_routes_fuel map sx sy f c1 (x - 1) y) = some r2 →
            (if x = 0 then some (0, c1)
              else num_routes_fuel map sx sy (f + 1) c1 (x - 1) y) = some r2 := by
          intro r2 hr2
          by_cases hx : x = 0
          · simpa only [hx, if_true] using hr2
          · simp only [hx, if_false] at hr2 ⊢; exact ih _ _ _ _ hr2
        cases hr2 : (if x = 0 then some (0, c1)
              else num_routes_fuel map sx sy f c1 (x - 1) y) with
        | none => rw [hr2] at h; simp at h
        | some r2 =>
          rw [H2 r2 hr2]; rw [hr2] at h
          obtain ⟨hc, c2⟩ := r2
          try simp only at h ⊢
          by_cases hvh : vc ≠ 0 ∧ hc ≠ 0
          · rw [if_pos hvh] at h ⊢
            cases hr3 : num_routes_fuel map sx sy f c2 (x - 1) (y - 1) with
            | none => rw [hr3] at h; simp at h
            | some r3 =>
              rw [ih _ _ _ _ hr3]; rw [hr3] at h
              exact h
          · rw [if_neg hvh] at h ⊢; exact h

theorem node_num_routes_fuel_mono (map : Map) (sx sy : Nat) {f f' : Nat} (hf : f ≤ f')
    {c : Cache} {x y : Nat} {r : Nat × Cache}
    (h : num_routes_fuel map sx sy f c x y = some r) :
    num_routes_fuel map sx sy f' c x y = some r := by
  induction hf with
  | refl => exact h
  | step _ ih => exact node_num_routes_fuel_succ map sx sy _ _ _ _ _ ih

theorem node_num_routes_fuel_total (map : Map) (sx sy : Nat) :
    ∀ (f : Nat) (c : Cache) (x y : Nat), x + y < f →
      ∃ r, num_routes_fuel map sx sy f c x y = some r := by
  intro f
  induction f with
  | zero => intro c x y h; omega
  | succ f ih =>
    intro c x y hn
    rw [num_routes_fuel]
    by_cases h1 : x < sx ∨ y < sy
    · rw [if_pos h1]; exact ⟨_, rfl⟩
    rw [if_neg h1]
    by_cases h2 : x = sx ∧ y = sy
    · rw [if_pos h2]; exact ⟨_, rfl⟩
    rw [if_neg h2]
    by_cases h3 : x ≥ map.width ∨ y ≥ map.height
    · rw [if_pos h3]; exact ⟨_, rfl⟩
    rw [if_neg h3]
    cases hf : find ⟨x, y⟩ c with
    | some p => exact ⟨_, rfl⟩
    | none =>
      by_cases hb : (⟨x, y⟩ : Coords) ∈ map.blocks
      · simp only [hb, if_true]; exact ⟨_, rfl⟩
      simp only [hb, if_false]
      have H1 : ∃ vc c1, (if y = 0 then some (0, c)
            else num_routes_fuel map sx sy f c x (y - 1)) = some (vc, c1) ∧ (y = 0 → vc = 0) := by
        by_cases hy : y = 0
        · exact ⟨0, c, by simp only [hy, if_true], fun _ => rfl⟩
        · obtain ⟨⟨r, c'⟩, hr⟩ := ih c x (y - 1) (by omega)
          exact ⟨r, c', by simp only [hy, if_false, hr], fun h => absurd h hy⟩
      obtain ⟨vc, c1, e1, hv0⟩ := H1
      rw [e1]; try simp only
      have H2 : ∃ hc c2, (if x = 0 then some (0, c1)
            else num_routes_fuel map sx sy f c1 (x - 1) y) = some (hc, c2) := by
        by_cases hx : x = 0
        · exact ⟨0, c1, by simp only [hx, if_true]⟩
        · obtain ⟨⟨r, c'⟩, hr⟩ := ih c1 (x - 1) y (by omega)
          exact ⟨r, c', by simp only [hx, if_false, hr]⟩
      obtain ⟨hc, c2, e2⟩ := H2
      rw [e2]; try simp only
      by_cases hvh : vc ≠ 0 ∧ hc ≠ 0
      · rw [if_pos hvh]
        have hy : y ≠ 0 := fun h => hvh.1 (hv0 h)
        obtain ⟨⟨r, c'⟩, hr⟩ := ih c2 (x - 1) (y - 1) (by omega)
        rw [hr]; exact ⟨_, rfl⟩
      · rw [if_neg hvh]; exact ⟨_, rfl⟩

theorem node_eval_total (map : Map) (sx sy : Nat) (c : Cache) (x y : Nat) :
    ∃ r c', eval map sx sy c x y = some (r, c') := by
  obtain ⟨⟨r, c'⟩, h⟩ := node_num_routes_fuel_total map sx sy (x + y + 1) c x y (by omega)
  exact ⟨r, c', h⟩

/-- Any fuel above `end_x + end_y` gives the result of `eval`. -/
theorem node_num_routes_fuel_eq_eval (map : Map) (sx sy : Nat) (c : Cache) (x y fuel : Nat)
    (h : x + y < fuel) : num_routes_fuel map sx sy fuel c x y = eval map sx sy c x y := by
  obtain ⟨r, c', he⟩ := node_eval_total map sx sy c x y
  rw [he]
  exact node_num_routes_fuel_mono map sx sy (by omega) he

theorem node_eval_out (map : Map) (sx sy : Nat) (c : Cache) (x y : Nat) (h : x < sx ∨ y < sy) :
    eval map sx sy c x y = some (0, c) := by
  simp [eval, num_routes_fuel, h]

theorem node_eval_start (map : Map) (sx sy : Nat) (c : Cache) :
    eval map sx sy c sx sy = some (1, c) := by
  simp [eval, num_routes_fuel]

theorem node_eval_oob (map : Map) (sx sy : Nat) (c : Cache) (x y : Nat)
    (h2 : ¬ (x = sx ∧ y = sy)) (h3 : x ≥ map.width ∨ y ≥ map.height) :
    eval map sx sy c x y = some (0, c) := by
  unfold eval
  rw [num_routes_fuel]
  by_cases h1 : x < sx ∨ y < sy
  · simp only [h1, if_true]
  · simp only [h1, h2, h3, if_true, if_false]

theorem node_eval_hit (map : Map) (sx sy : Nat) (c : Cache) (x y p : Nat)
    (h1 : ¬ (x < sx ∨ y < sy)) (h2 : ¬ (x = sx ∧ y = sy))
    (h3 : ¬ (x ≥ map.width ∨ y ≥ map.height)) (hf : find ⟨x, y⟩ c = some p) :
    eval map sx sy c x y = some (p, c) := by
  unfold eval
  rw [num_routes_fuel]
  simp only [h1, h2, h3, if_false, hf]

theorem node_eval_blocked (map : Map) (sx sy : Nat) (c : Cache) (x y : Nat)
    (h1 : ¬ (x < sx ∨ y < sy)) (h2 : ¬ (x = sx ∧ y = sy))
    (h3 : ¬ (x ≥ map.width ∨ y ≥ map.height)) (hf : find ⟨x, y⟩ c = none)
    (hb : (⟨x, y⟩ : Coords) ∈ map.blocks) :
    eval map sx sy c x y = some (0, c) := by
  unfold eval
  rw [num_routes_fuel]
  simp only [h1, h2, h3, if_false, hf, hb, if_true]

theorem node_eval_miss (map : Map) (sx sy : Nat) (c : Cache) (x y : Nat)
    (h1 : ¬ (x < sx ∨ y < sy)) (h2 : ¬ (x = sx ∧ y = sy))
    (h3 : ¬ (x ≥ map.width ∨ y ≥ map.height)) (hf : find ⟨x, y⟩ c = none)
    (hb : (⟨x, y⟩ : Coords) ∉ map.blocks) :
    eval map sx sy c x y =
      match (if y = 0 then some (0, c) else eval map sx sy c x (y - 1)) with
      | none => none
      | some (v_count, cache1) =>
        match (if x = 0 then some (0, cache1) else eval map sx sy cache1 (x - 1) y) with
        | none => none
        | some (h_count, cache2) =>
          if v_count ≠ 0 ∧ h_count ≠ 0 then
            match eval map sx sy cache2 (x - 1) (y - 1) with
            | none => none
            | some (d_count, cache3) =>
              some (v_count + h_count - d_count + 1,
                emplace cache3 ⟨x, y⟩ (v_count + h_count - d_count + 1))
          else
            some (v_count + h_count, emplace cache2 ⟨x, y⟩ (v_count + h_count)) := by
  have hxy : 0 < x + y := by
    rcases Nat.eq_zero_or_pos (x + y) with h | h
    · exfalso; apply h2; constructor <;> omega
    · exact h
  have e1 : ∀ c', y ≠ 0 → num_routes_fuel map sx sy (x + y) c' x (y - 1)
      = eval map sx sy c' x (y - 1) :=
    fun c' hy => node_num_routes_fuel_eq_eval map sx sy c' x (y - 1) (x + y) (by omega)
  have e2 : ∀ c', x ≠ 0 → num_routes_fuel map sx sy (x + y) c' (x - 1) y
      = eval map sx sy c' (x - 1) y :=
    fun c' hx => node_num_routes_fuel_eq_eval map sx sy c' (x - 1) y (x + y) (by omega)
  have e3 : ∀ c', num_routes_fuel map sx sy (x + y) c' (x - 1) (y - 1)
      = eval map sx sy c' (x - 1) (y - 1) :=
    fun c' => node_num_routes_fuel_eq_eval map sx sy c' (x - 1) (y - 1) (x + y) (by omega)
  conv => lhs; unfold eval
  rw [num_routes_fuel]
  simp only [h1, h2, h3, if_false, hf, hb, e3]
  by_cases hy : y = 0
  · by_cases hx : x = 0
    · simp only [if_pos hx, if_pos hy]
    · simp only [if_neg hx, if_pos hy, e2 _ hx]
  · by_cases hx : x = 0
    · simp only [if_pos hx, if_neg hy, e1 _ hy]
    · simp only [if_neg hx, if_neg hy, e1 _ hy, e2 _ hx]



/-- Big-step induction for the node-blocked engine: every call returns, and a
property of (memo table before, end, count, memo table after) that holds in the
return paths of `num_routes` holds of every call. -/
theorem node_eval_induction (map : Map) (sx sy : Nat)
    (P : Cache → Nat → Nat → Nat → Cache → Prop)
    (h_out : ∀ c x y, (x < sx ∨ y < sy) → P c x y 0 c)
    (h_start : ∀ c, P c sx sy 1 c)
    (h_oob : ∀ c x y, ¬ (x < sx ∨ y < sy) → ¬ (x = sx ∧ y = sy) →
      (x ≥ map.width ∨ y ≥ map.height) → P c x y 0 c)
    (h_hit : ∀ c x y p, ¬ (x < sx ∨ y < sy) → ¬ (x = sx ∧ y = sy) →
      ¬ (x ≥ map.width ∨ y ≥ map.height) → find ⟨x, y⟩ c = some p → P c x y p c)
    (h_blocked : ∀ c x y, ¬ (x < sx ∨ y < sy) → ¬ (x = sx ∧ y = sy) →
      ¬ (x ≥ map.width ∨ y ≥ map.height) → find ⟨x, y⟩ c = none →
      (⟨x, y⟩ : Coords) ∈ map.blocks → P c x y 0 c)
    (h_plain : ∀ c x y vc c1 hc c2, ¬ (x < sx ∨ y < sy) → ¬ (x = sx ∧ y = sy) →
      ¬ (x ≥ map.width ∨ y ≥ map.height) → find ⟨x, y⟩ c = none →
      (⟨x, y⟩ : Coords) ∉ map.blocks →
      (y ≠ 0 → P c x (y - 1) vc c1) → (y = 0 → vc = 0 ∧ c1 = c) →
      (x ≠ 0 → P c1 (x - 1) y hc c2) → (x = 0 → hc = 0 ∧ c2 = c1) →
      ¬ (vc ≠ 0 ∧ hc ≠ 0) →
      P c x y (vc + hc) (emplace c2 ⟨x, y⟩ (vc + hc)))
    (h_corr : ∀ c x y vc c1 hc c2 dc c3, ¬ (x < sx ∨ y < sy) → ¬ (x = sx ∧ y = sy) →
      ¬ (x ≥ map.width ∨ y ≥ map.height) → find ⟨x, y⟩ c = none →
      (⟨x, y⟩ : Coords) ∉ map.blocks →
      y ≠ 0 → x ≠ 0 → P c x (y - 1) vc c1 → P c1 (x - 1) y hc c2 →
      vc ≠ 0 → hc ≠ 0 → P c2 (x - 1) (y - 1) dc c3 →
      P c x y (vc + hc - dc + 1) (emplace c3 ⟨x, y⟩ (vc + hc - dc + 1))) :
    ∀ c x y, ∃ r c', eval map sx sy c x y = some (r, c') ∧ P c x y r c' := by
  have key : ∀ n c x y, x + y < n → ∃ r c', eval map sx sy c x y = some (r, c') ∧ P c x y r c' := by
    intro n
    induction n with
    | zero => intro c x y h; omega
    | succ n ih =>
      intro c x y hn
      by_cases h1 : x < sx ∨ y < sy
      · exact ⟨0, c, node_eval_out map sx sy c x y h1, h_out c x y h1⟩
      by_cases h2 : x = sx ∧ y = sy
      · obtain ⟨rfl, rfl⟩ := h2
        exact ⟨1, c, node_eval_start map _ _ c, h_start c⟩
      by_cases h3 : x ≥ map.width ∨ y ≥ map.height
      · exact ⟨0, c, node_eval_oob map sx sy c x y h2 h3, h_oob c x y h1 h2 h3⟩
      cases hf : find ⟨x, y⟩ c with
      | some p => exact ⟨p, c, node_eval_hit map sx sy c x y p h1 h2 h3 hf, h_hit c x y p h1 h2 h3 hf⟩
      | none =>
        by_cases hb : (⟨x, y⟩ : Coords) ∈ map.blocks
        · exact ⟨0, c, node_eval_blocked map sx sy c x y h1 h2 h3 hf hb,
            h_blocked c x y h1 h2 h3 hf hb⟩
        rw [node_eval_miss map sx sy c x y h1 h2 h3 hf hb]
        have H1 : ∃ vc c1, (if y = 0 then some (0, c)
              else eval map sx sy c x (y - 1)) = some (vc, c1) ∧
            (y ≠ 0 → P c x (y - 1) vc c1) ∧ (y = 0 → vc = 0 ∧ c1 = c) := by
          by_cases hy : y = 0
          · exact ⟨0, c, by rw [if_pos hy], fun h => absurd hy h, fun _ => ⟨rfl, rfl⟩⟩
          · obtain ⟨r, c', he, hp⟩ := ih c x (y - 1) (by omega)
            exact ⟨r, c', by rw [if_neg hy, he], fun _ => hp, fun h => absurd h hy⟩
        obtain ⟨vc, c1, e1, p1, q1⟩ := H1
        have H2 : ∃ hc c2, (if x = 0 then some (0, c1)
              else eval map sx sy c1 (x - 1) y) = some (hc, c2) ∧
            (x ≠ 0 → P c1 (x - 1) y hc c2) ∧ (x = 0 → hc = 0 ∧ c2 = c1) := by
          by_cases hx : x = 0
          · exact ⟨0, c1, by rw [if_pos hx], fun h => absurd hx h, fun _ => ⟨rfl, rfl⟩⟩
          · obtain ⟨r, c', he, hp⟩ := ih c1 (x - 1) y (by omega)
            exact ⟨r, c', by rw [if_neg hx, he], fun _ => hp, fun h => absurd h hx⟩
        obtain ⟨hc, c2, e2, p2, q2⟩ := H2
        rw [e1]; simp only; rw [e2]; simp only
        by_cases hvh : vc ≠ 0 ∧ hc ≠ 0
        · rw [if_pos hvh]
          have hy : y ≠ 0 := fun h => hvh.1 (q1 h).1
          have hx : x ≠ 0 := fun h => hvh.2 (q2 h).1
          obtain ⟨dc, c3, e3, p3⟩ := ih c2 (x - 1) (y - 1) (by omega)
          rw [e3]
          exact ⟨_, _, rfl, h_corr c x y vc c1 hc c2 dc c3 h1 h2 h3 hf hb hy hx
            (p1 hy) (p2 hx) hvh.1 hvh.2 p3⟩
        · rw [if_neg hvh]
          exact ⟨_, _, rfl, h_plain c x y vc c1 hc c2 h1 h2 h3 hf hb p1 q1 p2 q2 hvh⟩
  intro c x y
  exact key (x + y + 1) c x y (by omega)

theorem count_free_eq (map : Map) (sx sy x y : Nat) :
    count_free map sx sy x y =
      if x < sx ∨ y < sy then 0
      else if x = sx ∧ y = sy then 1
      else if x ≥ map.width ∨ y ≥ map.height then 0
      else if (⟨x, y⟩ : Coords) ∈ map.blocks then 0
      else
        if (if y = 0 then 0 else count_free map sx sy x (y - 1)) ≠ 0 ∧
           (if x = 0 then 0 else count_free map sx sy (x - 1) y) ≠ 0 then
          (if y = 0 then 0 else count_free map sx sy x (y - 1)) +
            (if x = 0 then 0 else count_free map sx sy (x - 1) y) -
            count_free map sx sy (x - 1) (y - 1) + 1
        else (if y = 0 then 0 else count_free map sx sy x (y - 1)) +
            (if x = 0 then 0 else count_free map sx sy (x - 1) y) := by
  rw [count_free]
  simp only [dite_eq_ite]

/-! ## The node-blocked memo table is transparent -/

/-- A memo table all of whose entries hold the memo-free count of their key stays
so through a call, and the call returns the memo-free count. -/
theorem node_eval_sound (map : Map) (sx sy : Nat) (c : Cache) (x y : Nat)
    (hc : ∀ k v, find k c = some v → v = count_free map sx sy k.x k.y) :
    ∃ c', eval map sx sy c x y = some (count_free map sx sy x y, c') ∧
      ∀ k v, find k c' = some v → v = count_free map sx sy k.x k.y := by
  have main := node_eval_induction map sx sy
    (fun c x y r c' => (∀ k v, find k c = some v → v = count_free map sx sy k.x k.y) →
      r = count_free map sx sy x y ∧
      ∀ k v, find k c' = some v → v = count_free map sx sy k.x k.y)
    (by
      intro c x y h1 hc
      refine ⟨?_, hc⟩
      rw [count_free_eq, if_pos h1])
    (by
      intro c hc
      refine ⟨?_, hc⟩
      rw [count_free_eq]
      simp)
    (by
      intro c x y h1 h2 h3 hc
      refine ⟨?_, hc⟩
      rw [count_free_eq, if_neg h1, if_neg h2, if_pos h3])
    (by
      intro c x y p h1 h2 h3 hf hc
      exact ⟨hc _ _ hf, hc⟩)
    (by
      intro c x y h1 h2 h3 hf hb hc
      refine ⟨?_, hc⟩
      rw [count_free_eq, if_neg h1, if_neg h2, if_neg h3, if_pos hb])
    (by
      intro c x y vc c1 hcnt c2 h1 h2 h3 hf hb p1 q1 p2 q2 hvh hc
      have A : vc = (if y = 0 then 0 else count_free map sx sy x (y - 1)) ∧
          ∀ k v, find k c1 = some v → v = count_free map sx sy k.x k.y := by
        by_cases hy : y = 0
        · obtain ⟨e, rfl⟩ := q1 hy
          exact ⟨by rw [if_pos hy, e], hc⟩
        · obtain ⟨e, h⟩ := p1 hy hc
          exact ⟨by rw [if_neg hy, e], h⟩
      obtain ⟨ev, hc1⟩ := A
      have B : hcnt = (if x = 0 then 0 else count_free map sx sy (x - 1) y) ∧
          ∀ k v, find k c2 = some v → v = count_free map sx sy k.x k.y := by
        by_cases hx : x = 0
        · obtain ⟨e, rfl⟩ := q2 hx
          exact ⟨by rw [if_pos hx, e], hc1⟩
        · obtain ⟨e, h⟩ := p2 hx hc1
          exact ⟨by rw [if_neg hx, e], h⟩
      obtain ⟨eh, hc2⟩ := B
      have R : vc + hcnt = count_free map sx sy x y := by
        rw [count_free_eq map sx sy x y, if_neg h1, if_neg h2, if_neg h3, if_neg hb, ← ev, ← eh,
          if_neg hvh]
      refine ⟨R, ?_⟩
      intro k v hk
      rw [find_emplace] at hk
      cases hk2 : find k c2 with
      | some w =>
        rw [hk2] at hk
        simp only [Option.some.injEq] at hk
        subst hk
        exact hc2 _ _ hk2
      | none =>
        rw [hk2] at hk
        simp only at hk
        split at hk
        · rename_i hkk
          subst hkk
          simp only [Option.some.injEq] at hk
          rw [← hk]; exact R
        · cases hk)
    (by
      intro c x y vc c1 hcnt c2 dc c3 h1 h2 h3 hf hb hy hx p1 p2 hv hh p3 hc
      obtain ⟨ev, hc1⟩ := p1 hc
      obtain ⟨eh, hc2⟩ := p2 hc1
      obtain ⟨ed, hc3⟩ := p3 hc2
      have R : vc + hcnt - dc + 1 = count_free map sx sy x y := by
        rw [count_free_eq map sx sy x y, if_neg h1, if_neg h2, if_neg h3, if_neg hb,
          if_neg hy, if_neg hx, ← ev, ← eh, ← ed, if_pos ⟨hv, hh⟩]
      refine ⟨R, ?_⟩
      intro k v hk
      rw [find_emplace] at hk
      cases hk2 : find k c3 with
      | some w =>
        rw [hk2] at hk
        simp only [Option.some.injEq] at hk
        subst hk
        exact hc3 _ _ hk2
      | none =>
        rw [hk2] at hk
        simp only at hk
        split at hk
        · rename_i hkk
          subst hkk
          simp only [Option.some.injEq] at hk
          rw [← hk]; exact R
        · cases hk)
    c x y
  obtain ⟨r, c', he, hp⟩ := main
  obtain ⟨e, h⟩ := hp hc
  subst e
  exact ⟨c', he, h⟩

/-! ## The memo-free count on a map without blocked coordinates -/

theorem count_free_out (map : Map) (sx sy x y : Nat) (h : x < sx ∨ y < sy) :
    count_free map sx sy x y = 0 := by
  rw [count_free_eq, if_pos h]

theorem count_free_start (map : Map) (sx sy : Nat) : count_free map sx sy sx sy = 1 := by
  rw [count_free_eq]; simp

/-- On a map without blocked coordinates the memo-free count is
`1 + (x - sx) * (y - sy)`. -/
theorem count_free_unblocked (W H sx sy : Nat) :
    ∀ n x y, x + y < n → sx ≤ x → sy ≤ y → x < W → y < H →
      count_free ⟨W, H, []⟩ sx sy x y = 1 + (x - sx) * (y - sy) := by
  intro n
  induction n with
  | zero => intro x y h; omega
  | succ n ih =>
    intro x y hn hx hy hxW hyH
    by_cases h2 : x = sx ∧ y = sy
    · obtain ⟨rfl, rfl⟩ := h2
      rw [count_free_start]; simp
    have h1 : ¬ (x < sx ∨ y < sy) := by omega
    have h3 : ¬ (x ≥ (⟨W, H, []⟩ : Map).width ∨ y ≥ (⟨W, H, []⟩ : Map).height) := by
      simp only [ge_iff_le, not_or, not_le]; exact ⟨hxW, hyH⟩
    have hb : (⟨x, y⟩ : Coords) ∉ (⟨W, H, []⟩ : Map).blocks := by simp
    rw [count_free_eq, if_neg h1, if_neg h2, if_neg h3, if_neg hb]
    rcases Nat.eq_or_lt_of_le hy with hye | hylt
    · -- first row of the quadrant
      subst hye
      have hxlt : sx < x := by omega
      have hv : (if sy = 0 then 0 else count_free ⟨W, H, []⟩ sx sy x (sy - 1)) = 0 := by
        by_cases h0 : sy = 0
        · rw [if_pos h0]
        · rw [if_neg h0]; exact count_free_out _ _ _ _ _ (Or.inr (by omega))
      have hh : (if x = 0 then 0 else count_free ⟨W, H, []⟩ sx sy (x - 1) sy) = 1 := by
        rw [if_neg (by omega), ih (x - 1) sy (by omega) (by omega) (le_refl _) (by omega) hyH]
        simp
      rw [hv, hh]; simp
    rcases Nat.eq_or_lt_of_le hx with hxe | hxlt
    · -- first column of the quadrant
      subst hxe
      have hh : (if sx = 0 then 0 else count_free ⟨W, H, []⟩ sx sy (sx - 1) y) = 0 := by
        by_cases h0 : sx = 0
        · rw [if_pos h0]
        · rw [if_neg h0]; exact count_free_out _ _ _ _ _ (Or.inl (by omega))
      have hv : (if y = 0 then 0 else count_free ⟨W, H, []⟩ sx sy sx (y - 1)) = 1 := by
        rw [if_neg (by omega), ih sx (y - 1) (by omega) (le_refl _) (by omega) hxW (by omega)]
        simp
      rw [hv, hh]; simp
    · -- interior
      obtain ⟨a, rfl⟩ : ∃ a, x = sx + (a + 1) := ⟨x - sx - 1, by omega⟩
      obtain ⟨b, rfl⟩ : ∃ b, y = sy + (b + 1) := ⟨y - sy - 1, by omega⟩
      have hv : (if sy + (b + 1) = 0 then 0
          else count_free ⟨W, H, []⟩ sx sy (sx + (a + 1)) (sy + (b + 1) - 1)) = 1 + (a + 1) * b := by
        rw [if_neg (by omega), ih _ _ (by omega) (by omega) (by omega) hxW (by omega)]
        congr 2 <;> omega
      have hh : (if sx + (a + 1) = 0 then 0
          else count_free ⟨W, H, []⟩ sx sy (sx + (a + 1) - 1) (sy + (b + 1))) = 1 + a * (b + 1) := by
        rw [if_neg (by omega), ih _ _ (by omega) (by omega) (by omega) (by omega) hyH]
        congr 2 <;> omega
      have hd : count_free ⟨W, H, []⟩ sx sy (sx + (a + 1) - 1) (sy + (b + 1) - 1) = 1 + a * b := by
        rw [ih _ _ (by omega) (by omega) (by omega) (by omega) (by omega)]
        congr 2 <;> omega
      rw [hv, hh, hd, if_pos ⟨by omega, by omega⟩]
      have e1 : sx + (a + 1) - sx = a + 1 := by omega
      have e2 : sy + (b + 1) - sy = b + 1 := by omega
      rw [e1, e2]
      have e3 : (a + 1) * b = a * b + b := by ring
      have e4 : a * (b + 1) = a * b + a := by ring
      have e5 : (a + 1) * (b + 1) = a * b + a + b + 1 := by ring
      rw [e3, e4, e5]
      omega

/-! ## Calls through a node-blocked search state (C2) -/

theorem node_call_of_eval (st : SearchState) (x y r : Nat) (c' : Cache)
    (h : eval st.map st.start_x st.start_y st.lookup_cache x y = some (r, c')) :
    st.num_routes x y = some (r, { st with lookup_cache := c' }) := by
  unfold SearchState.num_routes
  rw [h]

/-- A fresh search state returns the memo-free count. -/
theorem num_routes_eq_count_free (map : Map) (sx sy x y : Nat) :
    num_routes map sx sy x y = some (count_free map sx sy x y) := by
  obtain ⟨c', he, _⟩ := node_eval_sound map sx sy [] x y (by intro k v h; simp [find] at h)
  unfold num_routes
  rw [node_call_of_eval (SearchState.new map sx sy) x y _ c' he]

/-- Calls through a search state whose memo table is sound return the memo-free
counts and leave a sound memo table. -/
theorem SearchState.run_sound (map : Map) (sx sy : Nat) (calls : List Coords) :
    ∀ c : Cache, (∀ k v, find k c = some v → v = count_free map sx sy k.x k.y) →
      ∃ c', SearchState.run ⟨map, sx, sy, c⟩ calls =
          some (calls.map (fun e => count_free map sx sy e.x e.y), ⟨map, sx, sy, c'⟩) ∧
        ∀ k v, find k c' = some v → v = count_free map sx sy k.x k.y := by
  induction calls with
  | nil => intro c hc; exact ⟨c, rfl, hc⟩
  | cons e rest ih =>
    intro c hc
    obtain ⟨c1, he, hc1⟩ := node_eval_sound map sx sy c e.x e.y hc
    obtain ⟨c2, hr, hc2⟩ := ih c1 hc1
    refine ⟨c2, ?_, hc2⟩
    rw [SearchState.run, node_call_of_eval ⟨map, sx, sy, c⟩ e.x e.y _ c1 he]
    simp only
    rw [hr]
    rfl

/-- C2. Node-blocked engine on an unblocked grid: for a start and an end inside
the bounds with `end.x ≥ start.x` and `end.y ≥ start.y`, and an empty block set,
a fresh counter's `num_routes (end)` is `1 + (end.x - start.x) * (end.y - start.y)`. -/
theorem node_unblocked_count (W H start_x start_y end_x end_y : Nat)
    (hx : start_x ≤ end_x) (hy : start_y ≤ end_y) (hW : end_x < W) (hH : end_y < H) :
    num_routes ⟨W, H, []⟩ start_x start_y end_x end_y =
      some (1 + (end_x - start_x) * (end_y - start_y)) := by
  rw [num_routes_eq_count_free,
    count_free_unblocked W H start_x start_y (end_x + end_y + 1) end_x end_y (by omega) hx hy hW hH]

/-- Witness of C2: from (0,0), 2 at (1,1) on the 2x2 grid and 5 at (2,2) on the
3x3 grid. -/
theorem node_unblocked_count_witness :
    (0 ≤ 2 ∧ 0 ≤ 2 ∧ 2 < 3 ∧ 2 < 3) ∧
    num_routes ⟨3, 3, []⟩ 0 0 2 2 = some 5 ∧ num_routes ⟨2, 2, []⟩ 0 0 1 1 = some 2 :=
  ⟨by decide,
   node_unblocked_count 3 3 0 0 2 2 (by decide) (by decide) (by decide) (by decide),
   node_unblocked_count 2 2 0 0 1 1 (by decide) (by decide) (by decide) (by decide)⟩

/-! ## Routes that avoid blocked coordinates -/

theorem chain_unblocked_iff (map : Map) (l : List Coords) :
    ∀ s : Coords, (List.Chain Step s l ∧ ∀ k ∈ l, k ∉ map.blocks) ↔
      List.Chain (fun a b => Step a b ∧ b ∉ map.blocks) s l := by
  induction l with
  | nil => intro s; simp
  | cons b l ih =>
    intro s
    simp only [List.chain_cons, List.mem_cons, forall_eq_or_imp, ← ih b]
    tauto

end RouteCountOld

/-! ## Reachability and the surrogate invariant (edge-blocked engine) -/

namespace RouteCount

theorem reachable_iff (m : Map) (s e : Coords) :
    Reachable m s e ↔ Relation.ReflTransGen (Step m) s e := by
  constructor
  · rintro ⟨l, hch, hlast⟩
    exact List.relationReflTransGen_of_exists_chain l hch hlast
  · intro h
    exact List.exists_chain_of_relationReflTransGen h

theorem reach_mono (m : Map) (s e : Coords) (h : Relation.ReflTransGen (Step m) s e) :
    s.x ≤ e.x ∧ s.y ≤ e.y := by
  induction h with
  | refl => exact ⟨le_refl _, le_refl _⟩
  | tail _ hstep ih =>
    rcases hstep with ⟨h1, h2, _⟩ | ⟨h1, h2, _⟩ <;> omega

/-- The last step of a route into a coordinate other than the start. -/
theorem reach_step_iff (m : Map) (s : Coords) (x y : Nat) (hne : (⟨x, y⟩ : Coords) ≠ s) :
    Relation.ReflTransGen (Step m) s ⟨x, y⟩ ↔
      ((m.get_blocks x y &&& STREET_HORIZ = 0 ∧ Relation.ReflTransGen (Step m) s ⟨x - 1, y⟩) ∨
       (m.get_blocks x y &&& STREET_VERT = 0 ∧ Relation.ReflTransGen (Step m) s ⟨x, y - 1⟩)) := by
  constructor
  · intro h
    rcases Relation.ReflTransGen.cases_tail h with h | ⟨b, hb, hstep⟩
    · exact absurd h hne
    · obtain ⟨bx, by'⟩ := b
      rcases hstep with ⟨h1, h2, h3⟩ | ⟨h1, h2, h3⟩
      · left
        simp only at h1 h2 h3
        have e1 : bx = x - 1 := by omega
        subst e1; subst h2
        exact ⟨h3, hb⟩
      · right
        simp only at h1 h2 h3
        have e1 : by' = y - 1 := by omega
        subst e1; subst h1
        exact ⟨h3, hb⟩
  · rintro (⟨hbit, h⟩ | ⟨hbit, h⟩)
    · have := pos_of_horiz_clear hbit
      refine Relation.ReflTransGen.tail h (Or.inl ⟨?_, rfl, hbit⟩)
      simp only; omega
    · have := pos_of_vert_clear hbit
      refine Relation.ReflTransGen.tail h (Or.inr ⟨rfl, ?_, hbit⟩)
      simp only; omega

theorem find_emplace_ok {Q : Coords → Nat → Prop} (c : Cache) (k0 : Coords) (v0 : Nat)
    (hc : ∀ k v, find k c = some v → Q k v) (h0 : Q k0 v0) :
    ∀ k v, find k (emplace c k0 v0) = some v → Q k v := by
  intro k v hk
  rw [find_emplace] at hk
  cases hk2 : find k c with
  | some w =>
    rw [hk2] at hk
    simp only [Option.some.injEq] at hk
    subst hk
    exact hc _ _ hk2
  | none =>
    rw [hk2] at hk
    simp only at hk
    split at hk
    · rename_i hkk
      subst hkk
      simp only [Option.some.injEq] at hk
      rw [← hk]; exact h0
    · cases hk

/-- The surrogate invariant of the edge-blocked memo table, and what a call
returns under it: the count is non-zero exactly for the start and for the
coordinates inside the bounds that a route reaches. -/
theorem eval_reach (map : Map) (sx sy : Nat) (c : Cache) (x y : Nat)
    (hc : ∀ k v, find k c = some v →
      (v = 1 ∧ Relation.ReflTransGen (Step map) ⟨sx, sy⟩ k) ∨
      (v = 0 ∧ ¬ Relation.ReflTransGen (Step map) ⟨sx, sy⟩ k)) :
    ∃ r c', eval map sx sy c x y = some (r, c') ∧
      (r ≠ 0 ↔ ((x = sx ∧ y = sy) ∨
        (x < map.width ∧ y < map.height ∧
          Relation.ReflTransGen (Step map) ⟨sx, sy⟩ ⟨x, y⟩))) ∧
      ∀ k v, find k c' = some v →
        (v = 1 ∧ Relation.ReflTransGen (Step map) ⟨sx, sy⟩ k) ∨
        (v = 0 ∧ ¬ Relation.ReflTransGen (Step map) ⟨sx, sy⟩ k) := by
  have main := eval_induction map sx sy
    (fun c x y r c' =>
      (∀ k v, find k c = some v →
        (v = 1 ∧ Relation.ReflTransGen (Step map) ⟨sx, sy⟩ k) ∨
        (v = 0 ∧ ¬ Relation.ReflTransGen (Step map) ⟨sx, sy⟩ k)) →
      (r ≠ 0 ↔ ((x = sx ∧ y = sy) ∨
        (x < map.width ∧ y < map.height ∧
          Relation.ReflTransGen (Step map) ⟨sx, sy⟩ ⟨x, y⟩))) ∧
      ∀ k v, find k c' = some v →
        (v = 1 ∧ Relation.ReflTransGen (Step map) ⟨sx, sy⟩ k) ∨
        (v = 0 ∧ ¬ Relation.ReflTransGen (Step map) ⟨sx, sy⟩ k))
    (by
      intro c x y h1 hc
      refine ⟨?_, hc⟩
      constructor
      · intro h; exact absurd rfl h
      · rintro (⟨rfl, rfl⟩ | ⟨_, _, h⟩)
        · omega
        · have := reach_mono map _ _ h
          simp only at this
          omega)
    (by
      intro c hc
      exact ⟨⟨fun _ => Or.inl ⟨rfl, rfl⟩, fun _ => by decide⟩, hc⟩)
    (by
      intro c x y h1 h2 h3 hc
      refine ⟨?_, hc⟩
      constructor
      · intro h; exact absurd rfl h
      · rintro (h | ⟨hW, hH, _⟩)
        · exact absurd h h2
        · omega)
    (by
      intro c x y p h1 h2 h3 hf hc
      refine ⟨?_, hc⟩
      have h3' : x < map.width ∧ y < map.height := by omega
      rcases hc _ _ hf with ⟨rfl, hr⟩ | ⟨rfl, hr⟩
      · exact ⟨fun _ => Or.inr ⟨h3'.1, h3'.2, hr⟩, fun _ => by decide⟩
      · constructor
        · intro h; exact absurd rfl h
        · rintro (h | ⟨_, _, h⟩)
          · exact absurd h h2
          · exact absurd h hr)
    (by
      intro c x y hcnt c1 vc c2 h1 h2 h3 hf p1 q1 p2 q2 hc
      have h3' : x < map.width ∧ y < map.height := by omega
      have hne : (⟨x, y⟩ : Coords) ≠ ⟨sx, sy⟩ := by
        intro h; injection h with hx hy; exact h2 ⟨hx, hy⟩
      have A : (hcnt ≠ 0 ↔ (map.get_blocks x y &&& STREET_HORIZ = 0 ∧
            Relation.ReflTransGen (Step map) ⟨sx, sy⟩ ⟨x - 1, y⟩)) ∧
          ∀ k v, find k c1 = some v →
            (v = 1 ∧ Relation.ReflTransGen (Step map) ⟨sx, sy⟩ k) ∨
            (v = 0 ∧ ¬ Relation.ReflTransGen (Step map) ⟨sx, sy⟩ k) := by
        by_cases hb : map.get_blocks x y &&& STREET_HORIZ = 0
        · obtain ⟨hx, hp⟩ := p1 hb
          obtain ⟨hiff, hc1⟩ := hp hc
          refine ⟨?_, hc1⟩
          rw [hiff]
          constructor
          · rintro (⟨e1, e2⟩ | ⟨_, _, h⟩)
            · refine ⟨hb, ?_⟩
              rw [e1, e2]
            · exact ⟨hb, h⟩
          · rintro ⟨_, h⟩
            exact Or.inr ⟨by omega, h3'.2, h⟩
        · obtain ⟨e, rfl⟩ := q1 hb
          refine ⟨?_, hc⟩
          rw [e]
          exact ⟨fun h => absurd rfl h, fun h => absurd h.1 hb⟩
      obtain ⟨iffH, hc1⟩ := A
      have B : (vc ≠ 0 ↔ (map.get_blocks x y &&& STREET_VERT = 0 ∧
            Relation.ReflTransGen (Step map) ⟨sx, sy⟩ ⟨x, y - 1⟩)) ∧
          ∀ k v, find k c2 = some v →
            (v = 1 ∧ Relation.ReflTransGen (Step map) ⟨sx, sy⟩ k) ∨
            (v = 0 ∧ ¬ Relation.ReflTransGen (Step map) ⟨sx, sy⟩ k) := by
        by_cases hb : map.get_blocks x y &&& STREET_VERT = 0
        · obtain ⟨hy, hp⟩ := p2 hb
          obtain ⟨hiff, hc2⟩ := hp hc1
          refine ⟨?_, hc2⟩
          rw [hiff]
          constructor
          · rintro (⟨e1, e2⟩ | ⟨_, _, h⟩)
            · refine ⟨hb, ?_⟩
              rw [e1, e2]
            · exact ⟨hb, h⟩
          · rintro ⟨_, h⟩
            exact Or.inr ⟨h3'.1, by omega, h⟩
        · obtain ⟨e, rfl⟩ := q2 hb
          refine ⟨?_, hc1⟩
          rw [e]
          exact ⟨fun h => absurd rfl h, fun h => absurd h.1 hb⟩
      obtain ⟨iffV, hc2⟩ := B
      have R : hcnt + vc ≠ 0 ↔ Relation.ReflTransGen (Step map) ⟨sx, sy⟩ ⟨x, y⟩ := by
        rw [reach_step_iff map ⟨sx, sy⟩ x y hne, ← iffH, ← iffV]
        omega
      refine ⟨?_, ?_⟩
      · rw [R]
        constructor
        · intro h; exact Or.inr ⟨h3'.1, h3'.2, h⟩
        · rintro (h | ⟨_, _, h⟩)
          · exact absurd h h2
          · exact h
      · apply find_emplace_ok c2 ⟨x, y⟩ _ hc2
        by_cases h0 : hcnt + vc = 0
        · rw [if_pos h0]
          right
          refine ⟨rfl, ?_⟩
          rw [← R]; simpa using h0
        · rw [if_neg h0]
          left
          exact ⟨rfl, R.1 h0⟩)
    c x y
  obtain ⟨r, c', he, hp⟩ := main
  exact ⟨r, c', he, hp hc⟩

/-! ## Calls through an edge-blocked search state (C3) -/

theorem edge_call_of_eval (st : SearchState) (x y r : Nat) (c' : Cache)
    (h : eval st.map st.start_x st.start_y st.lookup_cache x y = some (r, c')) :
    st.num_routes x y = some (r, { st with lookup_cache := c' }) := by
  unfold SearchState.num_routes
  rw [h]

/-- C3. Edge-blocked engine reachability: for every map, every start and every end
  inside the bounds, a fresh counter's `num_routes (end)` is non-zero if and
  only if the end is reachable from the start by steps that increase `x` or `y`
  by one through an incoming street that `get_blocks` reports open at the
  coordinate stepped into; and every value the call leaves in `lookup_cache` is
  1 for a reachable coordinate and 0 for an unreachable one. -/
theorem edge_nonzero_iff_reachable (map : Map) (start_x start_y end_x end_y : Nat)
    (hW : end_x < map.width) (hH : end_y < map.height) :
    ∃ n st', (SearchState.new map start_x start_y).num_routes end_x end_y = some (n, st') ∧
      (n ≠ 0 ↔ Reachable map ⟨start_x, start_y⟩ ⟨end_x, end_y⟩) ∧
      ∀ k v, find k st'.lookup_cache = some v →
        (v = 1 ∧ Reachable map ⟨start_x, start_y⟩ k) ∨
        (v = 0 ∧ ¬ Reachable map ⟨start_x, start_y⟩ k) := by
  obtain ⟨r, c', he, hiff, hc'⟩ := eval_reach map start_x start_y [] end_x end_y
    (by intro k v h; simp [find] at h)
  refine ⟨r, _, edge_call_of_eval (SearchState.new map start_x start_y) _ _ r c' he,
    ?_, ?_⟩
  · rw [hiff, reachable_iff]
    constructor
    · rintro (⟨rfl, rfl⟩ | ⟨_, _, h⟩)
      · exact Relation.ReflTransGen.refl
      · exact h
    · intro h; exact Or.inr ⟨hW, hH, h⟩
  · intro k v hk
    simp only [reachable_iff]
    exact hc' k v hk

/-- Witness of C3: the 2x2 grid whose street from the left into (1,1) is blocked,
start (0,0), end (1,1). -/
theorem edge_nonzero_iff_reachable_witness :
    (1 < ((Map.new 2 2).add_blocks 1 1 STREET_HORIZ).width ∧
      1 < ((Map.new 2 2).add_blocks 1 1 STREET_HORIZ).height) ∧
    ∃ n st', (SearchState.new ((Map.new 2 2).add_blocks 1 1 STREET_HORIZ) 0 0).num_routes 1 1
        = some (n, st') ∧
      (n ≠ 0 ↔ Reachable ((Map.new 2 2).add_blocks 1 1 STREET_HORIZ) ⟨0, 0⟩ ⟨1, 1⟩) ∧
      ∀ k v, find k st'.lookup_cache = some v →
        (v = 1 ∧ Reachable ((Map.new 2 2).add_blocks 1 1 STREET_HORIZ) ⟨0, 0⟩ k) ∨
        (v = 0 ∧ ¬ Reachable ((Map.new 2 2).add_blocks 1 1 STREET_HORIZ) ⟨0, 0⟩ k) :=
  ⟨by decide,
   edge_nonzero_iff_reachable ((Map.new 2 2).add_blocks 1 1 STREET_HORIZ) 0 0 1 1
    (by decide) (by decide)⟩

/-- What every call does to the memo table: entries are never changed, keys
beyond the anti-diagonal of the end are not written, surrogates stay 0 or 1,
and a call that gets past the three guards leaves the surrogate of its result
under its end. -/
theorem eval_cache (map : Map) (sx sy : Nat) (c : Cache) (x y : Nat) :
    ∃ r c', eval map sx sy c x y = some (r, c') ∧
      (∀ k v, find k c = some v → find k c' = some v) ∧
      (∀ k, x + y < k.x + k.y → find k c' = find k c) ∧
      ((∀ k v, find k c = some v → v = 0 ∨ v = 1) →
        (∀ k v, find k c' = some v → v = 0 ∨ v = 1) ∧
        (¬ (x < sx ∨ y < sy) → ¬ (x = sx ∧ y = sy) → ¬ (x ≥ map.width ∨ y ≥ map.height) →
          find ⟨x, y⟩ c' = some (if r = 0 then 0 else 1))) := by
  refine eval_induction map sx sy
    (fun c x y r c' =>
      (∀ k v, find k c = some v → find k c' = some v) ∧
      (∀ k, x + y < k.x + k.y → find k c' = find k c) ∧
      ((∀ k v, find k c = some v → v = 0 ∨ v = 1) →
        (∀ k v, find k c' = some v → v = 0 ∨ v = 1) ∧
        (¬ (x < sx ∨ y < sy) → ¬ (x = sx ∧ y = sy) → ¬ (x ≥ map.width ∨ y ≥ map.height) →
          find ⟨x, y⟩ c' = some (if r = 0 then 0 else 1))))
    ?_ ?_ ?_ ?_ ?_ c x y
  · intro c x y h1
    exact ⟨fun _ _ h => h, fun _ _ => rfl, fun hb => ⟨hb, fun h => absurd h1 h⟩⟩
  · intro c
    exact ⟨fun _ _ h => h, fun _ _ => rfl, fun hb => ⟨hb, fun _ h => absurd ⟨rfl, rfl⟩ h⟩⟩
  · intro c x y h1 h2 h3
    exact ⟨fun _ _ h => h, fun _ _ => rfl, fun hb => ⟨hb, fun _ _ h => absurd h3 h⟩⟩
  · intro c x y p h1 h2 h3 hf
    refine ⟨fun _ _ h => h, fun _ _ => rfl, fun hb => ⟨hb, fun _ _ _ => ?_⟩⟩
    rw [hf]
    rcases hb _ _ hf with rfl | rfl <;> rfl
  · intro c x y hcnt c1 vc c2 h1 h2 h3 hf p1 q1 p2 q2
    -- the two predecessor calls, blocked or not
    have A : (∀ k v, find k c = some v → find k c1 = some v) ∧
        (∀ k, x + y ≤ k.x + k.y → find k c1 = find k c) ∧
        ((∀ k v, find k c = some v → v = 0 ∨ v = 1) →
          (∀ k v, find k c1 = some v → v = 0 ∨ v = 1)) := by
      by_cases hb : map.get_blocks x y &&& STREET_HORIZ = 0
      · obtain ⟨hx, m1, f1, b1⟩ := p1 hb
        exact ⟨m1, fun k hk => f1 k (by omega), fun h => (b1 h).1⟩
      · obtain ⟨_, rfl⟩ := q1 hb
        exact ⟨fun _ _ h => h, fun _ _ => rfl, fun h => h⟩
    have B : (∀ k v, find k c1 = some v → find k c2 = some v) ∧
        (∀ k, x + y ≤ k.x + k.y → find k c2 = find k c1) ∧
        ((∀ k v, find k c1 = some v → v = 0 ∨ v = 1) →
          (∀ k v, find k c2 = some v → v = 0 ∨ v = 1)) := by
      by_cases hb : map.get_blocks x y &&& STREET_VERT = 0
      · obtain ⟨hy, m2, f2, b2⟩ := p2 hb
        exact ⟨m2, fun k hk => f2 k (by omega), fun h => (b2 h).1⟩
      · obtain ⟨_, rfl⟩ := q2 hb
        exact ⟨fun _ _ h => h, fun _ _ => rfl, fun h => h⟩
    obtain ⟨m1, f1, b1⟩ := A
    obtain ⟨m2, f2, b2⟩ := B
    have hf2 : find ⟨x, y⟩ c2 = none := by
      rw [f2 ⟨x, y⟩ (le_refl _), f1 ⟨x, y⟩ (le_refl _), hf]
    refine ⟨?_, ?_, ?_⟩
    · intro k v hk
      rw [find_emplace, m2 k v (m1 k v hk)]
    · intro k hk
      have hne : (⟨x, y⟩ : Coords) ≠ k := by
        rintro rfl; simp only at hk; omega
      rw [find_emplace, f2 k (by omega), f1 k (by omega)]
      cases find k c with
      | some w => rfl
      | none => simp only [if_neg hne]
    · intro hb
      refine ⟨?_, fun _ _ _ => ?_⟩
      · apply find_emplace_ok c2 ⟨x, y⟩ _ (b2 (b1 hb))
        by_cases h0 : hcnt + vc = 0
        · rw [if_pos h0]; exact Or.inl rfl
        · rw [if_neg h0]; exact Or.inr rfl
      · rw [find_emplace, hf2]
        simp only [if_true]

/-! ## Repeated calls on one edge-blocked search state (C7) -/

/-- A sequence of calls returns, never changes an entry of the memo table, and
keeps the surrogates 0 or 1. -/
theorem SearchState.run_cache (map : Map) (sx sy : Nat) (calls : List Coords) :
    ∀ c : Cache, ∃ rs c', SearchState.run ⟨map, sx, sy, c⟩ calls = some (rs, ⟨map, sx, sy, c'⟩) ∧
      (∀ k v, find k c = some v → find k c' = some v) ∧
      ((∀ k v, find k c = some v → v = 0 ∨ v = 1) →
        (∀ k v, find k c' = some v → v = 0 ∨ v = 1)) := by
  induction calls with
  | nil => intro c; exact ⟨[], c, rfl, fun _ _ h => h, fun h => h⟩
  | cons e rest ih =>
    intro c
    obtain ⟨r, c1, he, m1, _, b1⟩ := eval_cache map sx sy c e.x e.y
    obtain ⟨rs, c2, hr, m2, b2⟩ := ih c1
    refine ⟨r :: rs, c2, ?_, fun k v h => m2 k v (m1 k v h), fun h => b2 (b1 h).1⟩
    rw [SearchState.run, edge_call_of_eval ⟨map, sx, sy, c⟩ e.x e.y r c1 he]
    simp only
    rw [hr]

/-- C7. Edge-blocked engine, stabilisation of repeated calls: for every map and
start, every counter state reached from a fresh counter by earlier calls, and
every coordinate `(x, y)` inside the bounds, in the quadrant of the start and
different from it, the call `num_routes (x, y)` returns some `r` and leaves in
`lookup_cache` the entry `r == 0 ? 0 : 1` for `(x, y)`; after any later calls
that entry is still there, and a further call `num_routes (x, y)` returns it
(and leaves the counter as it was). -/
theorem edge_repeated_calls_stabilise (map : Map) (start_x start_y : Nat)
    (earlier later : List Coords) (x y : Nat)
    (hx : start_x ≤ x) (hy : start_y ≤ y) (hne : ¬ (x = start_x ∧ y = start_y))
    (hW : x < map.width) (hH : y < map.height) :
    ∃ rs0 st0 r st1 rs1 st2,
      (SearchState.new map start_x start_y).run earlier = some (rs0, st0) ∧
      st0.num_routes x y = some (r, st1) ∧
      find ⟨x, y⟩ st1.lookup_cache = some (if r = 0 then 0 else 1) ∧
      st1.run later = some (rs1, st2) ∧
      find ⟨x, y⟩ st2.lookup_cache = some (if r = 0 then 0 else 1) ∧
      st2.num_routes x y = some (if r = 0 then 0 else 1, st2) := by
  have h1 : ¬ (x < start_x ∨ y < start_y) := by omega
  have h3 : ¬ (x ≥ map.width ∨ y ≥ map.height) := by omega
  obtain ⟨rs0, c0, hr0, _, b0⟩ := SearchState.run_cache map start_x start_y earlier []
  have hb0 := b0 (by intro k v h; simp [find] at h)
  obtain ⟨r, c1, he, _, _, b1⟩ := eval_cache map start_x start_y c0 x y
  obtain ⟨_, hentry⟩ := b1 hb0
  have hentry := hentry h1 hne h3
  obtain ⟨rs1, c2, hr1, m2, _⟩ := SearchState.run_cache map start_x start_y later c1
  have hentry2 := m2 _ _ hentry
  refine ⟨rs0, ⟨map, start_x, start_y, c0⟩, r, ⟨map, start_x, start_y, c1⟩, rs1,
    ⟨map, start_x, start_y, c2⟩, hr0, ?_, hentry, hr1, hentry2, ?_⟩
  · exact edge_call_of_eval ⟨map, start_x, start_y, c0⟩ x y r c1 he
  · exact edge_call_of_eval ⟨map, start_x, start_y, c2⟩ x y _ c2
      (eval_hit map start_x start_y c2 x y _ h1 hne h3 hentry2)

/-- Witness of C7: the 3x3 grid without blocked streets, start (0,0), the
coordinate (1,1), after the earlier call (2,2) and with the later call (2,1). -/
theorem edge_repeated_calls_stabilise_witness :
    (0 ≤ 1 ∧ 0 ≤ 1 ∧ ¬ (1 = 0 ∧ 1 = 0) ∧ 1 < (Map.new 3 3).width ∧ 1 < (Map.new 3 3).height) ∧
    ∃ rs0 st0 r st1 rs1 st2,
      (SearchState.new (Map.new 3 3) 0 0).run [⟨2, 2⟩] = some (rs0, st0) ∧
      st0.num_routes 1 1 = some (r, st1) ∧
      find ⟨1, 1⟩ st1.lookup_cache = some (if r = 0 then 0 else 1) ∧
      st1.run [⟨2, 1⟩] = some (rs1, st2) ∧
      find ⟨1, 1⟩ st2.lookup_cache = some (if r = 0 then 0 else 1) ∧
      st2.num_routes 1 1 = some (if r = 0 then 0 else 1, st2) :=
  ⟨by decide,
   edge_repeated_calls_stabilise (Map.new 3 3) 0 0 [⟨2, 2⟩] [⟨2, 1⟩] 1 1
    (by decide) (by decide) (by decide) (by decide) (by decide)⟩

/-! ## Shared and fresh counters (C6); the guards of both engines (C8, C9, C10) -/

/-- A fresh counter: the count is non-zero exactly for the start and for the
coordinates inside the bounds that a route reaches. -/
theorem num_routes_ne_zero_iff (map : Map) (sx sy x y : Nat) :
    ∃ f, num_routes map sx sy x y = some f ∧
      (f ≠ 0 ↔ ((x = sx ∧ y = sy) ∨
        (x < map.width ∧ y < map.height ∧
          Relation.ReflTransGen (Step map) ⟨sx, sy⟩ ⟨x, y⟩))) := by
  obtain ⟨r, c', he, hiff, _⟩ := eval_reach map sx sy [] x y
    (by intro k v h; simp [find] at h)
  refine ⟨r, ?_, hiff⟩
  unfold num_routes
  rw [edge_call_of_eval (SearchState.new map sx sy) x y r c' he]

/-- A shared counter whose memo table holds correct surrogates returns, for each
destination, zero exactly when a fresh counter does. -/
theorem shared_run_zero_iff (map : Map) (sx sy : Nat) (calls : List Coords) :
    ∀ c : Cache,
      (∀ k v, find k c = some v →
        (v = 1 ∧ Relation.ReflTransGen (Step map) ⟨sx, sy⟩ k) ∨
        (v = 0 ∧ ¬ Relation.ReflTransGen (Step map) ⟨sx, sy⟩ k)) →
      ∃ rs st', SearchState.run ⟨map, sx, sy, c⟩ calls = some (rs, st') ∧
        List.Forall₂ (fun e r => ∃ f, num_routes map sx sy e.x e.y = some f ∧ (r = 0 ↔ f = 0))
          calls rs := by
  induction calls with
  | nil => intro c _; exact ⟨[], _, rfl, List.Forall₂.nil⟩
  | cons e rest ih =>
    intro c hc
    obtain ⟨r, c1, he, hiff, hc1⟩ := eval_reach map sx sy c e.x e.y hc
    obtain ⟨rs, st', hr, hall⟩ := ih c1 hc1
    obtain ⟨f, hf, hfiff⟩ := num_routes_ne_zero_iff map sx sy e.x e.y
    refine ⟨r :: rs, st', ?_, List.Forall₂.cons ⟨f, hf, ?_⟩ hall⟩
    · rw [SearchState.run, edge_call_of_eval ⟨map, sx, sy, c⟩ e.x e.y r c1 he]
      simp only
      rw [hr]
    · rw [← not_iff_not]
      exact hiff.trans hfiff.symm

/-- C6 as stated fails: on the 3x3 grid without blocked streets and start (0,0),
one shared counter asked for (1,1) and then (2,2) returns 2 and 4, while a
fresh counter returns 5 for (2,2). -/
theorem edge_shared_counter_counterexample :
    Option.map Prod.fst ((SearchState.new (Map.new 3 3) 0 0).run [⟨1, 1⟩, ⟨2, 2⟩]) = some [2, 4] ∧
    num_routes (Map.new 3 3) 0 0 1 1 = some 2 ∧
    num_routes (Map.new 3 3) 0 0 2 2 = some 5 := by
  decide

/-- C6, amended. Edge-blocked engine, shared counter versus fresh counters: for
every map, start and sequence of destinations, one shared `SearchState` returns
a value for every destination; that value is zero exactly when the value a
fresh `SearchState` returns for the destination is zero; and for the first
destination of the sequence the two values are equal. -/
theorem edge_shared_counter_zero_iff_fresh (map : Map) (start_x start_y : Nat)
    (calls : List Coords) :
    ∃ rs st', (SearchState.new map start_x start_y).run calls = some (rs, st') ∧
      List.Forall₂
        (fun e r => ∃ f, num_routes map start_x start_y e.x e.y = some f ∧ (r = 0 ↔ f = 0))
        calls rs ∧
      (∀ e rest, calls = e :: rest → num_routes map start_x start_y e.x e.y = rs.head?) := by
  obtain ⟨rs, st', hr, hall⟩ := shared_run_zero_iff map start_x start_y calls []
    (by intro k v h; simp [find] at h)
  refine ⟨rs, st', hr, hall, ?_⟩
  rintro e rest rfl
  have hr' : SearchState.run (SearchState.new map start_x start_y) (e :: rest) = some (rs, st') := hr
  rw [SearchState.run] at hr'
  unfold num_routes
  cases h1 : (SearchState.new map start_x start_y).num_routes e.x e.y with
  | none => rw [h1] at hr'; simp at hr'
  | some p =>
    obtain ⟨r, st1⟩ := p
    rw [h1] at hr'
    simp only at hr' ⊢
    cases h2 : SearchState.run st1 rest with
    | none => rw [h2] at hr'; simp at hr'
    | some q =>
      obtain ⟨rs2, st2⟩ := q
      rw [h2] at hr'
      simp only [Option.some.injEq, Prod.mk.injEq] at hr'
      rw [← hr'.1]
      rfl

/-- C8. For both engines, for every map, every start and every counter state,
`num_routes (start_x, start_y)` returns 1 and leaves `lookup_cache` unchanged,
whatever the map says about the start (blocked, streets blocked, outside the
bounds). -/
theorem both_start_returns_one :
    (∀ st : RouteCount.SearchState, st.num_routes st.start_x st.start_y = some (1, st)) ∧
    (∀ st : RouteCountOld.SearchState, st.num_routes st.start_x st.start_y = some (1, st)) := by
  constructor
  · intro st
    exact edge_call_of_eval st _ _ 1 _ (eval_start _ _ _ _)
  · intro st
    exact RouteCountOld.node_call_of_eval st _ _ 1 _ (RouteCountOld.node_eval_start _ _ _ _)

/-- C9. For both engines, for every map, start, counter state and end with
`end_x < start_x` or `end_y < start_y`, `num_routes (end)` returns 0 and leaves
`lookup_cache` unchanged. -/
theorem both_outside_quadrant_returns_zero (map : RouteCount.Map) (map_old : RouteCountOld.Map)
    (start_x start_y : Nat) (cache cache_old : Cache) (end_x end_y : Nat)
    (h : end_x < start_x ∨ end_y < start_y) :
    RouteCount.SearchState.num_routes ⟨map, start_x, start_y, cache⟩ end_x end_y =
      some (0, ⟨map, start_x, start_y, cache⟩) ∧
    RouteCountOld.SearchState.num_routes ⟨map_old, start_x, start_y, cache_old⟩ end_x end_y =
      some (0, ⟨map_old, start_x, start_y, cache_old⟩) := by
  constructor
  · exact edge_call_of_eval ⟨map, start_x, start_y, cache⟩ _ _ 0 _
      (eval_out _ _ _ _ _ _ h)
  · exact RouteCountOld.node_call_of_eval ⟨map_old, start_x, start_y, cache_old⟩
      _ _ 0 _ (RouteCountOld.node_eval_out _ _ _ _ _ _ h)

/-- Witness of C9: start (1,1), end (0,2), on 3x3 grids with a non-empty memo
table. -/
theorem both_outside_quadrant_returns_zero_witness :
    (0 < 1 ∨ 2 < 1) ∧
    RouteCount.SearchState.num_routes ⟨Map.new 3 3, 1, 1, [(⟨2, 2⟩, 1)]⟩ 0 2 =
      some (0, ⟨Map.new 3 3, 1, 1, [(⟨2, 2⟩, 1)]⟩) ∧
    RouteCountOld.SearchState.num_routes ⟨⟨3, 3, []⟩, 1, 1, [(⟨2, 2⟩, 2)]⟩ 0 2 =
      some (0, ⟨⟨3, 3, []⟩, 1, 1, [(⟨2, 2⟩, 2)]⟩) :=
  ⟨by decide,
   both_outside_quadrant_returns_zero (Map.new 3 3) ⟨3, 3, []⟩ 1 1 [(⟨2, 2⟩, 1)] [(⟨2, 2⟩, 2)] 0 2
    (by decide)⟩

/-- C10 as stated fails: on 1x1 grids with start (5,5), the end (5,5) lies
outside the bounds and both engines return 1 for it. -/
theorem both_out_of_bounds_counterexample :
    (5 ≥ (Map.new 1 1).width ∨ 5 ≥ (Map.new 1 1).height) ∧
    RouteCount.num_routes (Map.new 1 1) 5 5 5 5 = some 1 ∧
    RouteCountOld.num_routes ⟨1, 1, []⟩ 5 5 5 5 = some 1 := by
  decide

/-- C10, amended. For both engines, for every map of width `W` and height `H`,
every start, every counter state and every end other than the start that lies
outside the grid bounds (`end_x ≥ W` or `end_y ≥ H`), `num_routes (end)` returns
0 and leaves `lookup_cache` unchanged. -/
theorem both_out_of_bounds_returns_zero (map : RouteCount.Map) (map_old : RouteCountOld.Map)
    (start_x start_y : Nat) (cache cache_old : Cache) (end_x end_y : Nat)
    (hne : ¬ (end_x = start_x ∧ end_y = start_y))
    (h : end_x ≥ map.width ∨ end_y ≥ map.height)
    (h_old : end_x ≥ map_old.width ∨ end_y ≥ map_old.height) :
    RouteCount.SearchState.num_routes ⟨map, start_x, start_y, cache⟩ end_x end_y =
      some (0, ⟨map, start_x, start_y, cache⟩) ∧
    RouteCountOld.SearchState.num_routes ⟨map_old, start_x, start_y, cache_old⟩ end_x end_y =
      some (0, ⟨map_old, start_x, start_y, cache_old⟩) := by
  constructor
  · exact edge_call_of_eval ⟨map, start_x, start_y, cache⟩ _ _ 0 _
      (eval_oob _ _ _ _ _ _ hne h)
  · exact RouteCountOld.node_call_of_eval ⟨map_old, start_x, start_y, cache_old⟩
      _ _ 0 _ (RouteCountOld.node_eval_oob _ _ _ _ _ _ hne h_old)

/-- Witness of C10 (amended): 3x3 grids, start (0,0), end (3,1). -/
theorem both_out_of_bounds_returns_zero_witness :
    (¬ (3 = 0 ∧ 1 = 0) ∧ (3 ≥ (Map.new 3 3).width ∨ 1 ≥ (Map.new 3 3).height) ∧
      (3 ≥ (⟨3, 3, []⟩ : RouteCountOld.Map).width ∨ 1 ≥ (⟨3, 3, []⟩ : RouteCountOld.Map).height)) ∧
    RouteCount.SearchState.num_routes ⟨Map.new 3 3, 0, 0, []⟩ 3 1 =
      some (0, ⟨Map.new 3 3, 0, 0, []⟩) ∧
    RouteCountOld.SearchState.num_routes ⟨⟨3, 3, []⟩, 0, 0, []⟩ 3 1 =
      some (0, ⟨⟨3, 3, []⟩, 0, 0, []⟩) :=
  ⟨by decide,
   both_out_of_bounds_returns_zero (Map.new 3 3) ⟨3, 3, []⟩ 0 0 [] [] 3 1 (by decide)
     (by decide) (by decide)⟩

/-! ## The edge-blocked engine on a map without blocked streets -/

theorem new_horiz_clear_iff (W H x y : Nat) :
    (Map.new W H).get_blocks x y &&& STREET_HORIZ = 0 ↔ x ≠ 0 := by
  unfold Map.get_blocks Map.new
  simp only [find]
  by_cases hx : x = 0 <;> by_cases hy : y = 0 <;>
    simp only [hx, hy, if_true, if_false, STREET_HORIZ, STREET_VERT] <;>
    first | decide | exact iff_of_true (by decide) hx

theorem new_vert_clear_iff (W H x y : Nat) :
    (Map.new W H).get_blocks x y &&& STREET_VERT = 0 ↔ y ≠ 0 := by
  unfold Map.get_blocks Map.new
  simp only [find]
  by_cases hx : x = 0 <;> by_cases hy : y = 0 <;>
    simp only [hx, hy, if_true, if_false, STREET_HORIZ, STREET_VERT] <;>
    first | decide | exact iff_of_true (by decide) hy

/-- Adding the entry `(k0, 1)` to a memo table that extends `c` by ones on a
region extends `c` by ones on the region with `k0` added. -/
theorem find_emplace_region (c c1 : Cache) (k0 : Coords) (A A' : Coords → Prop)
    [DecidablePred A] [DecidablePred A']
    (h1 : ∀ k, find k c1 = if A k then some 1 else find k c) (h0 : find k0 c = none)
    (hA : ∀ k, A' k ↔ A k ∨ k = k0) :
    ∀ k, find k (emplace c1 k0 1) = if A' k then some 1 else find k c := by
  intro k
  rw [find_emplace, h1 k]
  by_cases hk : A k
  · rw [if_pos hk, if_pos ((hA k).2 (Or.inl hk))]
  · rw [if_neg hk]
    by_cases hk0 : k = k0
    · subst hk0
      rw [h0, if_pos ((hA k).2 (Or.inr rfl))]
      simp
    · rw [if_neg (fun h => (((hA k).1 h).elim hk hk0))]
      have : ¬ k0 = k := fun h => hk0 h.symm
      cases find k c with
      | some w => rfl
      | none => simp only [if_neg this]

/-- The two predecessor calls on a map without blocked streets. -/
theorem eval_miss_new (W H sx sy : Nat) (c : Cache) (x y : Nat)
    (h1 : ¬ (x < sx ∨ y < sy)) (h2 : ¬ (x = sx ∧ y = sy))
    (hW : x < W) (hH : y < H) (hf : find ⟨x, y⟩ c = none)
    (hc vc : Nat) (c1 c2 : Cache)
    (e1 : (if x = 0 then some (0, c) else eval (Map.new W H) sx sy c (x - 1) y) = some (hc, c1))
    (e2 : (if y = 0 then some (0, c1) else eval (Map.new W H) sx sy c1 x (y - 1)) = some (vc, c2)) :
    eval (Map.new W H) sx sy c x y =
      some (hc + vc, emplace c2 ⟨x, y⟩ (if hc + vc = 0 then 0 else 1)) := by
  have h3 : ¬ (x ≥ (Map.new W H).width ∨ y ≥ (Map.new W H).height) := by
    simp only [Map.new]; omega
  rw [eval_miss (Map.new W H) sx sy c x y h1 h2 h3 hf]
  have E1 : (if (Map.new W H).get_blocks x y &&& STREET_HORIZ = 0
      then eval (Map.new W H) sx sy c (x - 1) y else some (0, c)) = some (hc, c1) := by
    rw [← e1]
    by_cases hx : x = 0
    · rw [if_pos hx, if_neg (fun h => (new_horiz_clear_iff W H x y).1 h hx)]
    · rw [if_neg hx, if_pos ((new_horiz_clear_iff W H x y).2 hx)]
  rw [E1]
  simp only
  have E2 : (if (Map.new W H).get_blocks x y &&& STREET_VERT = 0
      then eval (Map.new W H) sx sy c1 x (y - 1) else some (0, c1)) = some (vc, c2) := by
    rw [← e2]
    by_cases hy : y = 0
    · rw [if_pos hy, if_neg (fun h => (new_vert_clear_iff W H x y).1 h hy)]
    · rw [if_neg hy, if_pos ((new_vert_clear_iff W H x y).2 hy)]
  rw [E2]

/-- The first column of the quadrant, not yet in the memo table: every call
returns 1 and the column is filled with ones. -/
theorem eval_new_first_column (W H sx sy : Nat) (hW : sx < W) :
    ∀ d c, sy + d < H → (∀ j, sy < j → j ≤ sy + d → find ⟨sx, j⟩ c = none) →
      ∃ c', eval (Map.new W H) sx sy c sx (sy + d) = some (1, c') ∧
        ∀ k, find k c' = if k.x = sx ∧ sy < k.y ∧ k.y ≤ sy + d then some 1 else find k c := by
  intro d
  induction d with
  | zero =>
    intro c _ _
    refine ⟨c, eval_start _ _ _ _, fun k => ?_⟩
    rw [if_neg (by omega)]
  | succ d ih =>
    intro c hH hnone
    obtain ⟨c1, he1, hc1⟩ := ih c (by omega) (fun j h1 h2 => hnone j h1 (by omega))
    have e1 : (if sx = 0 then some (0, c)
        else eval (Map.new W H) sx sy c (sx - 1) (sy + (d + 1))) = some (0, c) := by
      by_cases h0 : sx = 0
      · rw [if_pos h0]
      · rw [if_neg h0, eval_out _ _ _ _ _ _ (Or.inl (by omega))]
    have e2 : (if sy + (d + 1) = 0 then some (0, c)
        else eval (Map.new W H) sx sy c sx (sy + (d + 1) - 1)) = some (1, c1) := by
      rw [if_neg (by omega)]
      have : sy + (d + 1) - 1 = sy + d := by omega
      rw [this, he1]
    have hev := eval_miss_new W H sx sy c sx (sy + (d + 1)) (by omega) (by omega) hW hH
      (hnone _ (by omega) (le_refl _)) 0 1 c c1 e1 e2
    refine ⟨_, hev, ?_⟩
    simp only [zero_add, one_ne_zero, if_false]
    apply find_emplace_region c c1 ⟨sx, sy + (d + 1)⟩ _ _ hc1 (hnone _ (by omega) (le_refl _))
    intro k
    obtain ⟨kx, ky⟩ := k
    simp only [Coords.mk.injEq]
    omega

/-- A call on a coordinate of the quadrant that is the start or holds the
surrogate 1 returns 1 and leaves the memo table alone. -/
theorem eval_one (map : Map) (sx sy : Nat) (c : Cache) (x y : Nat)
    (hx : sx ≤ x) (hy : sy ≤ y) (hW : x < map.width) (hH : y < map.height)
    (h : ¬ (x = sx ∧ y = sy) → find ⟨x, y⟩ c = some 1) :
    eval map sx sy c x y = some (1, c) := by
  by_cases h2 : x = sx ∧ y = sy
  · obtain ⟨rfl, rfl⟩ := h2
    exact eval_start _ _ _ _
  · exact eval_hit map sx sy c x y 1 (by omega) h2 (by omega) (h h2)

/-- A later column of the quadrant, not yet in the memo table, next to a column
that is: the call at depth `d` returns `1 + d` and the column is filled. -/
theorem eval_new_next_column (W H sx sy x : Nat) (hx : sx < x) (hW : x < W) :
    ∀ d c, sy + d < H →
      (∀ j, sy ≤ j → j ≤ sy + d → ¬ (x - 1 = sx ∧ j = sy) → find ⟨x - 1, j⟩ c = some 1) →
      (∀ j, sy ≤ j → j ≤ sy + d → find ⟨x, j⟩ c = none) →
      ∃ c', eval (Map.new W H) sx sy c x (sy + d) = some (1 + d, c') ∧
        ∀ k, find k c' = if k.x = x ∧ sy ≤ k.y ∧ k.y ≤ sy + d then some 1 else find k c := by
  intro d
  induction d with
  | zero =>
    intro c hH hprev hnone
    have e1 : (if x = 0 then some (0, c)
        else eval (Map.new W H) sx sy c (x - 1) (sy + 0)) = some (1, c) := by
      rw [if_neg (by omega)]
      exact eval_one _ _ _ _ _ _ (by omega) (by omega) (by simp only [Map.new]; omega)
        (by simp only [Map.new]; omega) (hprev _ (by omega) (le_refl _))
    have e2 : (if sy + 0 = 0 then some (0, c)
        else eval (Map.new W H) sx sy c x (sy + 0 - 1)) = some (0, c) := by
      by_cases h0 : sy + 0 = 0
      · rw [if_pos h0]
      · rw [if_neg h0, eval_out _ _ _ _ _ _ (Or.inr (by omega))]
    have hev := eval_miss_new W H sx sy c x (sy + 0) (by omega) (by omega) hW hH
      (hnone _ (by omega) (le_refl _)) 1 0 c c e1 e2
    refine ⟨_, hev, ?_⟩
    simp only [add_zero, one_ne_zero, if_false]
    apply find_emplace_region c c ⟨x, sy⟩ (fun _ => False) _ (fun k => by simp)
      (by simpa using hnone sy (le_refl _) (by omega))
    intro k
    obtain ⟨kx, ky⟩ := k
    simp only [Coords.mk.injEq, false_or]
    omega
  | succ d ih =>
    intro c hH hprev hnone
    have e1 : (if x = 0 then some (0, c)
        else eval (Map.new W H) sx sy c (x - 1) (sy + (d + 1))) = some (1, c) := by
      rw [if_neg (by omega)]
      exact eval_one _ _ _ _ _ _ (by omega) (by omega) (by simp only [Map.new]; omega)
        (by simp only [Map.new]; omega) (hprev _ (by omega) (le_refl _))
    obtain ⟨c1, he1, hc1⟩ := ih c (by omega)
      (fun j h1 h2 => hprev j h1 (by omega)) (fun j h1 h2 => hnone j h1 (by omega))
    have e2 : (if sy + (d + 1) = 0 then some (0, c)
        else eval (Map.new W H) sx sy c x (sy + (d + 1) - 1)) = some (1 + d, c1) := by
      rw [if_neg (by omega)]
      have : sy + (d + 1) - 1 = sy + d := by omega
      rw [this, he1]
    have hev := eval_miss_new W H sx sy c x (sy + (d + 1)) (by omega) (by omega) hW hH
      (hnone _ (by omega) (le_refl _)) 1 (1 + d) c c1 e1 e2
    have hne : ¬ (1 + (1 + d) = 0) := by omega
    rw [if_neg hne, Nat.add_comm 1 d] at hev
    refine ⟨_, hev, ?_⟩
    · apply find_emplace_region c c1 ⟨x, sy + (d + 1)⟩ _ _ hc1 (hnone _ (by omega) (le_refl _))
      intro k
      obtain ⟨kx, ky⟩ := k
      simp only [Coords.mk.injEq]
      omega

/-! ## Both engines on an unblocked grid (C1) -/

/-- A rectangle of the quadrant none of whose coordinates is in the memo table:
the call at its far corner returns `1 + a * d` and fills the rectangle (the
start apart) with ones. -/
theorem eval_new_rectangle (W H sx sy : Nat) :
    ∀ a d c, sx + a < W → sy + d < H →
      (∀ i j, sx ≤ i → i ≤ sx + a → sy ≤ j → j ≤ sy + d → find ⟨i, j⟩ c = none) →
      ∃ c', eval (Map.new W H) sx sy c (sx + a) (sy + d) = some (1 + a * d, c') ∧
        ∀ k, find k c' =
          if sx ≤ k.x ∧ k.x ≤ sx + a ∧ sy ≤ k.y ∧ k.y ≤ sy + d ∧ ¬ (k.x = sx ∧ k.y = sy)
          then some 1 else find k c := by
  intro a
  induction a with
  | zero =>
    intro d c hW hH hnone
    obtain ⟨c', he, hc'⟩ := eval_new_first_column W H sx sy (by omega) d c hH
      (fun j h1 h2 => hnone sx j (le_refl _) (by omega) (by omega) h2)
    refine ⟨c', by simpa using he, fun k => ?_⟩
    rw [hc' k]
    exact if_congr (by omega) rfl rfl
  | succ a ih =>
    intro d c hW hH hnone
    obtain ⟨c1, he1, hc1⟩ := ih d c (by omega) hH
      (fun i j h1 h2 h3 h4 => hnone i j h1 (by omega) h3 h4)
    have hf : find ⟨sx + (a + 1), sy + d⟩ c = none :=
      hnone _ _ (by omega) (le_refl _) (by omega) (le_refl _)
    have e1 : (if sx + (a + 1) = 0 then some (0, c)
        else eval (Map.new W H) sx sy c (sx + (a + 1) - 1) (sy + d)) = some (1 + a * d, c1) := by
      rw [if_neg (by omega)]
      have : sx + (a + 1) - 1 = sx + a := by omega
      rw [this, he1]
    cases d with
    | zero =>
      have e2 : (if sy + 0 = 0 then some (0, c1)
          else eval (Map.new W H) sx sy c1 (sx + (a + 1)) (sy + 0 - 1)) = some (0, c1) := by
        by_cases h0 : sy + 0 = 0
        · rw [if_pos h0]
        · rw [if_neg h0, eval_out _ _ _ _ _ _ (Or.inr (by omega))]
      have hev := eval_miss_new W H sx sy c (sx + (a + 1)) (sy + 0) (by omega) (by omega) hW hH
        hf (1 + a * 0) 0 c1 c1 e1 e2
      simp only [Nat.mul_zero, Nat.add_zero, one_ne_zero, if_false] at hev
      refine ⟨_, by simpa using hev, ?_⟩
      apply find_emplace_region c c1 ⟨sx + (a + 1), sy⟩ _ _ hc1 (by simpa using hf)
      intro k
      obtain ⟨kx, ky⟩ := k
      simp only [Coords.mk.injEq]
      omega
    | succ d =>
      obtain ⟨c2, he2, hc2⟩ := eval_new_next_column W H sx sy (sx + (a + 1)) (by omega) hW d c1
        (by omega)
        (by
          intro j h1 h2 h3
          rw [hc1]
          have : sx + (a + 1) - 1 = sx + a := by omega
          rw [if_pos]
          simp only
          omega)
        (by
          intro j h1 h2
          rw [hc1, if_neg (by simp only; omega)]
          exact hnone _ _ (by omega) (le_refl _) h1 (by omega))
      have e2 : (if sy + (d + 1) = 0 then some (0, c1)
          else eval (Map.new W H) sx sy c1 (sx + (a + 1)) (sy + (d + 1) - 1))
            = some (1 + d, c2) := by
        rw [if_neg (by omega)]
        have : sy + (d + 1) - 1 = sy + d := by omega
        rw [this, he2]
      have hev := eval_miss_new W H sx sy c (sx + (a + 1)) (sy + (d + 1)) (by omega) (by omega)
        hW hH hf (1 + a * (d + 1)) (1 + d) c1 c2 e1 e2
      have hsum : 1 + a * (d + 1) + (1 + d) = 1 + (a + 1) * (d + 1) := by ring
      have hne : ¬ (1 + (a + 1) * (d + 1) = 0) := by omega
      rw [hsum, if_neg hne] at hev
      refine ⟨_, hev, ?_⟩
      have hc2' : ∀ k, find k c2 =
          if (k.x = sx + (a + 1) ∧ sy ≤ k.y ∧ k.y ≤ sy + d) ∨
             (sx ≤ k.x ∧ k.x ≤ sx + a ∧ sy ≤ k.y ∧ k.y ≤ sy + (d + 1) ∧ ¬ (k.x = sx ∧ k.y = sy))
          then some 1 else find k c := by
        intro k
        rw [hc2 k, hc1 k]
        by_cases hA : k.x = sx + (a + 1) ∧ sy ≤ k.y ∧ k.y ≤ sy + d
        · rw [if_pos hA, if_pos (Or.inl hA)]
        · rw [if_neg hA]
          exact if_congr (by tauto) rfl rfl
      apply find_emplace_region c c2 ⟨sx + (a + 1), sy + (d + 1)⟩ _ _ hc2' hf
      intro k
      obtain ⟨kx, ky⟩ := k
      simp only [Coords.mk.injEq]
      omega

theorem fresh_of_eval (map : Map) (sx sy x y r : Nat) (c' : Cache)
    (h : eval map sx sy [] x y = some (r, c')) : num_routes map sx sy x y = some r := by
  unfold num_routes
  rw [edge_call_of_eval (SearchState.new map sx sy) x y r c' h]

/-- C1. Cross-engine agreement on unblocked grids: for every width `W` and
height `H`, every start and every end inside the bounds, the edge-blocked
engine on a map with no `add_blocks` call and the node-blocked engine on a map
with an empty block set, each with a fresh `SearchState`, return the same
value.  (The start need not be assumed inside the bounds.) -/
theorem engines_agree_unblocked (W H start_x start_y end_x end_y : Nat)
    (heW : end_x < W) (heH : end_y < H) :
    ∃ n, RouteCount.num_routes (Map.new W H) start_x start_y end_x end_y = some n ∧
      RouteCountOld.num_routes ⟨W, H, []⟩ start_x start_y end_x end_y = some n := by
  by_cases h1 : end_x < start_x ∨ end_y < start_y
  · refine ⟨0, fresh_of_eval _ _ _ _ _ 0 [] (eval_out _ _ _ _ _ _ h1), ?_⟩
    rw [RouteCountOld.num_routes_eq_count_free, RouteCountOld.count_free_out _ _ _ _ _ h1]
  · obtain ⟨a, rfl⟩ : ∃ a, end_x = start_x + a := ⟨end_x - start_x, by omega⟩
    obtain ⟨d, rfl⟩ : ∃ d, end_y = start_y + d := ⟨end_y - start_y, by omega⟩
    obtain ⟨c', he, _⟩ := eval_new_rectangle W H start_x start_y a d [] heW heH
      (fun _ _ _ _ _ _ => rfl)
    refine ⟨1 + a * d, fresh_of_eval _ _ _ _ _ _ c' he, ?_⟩
    rw [RouteCountOld.num_routes_eq_count_free,
      RouteCountOld.count_free_unblocked W H start_x start_y (start_x + a + (start_y + d) + 1)
        _ _ (by omega) (by omega) (by omega) heW heH]
    simp

/-- Witness of C1: `W = H = 3`, start (0,0), end (2,2); both engines return 5. -/
theorem engines_agree_unblocked_witness :
    (2 < 3 ∧ 2 < 3) ∧
    RouteCount.num_routes (Map.new 3 3) 0 0 2 2 = some 5 ∧
    RouteCountOld.num_routes ⟨3, 3, []⟩ 0 0 2 2 = some 5 ∧
    ∃ n, RouteCount.num_routes (Map.new 3 3) 0 0 2 2 = some n ∧
      RouteCountOld.num_routes ⟨3, 3, []⟩ 0 0 2 2 = some n :=
  ⟨by decide, by decide, by decide, engines_agree_unblocked 3 3 0 0 2 2 (by decide) (by decide)⟩

end RouteCount

/-! ## The edge-blocked map: `get_blocks` and `add_blocks` (C11, C12, C13) -/

namespace RouteCount

/-- C11. Edge-blocked engine, a blocked incoming street contributes nothing: for
every map, start and end other than the start, inside the bounds and in the
quadrant of the start, if `get_blocks (end)` has `STREET_HORIZ` set and
`STREET_VERT` clear, then a fresh counter's `num_routes (end)` equals a fresh
counter's `num_routes (end_x, end_y - 1)`. -/
theorem edge_blocked_street_contributes_nothing (map : Map)
    (start_x start_y end_x end_y : Nat)
    (hx : start_x ≤ end_x) (hy : start_y ≤ end_y)
    (hne : ¬ (end_x = start_x ∧ end_y = start_y))
    (hW : end_x < map.width) (hH : end_y < map.height)
    (hset : map.get_blocks end_x end_y &&& STREET_HORIZ ≠ 0)
    (hclear : map.get_blocks end_x end_y &&& STREET_VERT = 0) :
    ∃ n, num_routes map start_x start_y end_x end_y = some n ∧
      num_routes map start_x start_y end_x (end_y - 1) = some n := by
  obtain ⟨r, c', he⟩ := eval_total map start_x start_y [] end_x (end_y - 1)
  refine ⟨r, ?_, fresh_of_eval _ _ _ _ _ r c' he⟩
  have hm := eval_miss map start_x start_y [] end_x end_y (by omega) hne (by omega) rfl
  rw [if_neg hset] at hm
  simp only [if_pos hclear, he, Nat.zero_add] at hm
  exact fresh_of_eval _ _ _ _ _ r _ hm

/-- Witness of C11: the 2x2 grid whose street from the left into (1,1) is
blocked, start (0,0): `num_routes (1,1) = num_routes (1,0) = 1`. -/
theorem edge_blocked_street_contributes_nothing_witness :
    num_routes ((Map.new 2 2).add_blocks 1 1 STREET_HORIZ) 0 0 1 1 = some 1 ∧
    num_routes ((Map.new 2 2).add_blocks 1 1 STREET_HORIZ) 0 0 1 0 = some 1 ∧
    ∃ n, num_routes ((Map.new 2 2).add_blocks 1 1 STREET_HORIZ) 0 0 1 1 = some n ∧
      num_routes ((Map.new 2 2).add_blocks 1 1 STREET_HORIZ) 0 0 1 (1 - 1) = some n :=
  ⟨by decide, by decide,
   edge_blocked_street_contributes_nothing ((Map.new 2 2).add_blocks 1 1 STREET_HORIZ) 0 0 1 1
    (by decide) (by decide) (by decide) (by decide) (by decide) (by decide) (by decide)⟩

/-- The value of `get_blocks`: the stored set, with the two boundary bits. -/
theorem get_blocks_eq (m : Map) (x y : Nat) :
    m.get_blocks x y =
      ((find ⟨x, y⟩ m.blocks).getD 0 ||| (if x = 0 then STREET_HORIZ else 0)) |||
        (if y = 0 then STREET_VERT else 0) := by
  unfold Map.get_blocks
  cases find ⟨x, y⟩ m.blocks <;> by_cases hx : x = 0 <;> by_cases hy : y = 0 <;>
    simp [hx, hy]

/-- C12. `Map::get_blocks (x, y)` returns, for every map and every `(x, y)`,
inside or outside the bounds, the bitwise OR of the stored set for `(x, y)` (0
when there is no entry), of `STREET_HORIZ` if `x == 0`, and of `STREET_VERT` if
`y == 0`.  It is a total function of the map and the coordinate, so it never
fails and leaves the map as it is. -/
theorem get_blocks_is_stored_or_edges (m : Map) (x y : Nat) :
    m.get_blocks x y =
      ((find ⟨x, y⟩ m.blocks).getD 0 ||| (if x = 0 then STREET_HORIZ else 0)) |||
        (if y = 0 then STREET_VERT else 0) :=
  get_blocks_eq m x y

theorem find_assign {V : Type} (k k' : Coords) (v : V) (m : List (Coords × V)) :
    find k' (assign k v m) =
      if k' = k then (match find k m with | some _ => some v | none => none)
      else find k' m := by
  induction m with
  | nil => simp [assign, find]
  | cons p rest ih =>
    obtain ⟨k0, v0⟩ := p
    by_cases h0 : k0 = k
    · subst h0
      by_cases hk : k' = k0
      · subst hk; simp [assign, find]
      · have : ¬ k0 = k' := fun h => hk h.symm
        simp [assign, find, hk, this]
    · by_cases hk : k' = k
      · subst hk
        simp only [assign, find, if_neg h0, if_true] at ih ⊢
        exact ih
      · simp only [assign, find, if_neg h0, if_neg hk] at ih ⊢
        rw [ih]

/-- The stored set of a coordinate after `add_blocks`. -/
theorem stored_add_blocks (m : Map) (x y s x' y' : Nat) :
    (find ⟨x', y'⟩ (m.add_blocks x y s).blocks).getD 0 =
      if x' = x ∧ y' = y then (find ⟨x', y'⟩ m.blocks).getD 0 ||| s
      else (find ⟨x', y'⟩ m.blocks).getD 0 := by
  unfold Map.add_blocks
  cases hf : find ⟨x, y⟩ m.blocks with
  | none =>
    simp only [find_emplace]
    by_cases h : x' = x ∧ y' = y
    · obtain ⟨rfl, rfl⟩ := h
      simp [hf]
    · have h' : ¬ ((⟨x, y⟩ : Coords) = ⟨x', y'⟩) := by
        intro e; injection e with e1 e2; exact h ⟨e1.symm, e2.symm⟩
      rw [if_neg h]
      cases find ⟨x', y'⟩ m.blocks <;> simp [h']
  | some old =>
    simp only [find_assign]
    by_cases h : x' = x ∧ y' = y
    · obtain ⟨rfl, rfl⟩ := h
      simp [hf]
    · have h' : ¬ ((⟨x', y'⟩ : Coords) = ⟨x, y⟩) := by
        intro e; injection e with e1 e2; exact h ⟨e1, e2⟩
      rw [if_neg h, if_neg h']

theorem get_blocks_add_blocks (m : Map) (x y s x' y' : Nat) :
    (m.add_blocks x y s).get_blocks x' y' =
      if x' = x ∧ y' = y then m.get_blocks x' y' ||| s else m.get_blocks x' y' := by
  rw [get_blocks_eq, get_blocks_eq, stored_add_blocks]
  by_cases h : x' = x ∧ y' = y
  · rw [if_pos h, if_pos h]
    generalize (find ⟨x', y'⟩ m.blocks).getD 0 = a
    generalize (if x' = 0 then STREET_HORIZ else 0) = b
    generalize (if y' = 0 then STREET_VERT else 0) = c
    rw [Nat.lor_assoc a s b, Nat.lor_comm s b, ← Nat.lor_assoc a b s,
      Nat.lor_assoc (a ||| b) s c, Nat.lor_comm s c, ← Nat.lor_assoc (a ||| b) c s]
  · rw [if_neg h, if_neg h]

theorem add_blocks_bounds (m : Map) (x y s : Nat) :
    (m.add_blocks x y s).width = m.width ∧ (m.add_blocks x y s).height = m.height := by
  unfold Map.add_blocks
  cases find ⟨x, y⟩ m.blocks <;> exact ⟨rfl, rfl⟩

/-- C13. `Map::add_blocks` accumulates by bitwise OR: for every map `m`,
coordinates `c = (x, y)` and `c' = (x', y')` and bit set `s`, `get_blocks` of
`c'` after `add_blocks (c, s)` is `get_blocks (m, c') OR s` when `c' == c` and
`get_blocks (m, c')` otherwise, and the bounds are kept; hence adding the same
record twice leaves the same observable map as adding it once, and two records
for one coordinate may be added in either order. -/
theorem add_blocks_accumulates (m : Map) (x y s t x' y' : Nat) :
    ((m.add_blocks x y s).get_blocks x' y' =
      if x' = x ∧ y' = y then m.get_blocks x' y' ||| s else m.get_blocks x' y') ∧
    ((m.add_blocks x y s).width = m.width ∧ (m.add_blocks x y s).height = m.height) ∧
    (((m.add_blocks x y s).add_blocks x y s).get_blocks x' y' =
      (m.add_blocks x y s).get_blocks x' y') ∧
    (((m.add_blocks x y s).add_blocks x y t).get_blocks x' y' =
      ((m.add_blocks x y t).add_blocks x y s).get_blocks x' y') := by
  refine ⟨get_blocks_add_blocks m x y s x' y', add_blocks_bounds m x y s, ?_, ?_⟩
  · rw [get_blocks_add_blocks, get_blocks_add_blocks]
    by_cases h : x' = x ∧ y' = y
    · simp only [if_pos h, Nat.lor_assoc, Nat.or_self]
    · simp only [if_neg h]
  · simp only [get_blocks_add_blocks]
    by_cases h : x' = x ∧ y' = y
    · simp only [if_pos h]
      rw [Nat.lor_assoc, Nat.lor_comm s t, ← Nat.lor_assoc]
    · simp only [if_neg h]

end RouteCount

/-! ## The keys of the memo table (C17) -/

namespace RouteCount

/-- Every key the edge-blocked engine writes is in the quadrant of the start,
differs from the start and is inside the bounds. -/
theorem eval_keys (map : Map) (sx sy : Nat) (c : Cache) (x y : Nat)
    (hc : ∀ k v, find k c = some v →
      ¬ (k.x < sx ∨ k.y < sy) ∧ ¬ (k.x = sx ∧ k.y = sy) ∧
        ¬ (k.x ≥ map.width ∨ k.y ≥ map.height)) :
    ∃ r c', eval map sx sy c x y = some (r, c') ∧
      ∀ k v, find k c' = some v →
        ¬ (k.x < sx ∨ k.y < sy) ∧ ¬ (k.x = sx ∧ k.y = sy) ∧
          ¬ (k.x ≥ map.width ∨ k.y ≥ map.height) := by
  have main := eval_induction map sx sy
    (fun c _ _ _ c' =>
      (∀ k v, find k c = some v →
        ¬ (k.x < sx ∨ k.y < sy) ∧ ¬ (k.x = sx ∧ k.y = sy) ∧
          ¬ (k.x ≥ map.width ∨ k.y ≥ map.height)) →
      ∀ k v, find k c' = some v →
        ¬ (k.x < sx ∨ k.y < sy) ∧ ¬ (k.x = sx ∧ k.y = sy) ∧
          ¬ (k.x ≥ map.width ∨ k.y ≥ map.height))
    (fun _ _ _ _ h => h) (fun _ h => h) (fun _ _ _ _ _ _ h => h)
    (fun _ _ _ _ _ _ _ _ h => h)
    (by
      intro c x y hcnt c1 vc c2 h1 h2 h3 hf p1 q1 p2 q2 hc
      have hc1 : ∀ k v, find k c1 = some v →
          ¬ (k.x < sx ∨ k.y < sy) ∧ ¬ (k.x = sx ∧ k.y = sy) ∧
            ¬ (k.x ≥ map.width ∨ k.y ≥ map.height) := by
        by_cases hb : map.get_blocks x y &&& STREET_HORIZ = 0
        · exact (p1 hb).2 hc
        · obtain ⟨_, rfl⟩ := q1 hb; exact hc
      have hc2 : ∀ k v, find k c2 = some v →
          ¬ (k.x < sx ∨ k.y < sy) ∧ ¬ (k.x = sx ∧ k.y = sy) ∧
            ¬ (k.x ≥ map.width ∨ k.y ≥ map.height) := by
        by_cases hb : map.get_blocks x y &&& STREET_VERT = 0
        · exact (p2 hb).2 hc1
        · obtain ⟨_, rfl⟩ := q2 hb; exact hc1
      exact find_emplace_ok c2 ⟨x, y⟩ _ hc2 ⟨h1, h2, h3⟩)
    c x y
  obtain ⟨r, c', he, hp⟩ := main
  exact ⟨r, c', he, hp hc⟩

theorem SearchState.run_keys (map : Map) (sx sy : Nat) (calls : List Coords) :
    ∀ c : Cache,
      (∀ k v, find k c = some v →
        ¬ (k.x < sx ∨ k.y < sy) ∧ ¬ (k.x = sx ∧ k.y = sy) ∧
          ¬ (k.x ≥ map.width ∨ k.y ≥ map.height)) →
      ∃ rs c', SearchState.run ⟨map, sx, sy, c⟩ calls = some (rs, ⟨map, sx, sy, c'⟩) ∧
        ∀ k v, find k c' = some v →
          ¬ (k.x < sx ∨ k.y < sy) ∧ ¬ (k.x = sx ∧ k.y = sy) ∧
            ¬ (k.x ≥ map.width ∨ k.y ≥ map.height) := by
  induction calls with
  | nil => intro c hc; exact ⟨[], c, rfl, hc⟩
  | cons e rest ih =>
    intro c hc
    obtain ⟨r, c1, he, hc1⟩ := eval_keys map sx sy c e.x e.y hc
    obtain ⟨rs, c2, hr, hc2⟩ := ih c1 hc1
    refine ⟨r :: rs, c2, ?_, hc2⟩
    rw [SearchState.run, edge_call_of_eval ⟨map, sx, sy, c⟩ e.x e.y r c1 he]
    simp only
    rw [hr]

end RouteCount

namespace RouteCountOld
open RouteCount (Coords find emplace Cache find_emplace find_emplace_ok)

/-- Every key the node-blocked engine writes is in the quadrant of the start,
differs from the start and is inside the bounds. -/
theorem node_eval_keys (map : Map) (sx sy : Nat) (c : Cache) (x y : Nat)
    (hc : ∀ k v, find k c = some v →
      ¬ (k.x < sx ∨ k.y < sy) ∧ ¬ (k.x = sx ∧ k.y = sy) ∧
        ¬ (k.x ≥ map.width ∨ k.y ≥ map.height)) :
    ∃ r c', eval map sx sy c x y = some (r, c') ∧
      ∀ k v, find k c' = some v →
        ¬ (k.x < sx ∨ k.y < sy) ∧ ¬ (k.x = sx ∧ k.y = sy) ∧
          ¬ (k.x ≥ map.width ∨ k.y ≥ map.height) := by
  have main := node_eval_induction map sx sy
    (fun c _ _ _ c' =>
      (∀ k v, find k c = some v →
        ¬ (k.x < sx ∨ k.y < sy) ∧ ¬ (k.x = sx ∧ k.y = sy) ∧
          ¬ (k.x ≥ map.width ∨ k.y ≥ map.height)) →
      ∀ k v, find k c' = some v →
        ¬ (k.x < sx ∨ k.y < sy) ∧ ¬ (k.x = sx ∧ k.y = sy) ∧
          ¬ (k.x ≥ map.width ∨ k.y ≥ map.height))
    (fun _ _ _ _ h => h) (fun _ h => h) (fun _ _ _ _ _ _ h => h)
    (fun _ _ _ _ _ _ _ _ h => h) (fun _ _ _ _ _ _ _ _ h => h)
    (by
      intro c x y vc c1 hcnt c2 h1 h2 h3 hf hb p1 q1 p2 q2 _ hc
      have hc1 : ∀ k v, find k c1 = some v →
          ¬ (k.x < sx ∨ k.y < sy) ∧ ¬ (k.x = sx ∧ k.y = sy) ∧
            ¬ (k.x ≥ map.width ∨ k.y ≥ map.height) := by
        by_cases hy : y = 0
        · obtain ⟨_, rfl⟩ := q1 hy; exact hc
        · exact p1 hy hc
      have hc2 : ∀ k v, find k c2 = some v →
          ¬ (k.x < sx ∨ k.y < sy) ∧ ¬ (k.x = sx ∧ k.y = sy) ∧
            ¬ (k.x ≥ map.width ∨ k.y ≥ map.height) := by
        by_cases hx : x = 0
        · obtain ⟨_, rfl⟩ := q2 hx; exact hc1
        · exact p2 hx hc1
      exact find_emplace_ok c2 ⟨x, y⟩ _ hc2 ⟨h1, h2, h3⟩)
    (by
      intro c x y vc c1 hcnt c2 dc c3 h1 h2 h3 hf hb hy hx p1 p2 _ _ p3 hc
      exact find_emplace_ok c3 ⟨x, y⟩ _ (p3 (p2 (p1 hc))) ⟨h1, h2, h3⟩)
    c x y
  obtain ⟨r, c', he, hp⟩ := main
  exact ⟨r, c', he, hp hc⟩

theorem SearchState.node_run_keys (map : Map) (sx sy : Nat) (calls : List Coords) :
    ∀ c : Cache,
      (∀ k v, find k c = some v →
        ¬ (k.x < sx ∨ k.y < sy) ∧ ¬ (k.x = sx ∧ k.y = sy) ∧
          ¬ (k.x ≥ map.width ∨ k.y ≥ map.height)) →
      ∃ rs c', SearchState.run ⟨map, sx, sy, c⟩ calls = some (rs, ⟨map, sx, sy, c'⟩) ∧
        ∀ k v, find k c' = some v →
          ¬ (k.x < sx ∨ k.y < sy) ∧ ¬ (k.x = sx ∧ k.y = sy) ∧
            ¬ (k.x ≥ map.width ∨ k.y ≥ map.height) := by
  induction calls with
  | nil => intro c hc; exact ⟨[], c, rfl, hc⟩
  | cons e rest ih =>
    intro c hc
    obtain ⟨r, c1, he, hc1⟩ := node_eval_keys map sx sy c e.x e.y hc
    obtain ⟨rs, c2, hr, hc2⟩ := ih c1 hc1
    refine ⟨r :: rs, c2, ?_, hc2⟩
    rw [SearchState.run, node_call_of_eval ⟨map, sx, sy, c⟩ e.x e.y r c1 he]
    simp only
    rw [hr]

/-- C17. Memo-table invariant: for both engines, starting from a freshly
constructed `SearchState`, after any finite sequence of `num_routes` calls
`lookup_cache` contains no entry for the start coordinate; every key in it is
inside the bounds, inside the quadrant of the start and different from the
start. -/
theorem memo_never_holds_start (map : RouteCount.Map) (map_old : RouteCountOld.Map)
    (start_x start_y : Nat) (calls calls_old : List Coords) :
    (∃ rs st', (RouteCount.SearchState.new map start_x start_y).run calls = some (rs, st') ∧
      find ⟨start_x, start_y⟩ st'.lookup_cache = none ∧
      ∀ k v, find k st'.lookup_cache = some v →
        (start_x ≤ k.x ∧ start_y ≤ k.y) ∧ k ≠ ⟨start_x, start_y⟩ ∧
          (k.x < map.width ∧ k.y < map.height)) ∧
    (∃ rs st', (RouteCountOld.SearchState.new map_old start_x start_y).run calls_old
        = some (rs, st') ∧
      find ⟨start_x, start_y⟩ st'.lookup_cache = none ∧
      ∀ k v, find k st'.lookup_cache = some v →
        (start_x ≤ k.x ∧ start_y ≤ k.y) ∧ k ≠ ⟨start_x, start_y⟩ ∧
          (k.x < map_old.width ∧ k.y < map_old.height)) := by
  constructor
  · obtain ⟨rs, c', hr, hk⟩ := RouteCount.SearchState.run_keys map start_x start_y calls []
      (by intro k v h; simp [find] at h)
    refine ⟨rs, _, hr, ?_, ?_⟩
    · cases hf : find ⟨start_x, start_y⟩ c' with
      | none => rfl
      | some v => exact absurd ⟨rfl, rfl⟩ (hk _ _ hf).2.1
    · intro k v hf
      obtain ⟨h1, h2, h3⟩ := hk k v hf
      refine ⟨by omega, ?_, by omega⟩
      rintro rfl; exact h2 ⟨rfl, rfl⟩
  · obtain ⟨rs, c', hr, hk⟩ := SearchState.node_run_keys map_old start_x start_y calls_old []
      (by intro k v h; simp [find] at h)
    refine ⟨rs, _, hr, ?_, ?_⟩
    · cases hf : find ⟨start_x, start_y⟩ c' with
      | none => rfl
      | some v => exact absurd ⟨rfl, rfl⟩ (hk _ _ hf).2.1
    · intro k v hf
      obtain ⟨h1, h2, h3⟩ := hk k v hf
      refine ⟨by omega, ?_, by omega⟩
      rintro rfl; exact h2 ⟨rfl, rfl⟩

end RouteCountOld

/-! ## Predecessor coordinates and the depth of the recursion (C15, C16) -/

namespace RouteCount

theorem pred_checked_pos {n : Nat} (h : n ≠ 0) : pred_checked n = .ok (n - 1) := by
  unfold pred_checked
  rw [if_neg h]

/-- The checked edge-blocked engine does what the unchecked one does: no
predecessor is ever computed from 0. -/
theorem num_routes_checked_eq (map : Map) (sx sy : Nat) :
    ∀ (f : Nat) (c : Cache) (x y : Nat),
      num_routes_checked map sx sy f c x y =
        match num_routes_fuel map sx sy f c x y with
        | some r => .ok r
        | none => .error .out_of_fuel := by
  intro f
  induction f with
  | zero => intro c x y; rfl
  | succ f ih =>
    intro c x y
    rw [num_routes_checked, num_routes_fuel]
    by_cases h1 : x < sx ∨ y < sy
    · simp only [if_pos h1]
    simp only [if_neg h1]
    by_cases h2 : x = sx ∧ y = sy
    · simp only [if_pos h2]
    simp only [if_neg h2]
    by_cases h3 : x ≥ map.width ∨ y ≥ map.height
    · simp only [if_pos h3]
    simp only [if_neg h3]
    cases hf : find ⟨x, y⟩ c with
    | some p => rfl
    | none =>
      simp only
      have H1 : (if map.get_blocks x y &&& STREET_HORIZ = 0
            then (match pred_checked x with
                  | .error e => Except.error e
                  | .ok prev_x => num_routes_checked map sx sy f c prev_x y)
            else .ok (0, c)) =
          match (if map.get_blocks x y &&& STREET_HORIZ = 0
            then num_routes_fuel map sx sy f c (x - 1) y else some (0, c)) with
          | some r => .ok r
          | none => .error .out_of_fuel := by
        by_cases hb : map.get_blocks x y &&& STREET_HORIZ = 0
        · have hx : x ≠ 0 := Nat.pos_iff_ne_zero.1 (pos_of_horiz_clear hb)
          simp only [if_pos hb, pred_checked_pos hx, ih]
        · simp only [if_neg hb]
      rw [H1]
      cases hr1 : (if map.get_blocks x y &&& STREET_HORIZ = 0
            then num_routes_fuel map sx sy f c (x - 1) y else some (0, c)) with
      | none => rfl
      | some r1 =>
        obtain ⟨hc, c1⟩ := r1
        simp only
        have H2 : (if map.get_blocks x y &&& STREET_VERT = 0
              then (match pred_checked y with
                    | .error e => Except.error e
                    | .ok prev_y => num_routes_checked map sx sy f c1 x prev_y)
              else .ok (0, c1)) =
            match (if map.get_blocks x y &&& STREET_VERT = 0
              then num_routes_fuel map sx sy f c1 x (y - 1) else some (0, c1)) with
            | some r => .ok r
            | none => .error .out_of_fuel := by
          by_cases hb : map.get_blocks x y &&& STREET_VERT = 0
          · have hy : y ≠ 0 := Nat.pos_iff_ne_zero.1 (pos_of_vert_clear hb)
            simp only [if_pos hb, pred_checked_pos hy, ih]
          · simp only [if_neg hb]
        rw [H2]
        cases hr2 : (if map.get_blocks x y &&& STREET_VERT = 0
              then num_routes_fuel map sx sy f c1 x (y - 1) else some (0, c1)) with
        | none => rfl
        | some r2 => rfl

/-- Fuel for the nesting depth `(x - sx) + (y - sy) + 1` is enough in the
quadrant of the start, and fuel 1 outside it. -/
theorem num_routes_fuel_depth (map : Map) (sx sy : Nat) :
    ∀ (f : Nat) (c : Cache) (x y : Nat), 1 ≤ f →
      (sx ≤ x → sy ≤ y → (x - sx) + (y - sy) + 1 ≤ f) →
      ∃ r, num_routes_fuel map sx sy f c x y = some r := by
  intro f
  induction f with
  | zero => intro c x y h; omega
  | succ f ih =>
    intro c x y _ hn
    rw [num_routes_fuel]
    by_cases h1 : x < sx ∨ y < sy
    · rw [if_pos h1]; exact ⟨_, rfl⟩
    rw [if_neg h1]
    by_cases h2 : x = sx ∧ y = sy
    · rw [if_pos h2]; exact ⟨_, rfl⟩
    rw [if_neg h2]
    by_cases h3 : x ≥ map.width ∨ y ≥ map.height
    · rw [if_pos h3]; exact ⟨_, rfl⟩
    rw [if_neg h3]
    have hn' := hn (by omega) (by omega)
    have hf1 : 1 ≤ f := by omega
    cases hf : find ⟨x, y⟩ c with
    | some p => exact ⟨_, rfl⟩
    | none =>
      simp only
      have H1 : ∃ hc c1, (if map.get_blocks x y &&& STREET_HORIZ = 0
            then num_routes_fuel map sx sy f c (x - 1) y else some (0, c)) = some (hc, c1) := by
        by_cases hb : map.get_blocks x y &&& STREET_HORIZ = 0
        · have hx := pos_of_horiz_clear hb
          obtain ⟨⟨r, c'⟩, hr⟩ := ih c (x - 1) y hf1 (by omega)
          exact ⟨r, c', by rw [if_pos hb, hr]⟩
        · exact ⟨0, c, by rw [if_neg hb]⟩
      obtain ⟨hc, c1, e1⟩ := H1
      rw [e1]
      simp only
      have H2 : ∃ vc c2, (if map.get_blocks x y &&& STREET_VERT = 0
            then num_routes_fuel map sx sy f c1 x (y - 1) else some (0, c1)) = some (vc, c2) := by
        by_cases hb : map.get_blocks x y &&& STREET_VERT = 0
        · have hy := pos_of_vert_clear hb
          obtain ⟨⟨r, c'⟩, hr⟩ := ih c1 x (y - 1) hf1 (by omega)
          exact ⟨r, c', by rw [if_pos hb, hr]⟩
        · exact ⟨0, c1, by rw [if_neg hb]⟩
      obtain ⟨vc, c2, e2⟩ := H2
      rw [e2]
      exact ⟨_, rfl⟩

end RouteCount

namespace RouteCountOld
open RouteCount (Coords find emplace Cache find_emplace Fault pred_checked pred_checked_pos)

/-- The checked node-blocked engine does what the unchecked one does: no
predecessor is ever computed from 0. -/
theorem node_num_routes_checked_eq (map : Map) (sx sy : Nat) :
    ∀ (f : Nat) (c : Cache) (x y : Nat),
      num_routes_checked map sx sy f c x y =
        match num_routes_fuel map sx sy f c x y with
        | some r => .ok r
        | none => .error .out_of_fuel := by
  intro f
  induction f with
  | zero => intro c x y; rfl
  | succ f ih =>
    intro c x y
    rw [num_routes_checked, num_routes_fuel]
    by_cases h1 : x < sx ∨ y < sy
    · simp only [if_pos h1]
    simp only [if_neg h1]
    by_cases h2 : x = sx ∧ y = sy
    · simp only [if_pos h2]
    simp only [if_neg h2]
    by_cases h3 : x ≥ map.width ∨ y ≥ map.height
    · simp only [if_pos h3]
    simp only [if_neg h3]
    cases hf : find ⟨x, y⟩ c with
    | some p => rfl
    | none =>
      simp only
      by_cases hb : (⟨x, y⟩ : Coords) ∈ map.blocks
      · simp only [if_pos hb]
      simp only [if_neg hb]
      have H1 : (if y = 0 then .ok (0, c)
            else (match pred_checked y with
                  | .error e => Except.error e
                  | .ok prev_y => num_routes_checked map sx sy f c x prev_y)) =
          match (if y = 0 then some (0, c)
            else num_routes_fuel map sx sy f c x (y - 1)) with
          | some r => .ok r
          | none => .error .out_of_fuel := by
        by_cases hy : y = 0
        · simp only [if_pos hy]
        · simp only [if_neg hy, pred_checked_pos hy, ih]
      rw [H1]
      cases hr1 : (if y = 0 then some (0, c)
            else num_routes_fuel map sx sy f c x (y - 1)) with
      | none => rfl
      | some r1 =>
        obtain ⟨vc, c1⟩ := r1
        simp only
        have hv0 : y = 0 → vc = 0 := by
          intro hy
          rw [if_pos hy] at hr1
          simp only [Option.some.injEq, Prod.mk.injEq] at hr1
          exact hr1.1.symm
        have H2 : (if x = 0 then .ok (0, c1)
              else (match pred_checked x with
                    | .error e => Except.error e
                    | .ok prev_x => num_routes_checked map sx sy f c1 prev_x y)) =
            match (if x = 0 then some (0, c1)
              else num_routes_fuel map sx sy f c1 (x - 1) y) with
            | some r => .ok r
            | none => .error .out_of_fuel := by
          by_cases hx : x = 0
          · simp only [if_pos hx]
          · simp only [if_neg hx, pred_checked_pos hx, ih]
        rw [H2]
        cases hr2 : (if x = 0 then some (0, c1)
              else num_routes_fuel map sx sy f c1 (x - 1) y) with
        | none => rfl
        | some r2 =>
          obtain ⟨hc, c2⟩ := r2
          simp only
          have hh0 : x = 0 → hc = 0 := by
            intro hx
            rw [if_pos hx] at hr2
            simp only [Option.some.injEq, Prod.mk.injEq] at hr2
            exact hr2.1.symm
          by_cases hvh : vc ≠ 0 ∧ hc ≠ 0
          · have hy : y ≠ 0 := fun h => hvh.1 (hv0 h)
            have hx : x ≠ 0 := fun h => hvh.2 (hh0 h)
            simp only [if_pos hvh, pred_checked_pos hx, pred_checked_pos hy, ih]
            cases num_routes_fuel map sx sy f c2 (x - 1) (y - 1) with
            | none => rfl
            | some r3 => rfl
          · simp only [if_neg hvh]

/-- Fuel for the nesting depth `(x - sx) + (y - sy) + 1` is enough in the
quadrant of the start, and fuel 1 outside it. -/
theorem node_num_routes_fuel_depth (map : Map) (sx sy : Nat) :
    ∀ (f : Nat) (c : Cache) (x y : Nat), 1 ≤ f →
      (sx ≤ x → sy ≤ y → (x - sx) + (y - sy) + 1 ≤ f) →
      ∃ r, num_routes_fuel map sx sy f c x y = some r := by
  intro f
  induction f with
  | zero => intro c x y h; omega
  | succ f ih =>
    intro c x y _ hn
    rw [num_routes_fuel]
    by_cases h1 : x < sx ∨ y < sy
    · rw [if_pos h1]; exact ⟨_, rfl⟩
    rw [if_neg h1]
    by_cases h2 : x = sx ∧ y = sy
    · rw [if_pos h2]; exact ⟨_, rfl⟩
    rw [if_neg h2]
    by_cases h3 : x ≥ map.width ∨ y ≥ map.height
    · rw [if_pos h3]; exact ⟨_, rfl⟩
    rw [if_neg h3]
    have hn' := hn (by omega) (by omega)
    have hf1 : 1 ≤ f := by omega
    cases hf : find ⟨x, y⟩ c with
    | some p => exact ⟨_, rfl⟩
    | none =>
      simp only
      by_cases hb : (⟨x, y⟩ : Coords) ∈ map.blocks
      · rw [if_pos hb]; exact ⟨_, rfl⟩
      rw [if_neg hb]
      have H1 : ∃ vc c1, (if y = 0 then some (0, c)
            else num_routes_fuel map sx sy f c x (y - 1)) = some (vc, c1) := by
        by_cases hy : y = 0
        · exact ⟨0, c, by rw [if_pos hy]⟩
        · obtain ⟨⟨r, c'⟩, hr⟩ := ih c x (y - 1) hf1 (by omega)
          exact ⟨r, c', by rw [if_neg hy, hr]⟩
      obtain ⟨vc, c1, e1⟩ := H1
      rw [e1]
      simp only
      have H2 : ∃ hc c2, (if x = 0 then some (0, c1)
            else num_routes_fuel map sx sy f c1 (x - 1) y) = some (hc, c2) := by
        by_cases hx : x = 0
        · exact ⟨0, c1, by rw [if_pos hx]⟩
        · obtain ⟨⟨r, c'⟩, hr⟩ := ih c1 (x - 1) y hf1 (by omega)
          exact ⟨r, c', by rw [if_neg hx, hr]⟩
      obtain ⟨hc, c2, e2⟩ := H2
      rw [e2]
      simp only
      by_cases hvh : vc ≠ 0 ∧ hc ≠ 0
      · rw [if_pos hvh]
        obtain ⟨⟨r, c'⟩, hr⟩ := ih c2 (x - 1) (y - 1) hf1 (by omega)
        rw [hr]; exact ⟨_, rfl⟩
      · rw [if_neg hvh]; exact ⟨_, rfl⟩

/-- C15. Termination with the stated depth bound: for both engines, for every
map, start, counter state and end, the fuel-indexed `num_routes` given the fuel
`(end_x - start_x) + (end_y - start_y) + 1` (one unit per nested call, the
top-level call included) returns; so does the checked one, in which every
recursive call is on a predecessor computed from a positive coordinate, so that
`end_x + end_y` strictly decreases at every recursive call.  For an end with
`end_x ≥ start_x` and `end_y ≥ start_y` the fuel is the bound of the claim;
outside the quadrant the differences are truncated at 0 and the call returns at
once. -/
theorem both_depth_bound (map : RouteCount.Map) (map_old : RouteCountOld.Map)
    (start_x start_y : Nat) (cache cache_old : Cache) (end_x end_y : Nat) :
    (∃ r, RouteCount.num_routes_fuel map start_x start_y
        ((end_x - start_x) + (end_y - start_y) + 1) cache end_x end_y = some r ∧
      RouteCount.num_routes_checked map start_x start_y
        ((end_x - start_x) + (end_y - start_y) + 1) cache end_x end_y = .ok r) ∧
    (∃ r, RouteCountOld.num_routes_fuel map_old start_x start_y
        ((end_x - start_x) + (end_y - start_y) + 1) cache_old end_x end_y = some r ∧
      RouteCountOld.num_routes_checked map_old start_x start_y
        ((end_x - start_x) + (end_y - start_y) + 1) cache_old end_x end_y = .ok r) := by
  constructor
  · obtain ⟨r, hr⟩ := RouteCount.num_routes_fuel_depth map start_x start_y
      ((end_x - start_x) + (end_y - start_y) + 1) cache end_x end_y (by omega) (fun _ _ => le_refl _)
    exact ⟨r, hr, by rw [RouteCount.num_routes_checked_eq, hr]⟩
  · obtain ⟨r, hr⟩ := node_num_routes_fuel_depth map_old start_x start_y
      ((end_x - start_x) + (end_y - start_y) + 1) cache_old end_x end_y (by omega)
      (fun _ _ => le_refl _)
    exact ⟨r, hr, by rw [node_num_routes_checked_eq, hr]⟩

/-- C16. No unsigned underflow of a predecessor coordinate: in both engines, for
every map, start, counter state, end and fuel, the checked `num_routes`, which
reports every `end_x - 1` computed at `end_x = 0` and every `end_y - 1` computed
at `end_y = 0`, never reports one; it returns what the unchecked one returns. -/
theorem both_no_coordinate_underflow (map : RouteCount.Map) (map_old : RouteCountOld.Map)
    (start_x start_y fuel : Nat) (cache cache_old : Cache) (end_x end_y : Nat) :
    (RouteCount.num_routes_checked map start_x start_y fuel cache end_x end_y
        ≠ .error .underflow ∧
      RouteCount.num_routes_checked map start_x start_y fuel cache end_x end_y =
        match RouteCount.num_routes_fuel map start_x start_y fuel cache end_x end_y with
        | some r => .ok r
        | none => .error .out_of_fuel) ∧
    (RouteCountOld.num_routes_checked map_old start_x start_y fuel cache_old end_x end_y
        ≠ .error .underflow ∧
      RouteCountOld.num_routes_checked map_old start_x start_y fuel cache_old end_x end_y =
        match RouteCountOld.num_routes_fuel map_old start_x start_y fuel cache_old end_x end_y with
        | some r => .ok r
        | none => .error .out_of_fuel) := by
  refine ⟨⟨?_, RouteCount.num_routes_checked_eq _ _ _ _ _ _ _⟩,
    ⟨?_, node_num_routes_checked_eq _ _ _ _ _ _ _⟩⟩
  · rw [RouteCount.num_routes_checked_eq]
    cases RouteCount.num_routes_fuel map start_x start_y fuel cache end_x end_y <;> simp
  · rw [node_num_routes_checked_eq]
    cases RouteCountOld.num_routes_fuel map_old start_x start_y fuel cache_old end_x end_y <;> simp

end RouteCountOld

/-! ## The correction term of the node-blocked engine, unbounded counts -/

namespace RouteCountOld
open RouteCount (Coords find emplace Cache find_emplace)

/-- In the memo-free recurrence the diagonal predecessor never counts more than
either of the two direct predecessors, when both of these are non-zero. -/
theorem count_free_diag_le (map : Map) (sx sy : Nat) :
    ∀ n x y, x + y < n → x ≠ 0 → y ≠ 0 →
      count_free map sx sy x (y - 1) ≠ 0 → count_free map sx sy (x - 1) y ≠ 0 →
      count_free map sx sy (x - 1) (y - 1) ≤ count_free map sx sy x (y - 1) ∧
      count_free map sx sy (x - 1) (y - 1) ≤ count_free map sx sy (x - 1) y := by
  intro n
  induction n with
  | zero => intro x y h; omega
  | succ n ih =>
    intro x y hn hx hy hv hh
    constructor
    · -- against the vertical predecessor
      have e := count_free_eq map sx sy x (y - 1)
      by_cases h1 : x < sx ∨ y - 1 < sy
      · rw [if_pos h1] at e; exact absurd e hv
      rw [if_neg h1] at e
      by_cases h2 : x = sx ∧ y - 1 = sy
      · exfalso
        apply hh
        exact count_free_out _ _ _ _ _ (Or.inl (by omega))
      rw [if_neg h2] at e
      by_cases h3 : x ≥ map.width ∨ y - 1 ≥ map.height
      · rw [if_pos h3] at e; exact absurd e hv
      rw [if_neg h3] at e
      by_cases hb : (⟨x, y - 1⟩ : Coords) ∈ map.blocks
      · rw [if_pos hb] at e; exact absurd e hv
      rw [if_neg hb] at e
      simp only [if_neg hx] at e
      by_cases hvh : (if y - 1 = 0 then 0 else count_free map sx sy x (y - 1 - 1)) ≠ 0 ∧
          count_free map sx sy (x - 1) (y - 1) ≠ 0
      · rw [if_pos hvh] at e
        have hy1 : y - 1 ≠ 0 := by
          intro h0; rw [if_pos h0] at hvh; exact hvh.1 rfl
        rw [if_neg hy1] at hvh e
        have := (ih x (y - 1) (by omega) hx hy1 hvh.1 hvh.2).1
        omega
      · rw [if_neg hvh] at e
        omega
    · -- against the horizontal predecessor
      have e := count_free_eq map sx sy (x - 1) y
      by_cases h1 : x - 1 < sx ∨ y < sy
      · rw [if_pos h1] at e; exact absurd e hh
      rw [if_neg h1] at e
      by_cases h2 : x - 1 = sx ∧ y = sy
      · exfalso
        apply hv
        exact count_free_out _ _ _ _ _ (Or.inr (by omega))
      rw [if_neg h2] at e
      by_cases h3 : x - 1 ≥ map.width ∨ y ≥ map.height
      · rw [if_pos h3] at e; exact absurd e hh
      rw [if_neg h3] at e
      by_cases hb : (⟨x - 1, y⟩ : Coords) ∈ map.blocks
      · rw [if_pos hb] at e; exact absurd e hh
      rw [if_neg hb] at e
      simp only [if_neg hy] at e
      by_cases hvh : count_free map sx sy (x - 1) (y - 1) ≠ 0 ∧
          (if x - 1 = 0 then 0 else count_free map sx sy (x - 1 - 1) y) ≠ 0
      · rw [if_pos hvh] at e
        have hx1 : x - 1 ≠ 0 := by
          intro h0; rw [if_pos h0] at hvh; exact hvh.2 rfl
        rw [if_neg hx1] at hvh e
        have := (ih (x - 1) y (by omega) hx1 hy hvh.1 hvh.2).2
        omega
      · rw [if_neg hvh] at e
        omega

end RouteCountOld

/-! ## The list of all routes (C18, C20) -/

namespace RouteCount

theorem openStep_lt {oh ov : Nat → Nat → Bool} {a b : Coords} (h : OpenStep oh ov a b) :
    a.x ≤ b.x ∧ a.y ≤ b.y ∧ a.x + a.y < b.x + b.y := by
  rcases h with ⟨h1, h2, _⟩ | ⟨h1, h2, _⟩ <;> omega

/-- A path written backwards ends at a coordinate that is not beyond its first
one, and strictly before it when the path has a step. -/
theorem back_chain_le (oh ov : Nat → Nat → Bool) :
    ∀ (rest : List Coords) (a : Coords), List.Chain (flip (OpenStep oh ov)) a rest →
      ((a :: rest).getLast (List.cons_ne_nil a rest)).x ≤ a.x ∧
      ((a :: rest).getLast (List.cons_ne_nil a rest)).y ≤ a.y ∧
      (rest ≠ [] →
        ((a :: rest).getLast (List.cons_ne_nil a rest)).x +
          ((a :: rest).getLast (List.cons_ne_nil a rest)).y < a.x + a.y) := by
  intro rest
  induction rest with
  | nil => intro a _; exact ⟨le_refl _, le_refl _, fun h => absurd rfl h⟩
  | cons b r ih =>
    intro a hch
    rw [List.chain_cons] at hch
    obtain ⟨hab, hr⟩ := hch
    have hlt := openStep_lt hab
    obtain ⟨h1, h2, _⟩ := ih b hr
    rw [List.getLast_cons_cons]
    refine ⟨by omega, by omega, fun _ => by omega⟩

/-- The members of `paths_fuel`, with enough fuel, are the paths written
backwards. -/
theorem paths_fuel_mem (oh ov : Nat → Nat → Bool) (s : Coords) :
    ∀ (f x y : Nat), x + y < f → ∀ rp : List Coords,
      (rp ∈ paths_fuel oh ov s f x y ↔
        ∃ rest, rp = ⟨x, y⟩ :: rest ∧ List.Chain (flip (OpenStep oh ov)) ⟨x, y⟩ rest ∧
          ((⟨x, y⟩ : Coords) :: rest).getLast (List.cons_ne_nil _ rest) = s) := by
  intro f
  induction f with
  | zero => intro x y h; omega
  | succ f ih =>
    intro x y hn rp
    rw [paths_fuel]
    by_cases h1 : x < s.x ∨ y < s.y
    · rw [if_pos h1]
      constructor
      · intro h; cases h
      · rintro ⟨rest, _, hch, hlast⟩
        obtain ⟨hx, hy, _⟩ := back_chain_le oh ov rest ⟨x, y⟩ hch
        rw [hlast] at hx hy
        simp only at hx hy
        omega
    rw [if_neg h1]
    by_cases h2 : x = s.x ∧ y = s.y
    · rw [if_pos h2]
      obtain ⟨rfl, rfl⟩ := h2
      constructor
      · intro h
        rw [List.mem_singleton] at h
        subst h
        exact ⟨[], rfl, List.Chain.nil, rfl⟩
      · rintro ⟨rest, rfl, hch, hlast⟩
        cases rest with
        | nil => exact List.mem_singleton.2 rfl
        | cons b r =>
          obtain ⟨_, _, hlt⟩ := back_chain_le oh ov (b :: r) ⟨s.x, s.y⟩ hch
          have := hlt (List.cons_ne_nil _ _)
          rw [hlast] at this
          simp only at this
          omega
    rw [if_neg h2, List.mem_append]
    constructor
    · rintro (h | h)
      · by_cases hc : x ≠ 0 ∧ oh x y = true
        · rw [if_pos hc, List.mem_map] at h
          obtain ⟨q, hq, rfl⟩ := h
          obtain ⟨r, rfl, hch, hlast⟩ := (ih (x - 1) y (by omega) q).1 hq
          refine ⟨⟨x - 1, y⟩ :: r, rfl, List.Chain.cons ?_ hch, ?_⟩
          · exact Or.inl ⟨by simp only; omega, rfl, hc.2⟩
          · rw [List.getLast_cons_cons]; exact hlast
        · rw [if_neg hc] at h; cases h
      · by_cases hc : y ≠ 0 ∧ ov x y = true
        · rw [if_pos hc, List.mem_map] at h
          obtain ⟨q, hq, rfl⟩ := h
          obtain ⟨r, rfl, hch, hlast⟩ := (ih x (y - 1) (by omega) q).1 hq
          refine ⟨⟨x, y - 1⟩ :: r, rfl, List.Chain.cons ?_ hch, ?_⟩
          · exact Or.inr ⟨rfl, by simp only; omega, hc.2⟩
          · rw [List.getLast_cons_cons]; exact hlast
        · rw [if_neg hc] at h; cases h
    · rintro ⟨rest, rfl, hch, hlast⟩
      cases rest with
      | nil =>
        exfalso
        simp only [List.getLast_singleton] at hlast
        apply h2
        rw [← hlast]
        exact ⟨rfl, rfl⟩
      | cons b r =>
        rw [List.chain_cons] at hch
        obtain ⟨hstep, hr⟩ := hch
        rw [List.getLast_cons_cons] at hlast
        obtain ⟨bx, by'⟩ := b
        rcases hstep with ⟨e1, e2, ho⟩ | ⟨e1, e2, ho⟩
        · left
          simp only at e1 e2 ho
          have hbx : bx = x - 1 := by omega
          subst hbx; subst e2
          rw [if_pos ⟨by omega, ho⟩, List.mem_map]
          exact ⟨_, (ih (x - 1) y (by omega) _).2 ⟨r, rfl, hr, hlast⟩, rfl⟩
        · right
          simp only at e1 e2 ho
          have hby : by' = y - 1 := by omega
          subst hby; subst e1
          rw [if_pos ⟨by omega, ho⟩, List.mem_map]
          exact ⟨_, (ih x (y - 1) (by omega) _).2 ⟨r, rfl, hr, hlast⟩, rfl⟩

theorem paths_fuel_head (oh ov : Nat → Nat → Bool) (s : Coords) (f x y : Nat)
    (rp : List Coords) (h : rp ∈ paths_fuel oh ov s f x y) : rp.head? = some ⟨x, y⟩ := by
  cases f with
  | zero => cases h
  | succ f =>
    rw [paths_fuel] at h
    by_cases h1 : x < s.x ∨ y < s.y
    · rw [if_pos h1] at h; cases h
    rw [if_neg h1] at h
    by_cases h2 : x = s.x ∧ y = s.y
    · rw [if_pos h2, List.mem_singleton] at h
      obtain ⟨rfl, rfl⟩ := h2
      subst h; rfl
    rw [if_neg h2, List.mem_append] at h
    rcases h with h | h
    · by_cases hc : x ≠ 0 ∧ oh x y = true
      · rw [if_pos hc, List.mem_map] at h
        obtain ⟨q, _, rfl⟩ := h; rfl
      · rw [if_neg hc] at h; cases h
    · by_cases hc : y ≠ 0 ∧ ov x y = true
      · rw [if_pos hc, List.mem_map] at h
        obtain ⟨q, _, rfl⟩ := h; rfl
      · rw [if_neg hc] at h; cases h

/-- No path is listed twice. -/
theorem paths_fuel_nodup (oh ov : Nat → Nat → Bool) (s : Coords) :
    ∀ (f x y : Nat), (paths_fuel oh ov s f x y).Nodup := by
  intro f
  induction f with
  | zero => intro x y; exact List.nodup_nil
  | succ f ih =>
    intro x y
    rw [paths_fuel]
    by_cases h1 : x < s.x ∨ y < s.y
    · rw [if_pos h1]; exact List.nodup_nil
    rw [if_neg h1]
    by_cases h2 : x = s.x ∧ y = s.y
    · rw [if_pos h2]; exact List.nodup_singleton _
    rw [if_neg h2, List.nodup_append]
    have hinj : Function.Injective (fun p : List Coords => (⟨x, y⟩ : Coords) :: p) := by
      intro a b hab
      exact (List.cons.inj hab).2
    refine ⟨?_, ?_, ?_⟩
    · by_cases hc : x ≠ 0 ∧ oh x y = true
      · rw [if_pos hc]; exact (ih (x - 1) y).map hinj
      · rw [if_neg hc]; exact List.nodup_nil
    · by_cases hc : y ≠ 0 ∧ ov x y = true
      · rw [if_pos hc]; exact (ih x (y - 1)).map hinj
      · rw [if_neg hc]; exact List.nodup_nil
    · rw [List.disjoint_left]
      intro a ha hb
      by_cases hc : x ≠ 0 ∧ oh x y = true
      · by_cases hd : y ≠ 0 ∧ ov x y = true
        · rw [if_pos hc, List.mem_map] at ha
          rw [if_pos hd, List.mem_map] at hb
          obtain ⟨q1, hq1, rfl⟩ := ha
          obtain ⟨q2, hq2, he⟩ := hb
          have hq : q2 = q1 := (List.cons.inj he).2
          subst hq
          have e1 := paths_fuel_head oh ov s f (x - 1) y q2 hq1
          have e2 := paths_fuel_head oh ov s f x (y - 1) q2 hq2
          rw [e1] at e2
          simp only [Option.some.injEq, Coords.mk.injEq] at e2
          omega
        · rw [if_neg hd] at hb; cases hb
      · rw [if_neg hc] at ha; cases ha

/-- A path read backwards is a path of the reversed relation. -/
theorem route_reverse_iff {R : Coords → Coords → Prop} (s e : Coords) (p : List Coords) :
    (∃ rest, p.reverse = e :: rest ∧ List.Chain (flip R) e rest ∧
        (e :: rest).getLast (List.cons_ne_nil e rest) = s) ↔
      (∃ l, p = s :: l ∧ List.Chain R s l ∧ (s :: l).getLast (List.cons_ne_nil s l) = e) := by
  have form : ∀ (Q : Coords → Coords → Prop) (a b : Coords) (q : List Coords),
      (∃ l, q = a :: l ∧ List.Chain Q a l ∧ (a :: l).getLast (List.cons_ne_nil a l) = b) ↔
        (q.head? = some a ∧ List.Chain' Q q ∧ q.getLast? = some b) := by
    intro Q a b q
    constructor
    · rintro ⟨l, rfl, hch, hlast⟩
      refine ⟨rfl, hch, ?_⟩
      rw [List.getLast?_eq_getLast _ (List.cons_ne_nil a l), hlast]
    · rintro ⟨hh, hch, hlast⟩
      cases q with
      | nil => cases hh
      | cons a' l =>
        simp only [List.head?_cons, Option.some.injEq] at hh
        subst hh
        refine ⟨l, rfl, hch, ?_⟩
        rw [List.getLast?_eq_getLast _ (List.cons_ne_nil a' l)] at hlast
        exact Option.some.inj hlast
  rw [form (flip R) e s p.reverse, form R s e p, List.head?_reverse, List.getLast?_reverse,
    List.chain'_reverse]
  constructor
  · rintro ⟨h1, h2, h3⟩; exact ⟨h3, h2, h1⟩
  · rintro ⟨h1, h2, h3⟩; exact ⟨h3, h2, h1⟩

end RouteCount

namespace RouteCount

theorem step_eq_openStep (m : Map) :
    Step m = OpenStep (fun x y => decide (m.get_blocks x y &&& STREET_HORIZ = 0))
      (fun x y => decide (m.get_blocks x y &&& STREET_VERT = 0)) := by
  funext a b
  simp only [Step, OpenStep, decide_eq_true_eq]

/-- The list `routes` holds exactly the routes. -/
theorem routes_mem (m : Map) (s e : Coords) (p : List Coords) :
    p ∈ routes m s e ↔ is_route m s e p := by
  unfold routes is_route
  rw [step_eq_openStep, ← route_reverse_iff s e p]
  have hmem := paths_fuel_mem (fun x y => decide (m.get_blocks x y &&& STREET_HORIZ = 0))
    (fun x y => decide (m.get_blocks x y &&& STREET_VERT = 0)) s (e.x + e.y + 1) e.x e.y
    (by omega) p.reverse
  rw [← hmem]
  constructor
  · intro h
    obtain ⟨rp, hrp, rfl⟩ := List.mem_map.1 h
    rw [List.reverse_reverse]; exact hrp
  · intro h
    exact List.mem_map.2 ⟨p.reverse, h, List.reverse_reverse p⟩

/-- The list `routes` holds no route twice. -/
theorem routes_nodup (m : Map) (s e : Coords) : (routes m s e).Nodup := by
  unfold routes
  exact (paths_fuel_nodup _ _ _ _ _ _).map List.reverse_injective

/-- The number of routes to a coordinate is the sum of the numbers of routes to
its predecessors through open streets. -/
theorem routes_length (m : Map) (sx sy x y : Nat) :
    (routes m ⟨sx, sy⟩ ⟨x, y⟩).length =
      if x < sx ∨ y < sy then 0
      else if x = sx ∧ y = sy then 1
      else
        (if m.get_blocks x y &&& STREET_HORIZ = 0
          then (routes m ⟨sx, sy⟩ ⟨x - 1, y⟩).length else 0) +
        (if m.get_blocks x y &&& STREET_VERT = 0
          then (routes m ⟨sx, sy⟩ ⟨x, y - 1⟩).length else 0) := by
  unfold routes
  simp only [List.length_map]
  rw [paths_fuel]
  by_cases h1 : x < sx ∨ y < sy
  · simp only [if_pos h1, List.length_nil]
  simp only [if_neg h1]
  by_cases h2 : x = sx ∧ y = sy
  · simp only [if_pos h2, List.length_singleton]
  simp only [if_neg h2, List.length_append]
  congr 1
  · by_cases hb : m.get_blocks x y &&& STREET_HORIZ = 0
    · have hx := pos_of_horiz_clear hb
      have e1 : x - 1 + y + 1 = x + y := by omega
      simp only [hb, decide_True, and_true, if_pos (Nat.pos_iff_ne_zero.1 hx), if_true,
        List.length_map, e1]
    · simp only [hb, decide_False, and_false, if_false, List.length_nil]
      simp
  · by_cases hb : m.get_blocks x y &&& STREET_VERT = 0
    · have hy := pos_of_vert_clear hb
      have e1 : x + (y - 1) + 1 = x + y := by omega
      simp only [hb, decide_True, and_true, if_pos (Nat.pos_iff_ne_zero.1 hy), if_true,
        List.length_map, e1]
    · simp only [hb, decide_False, and_false, if_false, List.length_nil]
      simp

/-- A call never returns more than the number of routes to its end, when no
entry of the memo table is above the number of routes to its key. -/
theorem eval_le_routes (map : Map) (sx sy : Nat) (c : Cache) (x y : Nat)
    (hc : ∀ k v, find k c = some v → v ≤ (routes map ⟨sx, sy⟩ k).length) :
    ∃ r c', eval map sx sy c x y = some (r, c') ∧
      r ≤ (routes map ⟨sx, sy⟩ ⟨x, y⟩).length ∧
      ∀ k v, find k c' = some v → v ≤ (routes map ⟨sx, sy⟩ k).length := by
  have main := eval_induction map sx sy
    (fun c x y r c' =>
      (∀ k v, find k c = some v → v ≤ (routes map ⟨sx, sy⟩ k).length) →
      r ≤ (routes map ⟨sx, sy⟩ ⟨x, y⟩).length ∧
      ∀ k v, find k c' = some v → v ≤ (routes map ⟨sx, sy⟩ k).length)
    (fun _ _ _ _ hc => ⟨Nat.zero_le _, hc⟩)
    (by
      intro c hc
      refine ⟨?_, hc⟩
      rw [routes_length]
      simp)
    (fun _ _ _ _ _ _ hc => ⟨Nat.zero_le _, hc⟩)
    (fun c x y p _ _ _ hf hc => ⟨hc _ _ hf, hc⟩)
    (by
      intro c x y hcnt c1 vc c2 h1 h2 h3 hf p1 q1 p2 q2 hc
      have A : hcnt ≤ (if map.get_blocks x y &&& STREET_HORIZ = 0
            then (routes map ⟨sx, sy⟩ ⟨x - 1, y⟩).length else 0) ∧
          ∀ k v, find k c1 = some v → v ≤ (routes map ⟨sx, sy⟩ k).length := by
        by_cases hb : map.get_blocks x y &&& STREET_HORIZ = 0
        · rw [if_pos hb]; exact (p1 hb).2 hc
        · obtain ⟨e, rfl⟩ := q1 hb
          rw [if_neg hb, e]; exact ⟨le_refl _, hc⟩
      obtain ⟨hA, hc1⟩ := A
      have B : vc ≤ (if map.get_blocks x y &&& STREET_VERT = 0
            then (routes map ⟨sx, sy⟩ ⟨x, y - 1⟩).length else 0) ∧
          ∀ k v, find k c2 = some v → v ≤ (routes map ⟨sx, sy⟩ k).length := by
        by_cases hb : map.get_blocks x y &&& STREET_VERT = 0
        · rw [if_pos hb]; exact (p2 hb).2 hc1
        · obtain ⟨e, rfl⟩ := q2 hb
          rw [if_neg hb, e]; exact ⟨le_refl _, hc1⟩
      obtain ⟨hB, hc2⟩ := B
      have R : hcnt + vc ≤ (routes map ⟨sx, sy⟩ ⟨x, y⟩).length := by
        rw [routes_length map sx sy x y, if_neg h1, if_neg h2]
        omega
      refine ⟨R, ?_⟩
      apply find_emplace_ok c2 ⟨x, y⟩ _ hc2
      by_cases h0 : hcnt + vc = 0
      · rw [if_pos h0]; exact Nat.zero_le _
      · rw [if_neg h0]; omega)
    c x y
  obtain ⟨r, c', he, hp⟩ := main
  exact ⟨r, c', he, hp hc⟩

/-- C18. Edge-blocked engine never over-counts: for every map, start and end,
whenever `all` lists the routes from start to end (the sequences of unit x- or
y-steps each entering a coordinate through an incoming street that `get_blocks`
reports open), each exactly once, a fresh counter's `num_routes (end)` is at
most the length of `all`, the true number of routes.  (An end outside the bounds
is covered too: the engine returns 0 for it, or 1 when it is the start.) -/
theorem edge_never_overcounts (map : Map) (start_x start_y end_x end_y : Nat)
    (all : List (List Coords)) (hnodup : all.Nodup)
    (hall : ∀ p, p ∈ all ↔ is_route map ⟨start_x, start_y⟩ ⟨end_x, end_y⟩ p) :
    ∃ n, num_routes map start_x start_y end_x end_y = some n ∧ n ≤ all.length := by
  obtain ⟨r, c', he, hle, _⟩ := eval_le_routes map start_x start_y [] end_x end_y
    (by intro k v h; simp [find] at h)
  refine ⟨r, fresh_of_eval _ _ _ _ _ r c' he, ?_⟩
  have hperm : all.Perm (routes map ⟨start_x, start_y⟩ ⟨end_x, end_y⟩) :=
    (List.perm_ext_iff_of_nodup hnodup (routes_nodup _ _ _)).2
      (fun p => (hall p).trans (routes_mem _ _ _ p).symm)
  rw [hperm.length_eq]
  exact hle

/-- Witness of C18: the 3x3 grid without blocked streets, start (0,0), end (2,2):
six routes, and the engine returns 5. -/
theorem edge_never_overcounts_witness :
    ((routes (Map.new 3 3) ⟨0, 0⟩ ⟨2, 2⟩).Nodup ∧
      (∀ p, p ∈ routes (Map.new 3 3) ⟨0, 0⟩ ⟨2, 2⟩ ↔ is_route (Map.new 3 3) ⟨0, 0⟩ ⟨2, 2⟩ p)) ∧
    (routes (Map.new 3 3) ⟨0, 0⟩ ⟨2, 2⟩).length = 6 ∧
    num_routes (Map.new 3 3) 0 0 2 2 = some 5 ∧
    ∃ n, num_routes (Map.new 3 3) 0 0 2 2 = some n ∧
      n ≤ (routes (Map.new 3 3) ⟨0, 0⟩ ⟨2, 2⟩).length :=
  ⟨⟨routes_nodup _ _ _, routes_mem _ _ _⟩, by decide, by decide,
   edge_never_overcounts (Map.new 3 3) 0 0 2 2 (routes (Map.new 3 3) ⟨0, 0⟩ ⟨2, 2⟩)
    (routes_nodup _ _ _) (routes_mem _ _ _)⟩

end RouteCount

namespace RouteCountOld
open RouteCount (Coords find emplace Cache OpenStep paths_fuel)

theorem node_step_eq_openStep (map : Map) :
    (fun a b => Step a b ∧ b ∉ map.blocks) =
      OpenStep (fun x y => decide ((⟨x, y⟩ : Coords) ∉ map.blocks))
        (fun x y => decide ((⟨x, y⟩ : Coords) ∉ map.blocks)) := by
  funext a b
  obtain ⟨bx, by'⟩ := b
  simp only [Step, OpenStep, decide_eq_true_eq]
  apply propext
  tauto

/-- The list `routes` holds exactly the routes. -/
theorem node_routes_mem (map : Map) (s e : Coords) (p : List Coords) :
    p ∈ routes map s e ↔ is_route map s e p := by
  unfold routes is_route
  by_cases hs : s ∈ map.blocks
  · rw [if_pos hs]
    constructor
    · intro h; cases h
    · rintro ⟨l, _, _, _, hall⟩
      exact absurd hs (hall s (List.mem_cons_self _ _))
  rw [if_neg hs]
  have hmem := RouteCount.paths_fuel_mem (fun x y => decide ((⟨x, y⟩ : Coords) ∉ map.blocks))
    (fun x y => decide ((⟨x, y⟩ : Coords) ∉ map.blocks)) s (e.x + e.y + 1) e.x e.y
    (by omega) p.reverse
  rw [RouteCount.route_reverse_iff s e p, ← node_step_eq_openStep] at hmem
  constructor
  · intro h
    obtain ⟨rp, hrp, rfl⟩ := List.mem_map.1 h
    rw [List.reverse_reverse] at hmem
    obtain ⟨l, hl, hch, hlast⟩ := hmem.1 hrp
    obtain ⟨h1, h2⟩ := (chain_unblocked_iff map l s).2 hch
    refine ⟨l, hl, h1, hlast, ?_⟩
    intro k hk
    rcases List.mem_cons.1 hk with rfl | hk
    · exact hs
    · exact h2 k hk
  · rintro ⟨l, hl, hch, hlast, hall⟩
    have hch' := (chain_unblocked_iff map l s).1
      ⟨hch, fun k hk => hall k (List.mem_cons_of_mem _ hk)⟩
    exact List.mem_map.2 ⟨p.reverse, hmem.2 ⟨l, hl, hch', hlast⟩, List.reverse_reverse p⟩

/-- The list `routes` holds no route twice. -/
theorem node_routes_nodup (map : Map) (s e : Coords) : (routes map s e).Nodup := by
  unfold routes
  by_cases hs : s ∈ map.blocks
  · rw [if_pos hs]; exact List.nodup_nil
  · rw [if_neg hs]
    exact (RouteCount.paths_fuel_nodup _ _ _ _ _ _).map List.reverse_injective

/-- C20. Node-blocked engine can exceed the true path count: on the 3x3 grid with
only (1,1) blocked, start (0,0) and end (2,2), a fresh counter's `num_routes`
returns 3, while the monotone right/down paths from start to end that avoid the
blocked coordinate are exactly two (`all` lists them, each once); the
edge-blocked engine with both incoming streets of (1,1) blocked returns 2. -/
theorem node_exceeds_true_count :
    num_routes ⟨3, 3, [⟨1, 1⟩]⟩ 0 0 2 2 = some 3 ∧
    (∃ all : List (List Coords), all.Nodup ∧
      (∀ p, p ∈ all ↔ is_route ⟨3, 3, [⟨1, 1⟩]⟩ ⟨0, 0⟩ ⟨2, 2⟩ p) ∧ all.length = 2) ∧
    RouteCount.num_routes
      ((RouteCount.Map.new 3 3).add_blocks 1 1
        (RouteCount.STREET_HORIZ ||| RouteCount.STREET_VERT)) 0 0 2 2 = some 2 :=
  ⟨by decide,
   ⟨routes ⟨3, 3, [⟨1, 1⟩]⟩ ⟨0, 0⟩ ⟨2, 2⟩, node_routes_nodup _ _ _, node_routes_mem _ _ _,
    by decide⟩,
   by decide⟩

end RouteCountOld

/-! ## Construction of the maps (C14) -/

namespace RouteCount

theorem foldl_add_blocks_bounds (records : List (Nat × Nat × Nat)) :
    ∀ m : Map,
      (records.foldl (fun map r => map.add_blocks r.1 r.2.1 r.2.2) m).width = m.width ∧
      (records.foldl (fun map r => map.add_blocks r.1 r.2.1 r.2.2) m).height = m.height := by
  induction records with
  | nil => intro m; exact ⟨rfl, rfl⟩
  | cons r rest ih =>
    intro m
    rw [List.foldl_cons]
    obtain ⟨h1, h2⟩ := ih (m.add_blocks r.1 r.2.1 r.2.2)
    obtain ⟨h3, h4⟩ := add_blocks_bounds m r.1 r.2.1 r.2.2
    exact ⟨h1.trans h3, h2.trans h4⟩

/-- Bits that `get_blocks` reports stay on through later `add_blocks` calls. -/
theorem foldl_add_blocks_keeps (records : List (Nat × Nat × Nat)) (x y b : Nat) :
    ∀ m : Map, m.get_blocks x y ||| b = m.get_blocks x y →
      (records.foldl (fun map r => map.add_blocks r.1 r.2.1 r.2.2) m).get_blocks x y ||| b =
        (records.foldl (fun map r => map.add_blocks r.1 r.2.1 r.2.2) m).get_blocks x y := by
  induction records with
  | nil => intro m h; exact h
  | cons r rest ih =>
    intro m h
    rw [List.foldl_cons]
    apply ih
    rw [get_blocks_add_blocks]
    by_cases hk : x = r.1 ∧ y = r.2.1
    · rw [if_pos hk, Nat.lor_assoc, Nat.lor_comm r.2.2 b, ← Nat.lor_assoc, h]
    · rw [if_neg hk, h]

theorem foldl_add_blocks_stored (records : List (Nat × Nat × Nat)) :
    ∀ m : Map, ∀ r ∈ records,
      (records.foldl (fun map r => map.add_blocks r.1 r.2.1 r.2.2) m).get_blocks r.1 r.2.1
          ||| r.2.2 =
        (records.foldl (fun map r => map.add_blocks r.1 r.2.1 r.2.2) m).get_blocks r.1 r.2.1 := by
  induction records with
  | nil => intro m r hr; cases hr
  | cons r0 rest ih =>
    intro m r hr
    rw [List.foldl_cons]
    rcases List.mem_cons.1 hr with rfl | hr
    · apply foldl_add_blocks_keeps
      rw [get_blocks_add_blocks, if_pos ⟨rfl, rfl⟩, Nat.lor_assoc, Nat.or_self]
    · exact ih _ r hr

end RouteCount

namespace RouteCountOld
open RouteCount (Coords)

theorem node_foldl_insert (records : List (Nat × Nat)) :
    ∀ m : Map,
      (records.foldl (fun map r => { map with blocks := insert_block ⟨r.1, r.2⟩ map.blocks })
        m).width = m.width ∧
      (records.foldl (fun map r => { map with blocks := insert_block ⟨r.1, r.2⟩ map.blocks })
        m).height = m.height ∧
      (∀ k ∈ m.blocks, k ∈ (records.foldl
        (fun map r => { map with blocks := insert_block ⟨r.1, r.2⟩ map.blocks }) m).blocks) ∧
      (∀ r ∈ records, (⟨r.1, r.2⟩ : Coords) ∈ (records.foldl
        (fun map r => { map with blocks := insert_block ⟨r.1, r.2⟩ map.blocks }) m).blocks) := by
  induction records with
  | nil => intro m; exact ⟨rfl, rfl, fun _ h => h, fun _ h => by cases h⟩
  | cons r0 rest ih =>
    intro m
    rw [List.foldl_cons]
    obtain ⟨h1, h2, h3, h4⟩ := ih { m with blocks := insert_block ⟨r0.1, r0.2⟩ m.blocks }
    have hins : ∀ k, k ∈ m.blocks ∨ k = ⟨r0.1, r0.2⟩ →
        k ∈ insert_block ⟨r0.1, r0.2⟩ m.blocks := by
      intro k hk
      unfold insert_block
      by_cases hin : (⟨r0.1, r0.2⟩ : Coords) ∈ m.blocks
      · rw [if_pos hin]
        rcases hk with hk | rfl
        · exact hk
        · exact hin
      · rw [if_neg hin]
        rcases hk with hk | rfl
        · exact List.mem_cons_of_mem _ hk
        · exact List.mem_cons_self _ _
    refine ⟨h1, h2, fun k hk => h3 k (hins k (Or.inl hk)), ?_⟩
    intro r hr
    rcases List.mem_cons.1 hr with rfl | hr
    · exact h3 _ (hins _ (Or.inr rfl))
    · exact h4 r hr

/-- C14 as stated fails: a grid of width 0 and height 0 is built, and records
outside the bounds of a 2x2 grid are stored, by both `read_map` functions. -/
theorem construction_not_rejected_counterexample :
    RouteCount.read_map 0 0 [] = ⟨0, 0, []⟩ ∧
    RouteCount.read_map 2 2 [(5, 7, 3)] = ⟨2, 2, [(⟨5, 7⟩, 3)]⟩ ∧
    (RouteCount.read_map 2 2 [(5, 7, 3)]).get_blocks 5 7 = 3 ∧
    RouteCountOld.read_map 0 0 [] = ⟨0, 0, []⟩ ∧
    RouteCountOld.read_map 2 2 [(5, 7)] = ⟨2, 2, [⟨5, 7⟩]⟩ := by
  decide

/-- C14, amended. Construction data is never rejected: for every width and
height, 0 included, and every list of obstruction records, coordinates outside
the bounds included, the edge-blocked `Map` constructor, `add_blocks` and
`read_map`, and the node-blocked `read_map`, produce a map with the given
bounds in which every record is stored (edge-blocked: `get_blocks` of the
coordinate of a record has the bits of the record; node-blocked: the coordinate
is in the block set). -/
theorem construction_never_rejected (width height : Nat)
    (records : List (Nat × Nat × Nat)) (records_old : List (Nat × Nat)) :
    ((RouteCount.Map.new width height).width = width ∧
      (RouteCount.Map.new width height).height = height) ∧
    ((RouteCount.read_map width height records).width = width ∧
      (RouteCount.read_map width height records).height = height ∧
      ∀ r ∈ records,
        (RouteCount.read_map width height records).get_blocks r.1 r.2.1 ||| r.2.2 =
          (RouteCount.read_map width height records).get_blocks r.1 r.2.1) ∧
    ((RouteCountOld.read_map width height records_old).width = width ∧
      (RouteCountOld.read_map width height records_old).height = height ∧
      ∀ r ∈ records_old,
        (⟨r.1, r.2⟩ : Coords) ∈ (RouteCountOld.read_map width height records_old).blocks) := by
  refine ⟨⟨rfl, rfl⟩, ⟨?_, ?_, ?_⟩, ⟨?_, ?_, ?_⟩⟩
  · exact (RouteCount.foldl_add_blocks_bounds records (RouteCount.Map.new width height)).1
  · exact (RouteCount.foldl_add_blocks_bounds records (RouteCount.Map.new width height)).2
  · exact RouteCount.foldl_add_blocks_stored records (RouteCount.Map.new width height)
  · exact (node_foldl_insert records_old ⟨width, height, []⟩).1
  · exact (node_foldl_insert records_old ⟨width, height, []⟩).2.1
  · exact (node_foldl_insert records_old ⟨width, height, []⟩).2.2.2

end RouteCountOld

/-! ## The node-blocked engine with the 32-bit counts of the source -/

namespace RouteCountOld
open RouteCount (Coords find emplace Cache find_emplace find_emplace_ok)

theorem node32_fuel_succ (map : Map) (sx sy : Nat) :
    ∀ (f : Nat) (c : Cache) (x y : Nat) (r : Nat × Cache),
      num_routes32_fuel map sx sy f c x y = some r →
      num_routes32_fuel map sx sy (f + 1) c x y = some r := by
  intro f
  induction f with
  | zero => intro c x y r h; simp [num_routes32_fuel] at h
  | succ f ih =>
    intro c x y r h
    rw [num_routes32_fuel] at h ⊢
    by_cases h1 : x < sx ∨ y < sy
    · simpa only [h1, if_true] using h
    simp only [h1, if_false] at h ⊢
    by_cases h2 : x = sx ∧ y = sy
    · simpa only [h2, if_true] using h
    simp only [h2, if_false] at h ⊢
    by_cases h3 : x ≥ map.width ∨ y ≥ map.height
    · simpa only [h3, if_true] using h
    simp only [h3, if_false] at h ⊢
    cases hf : find ⟨x, y⟩ c with
    | some p => simpa only [hf] using h
    | none =>
      simp only [hf] at h ⊢
      by_cases hb : (⟨x, y⟩ : Coords) ∈ map.blocks
      · simpa only [hb, if_true] using h
      simp only [hb, if_false] at h ⊢
      -- the vertical predecessor
      have H1 : ∀ r1, (if y = 0 then some (0, c)
            else num_routes32_fuel map sx sy f c x (y - 1)) = some r1 →
          (if y = 0 then some (0, c)
            else num_routes32_fuel map sx sy (f + 1) c x (y - 1)) = some r1 := by
        intro r1 hr1
        by_cases hy : y = 0
        · simpa only [hy, if_true] using hr1
        · simp only [hy, if_false] at hr1 ⊢; exact ih _ _ _ _ hr1
      cases hr1 : (if y = 0 then some (0, c)
            else num_routes32_fuel map sx sy f c x (y - 1)) with
      | none => rw [hr1] at h; simp at h
      | some r1 =>
        rw [H1 r1 hr1]; rw [hr1] at h
        obtain ⟨vc, c1⟩ := r1
        try simp only at h ⊢
        have H2 : ∀ r2, (if x = 0 then some (0, c1)
              else num_routes32_fuel map sx sy f c1 (x - 1) y) = some r2 →
            (if x = 0 then some (0, c1)
              else num_routes32_fuel map sx sy (f + 1) c1 (x - 1) y) = some r2 := by
          intro r2 hr2
          by_cases hx : x = 0
          · simpa only [hx, if_true] using hr2
          · simp only [hx, if_false] at hr2 ⊢; exact ih _ _ _ _ hr2
        cases hr2 : (if x = 0 then some (0, c1)
              else num_routes32_fuel map sx sy f c1 (x - 1) y) with
        | none => rw [hr2] at h; simp at h
        | some r2 =>
          rw [H2 r2 hr2]; rw [hr2] at h
          obtain ⟨hc, c2⟩ := r2
          try simp only at h ⊢
          by_cases hvh : vc ≠ 0 ∧ hc ≠ 0
          · rw [if_pos hvh] at h ⊢
            cases hr3 : num_routes32_fuel map sx sy f c2 (x - 1) (y - 1) with
            | none => rw [hr3] at h; simp at h
            | some r3 =>
              rw [ih _ _ _ _ hr3]; rw [hr3] at h
              exact h
          · rw [if_neg hvh] at h ⊢; exact h

theorem node32_fuel_mono (map : Map) (sx sy : Nat) {f f' : Nat} (hf : f ≤ f')
    {c : Cache} {x y : Nat} {r : Nat × Cache}
    (h : num_routes32_fuel map sx sy f c x y = some r) :
    num_routes32_fuel map sx sy f' c x y = some r := by
  induction hf with
  | refl => exact h
  | step _ ih => exact node32_fuel_succ map sx sy _ _ _ _ _ ih

theorem node32_fuel_total (map : Map) (sx sy : Nat) :
    ∀ (f : Nat) (c : Cache) (x y : Nat), x + y < f →
      ∃ r, num_routes32_fuel map sx sy f c x y = some r := by
  intro f
  induction f with
  | zero => intro c x y h; omega
  | succ f ih =>
    intro c x y hn
    rw [num_routes32_fuel]
    by_cases h1 : x < sx ∨ y < sy
    · rw [if_pos h1]; exact ⟨_, rfl⟩
    rw [if_neg h1]
    by_cases h2 : x = sx ∧ y = sy
    · rw [if_pos h2]; exact ⟨_, rfl⟩
    rw [if_neg h2]
    by_cases h3 : x ≥ map.width ∨ y ≥ map.height
    · rw [if_pos h3]; exact ⟨_, rfl⟩
    rw [if_neg h3]
    cases hf : find ⟨x, y⟩ c with
    | some p => exact ⟨_, rfl⟩
    | none =>
      by_cases hb : (⟨x, y⟩ : Coords) ∈ map.blocks
      · simp only [hb, if_true]; exact ⟨_, rfl⟩
      simp only [hb, if_false]
      have H1 : ∃ vc c1, (if y = 0 then some (0, c)
            else num_routes32_fuel map sx sy f c x (y - 1)) = some (vc, c1) ∧ (y = 0 → vc = 0) := by
        by_cases hy : y = 0
        · exact ⟨0, c, by simp only [hy, if_true], fun _ => rfl⟩
        · obtain ⟨⟨r, c'⟩, hr⟩ := ih c x (y - 1) (by omega)
          exact ⟨r, c', by simp only [hy, if_false, hr], fun h => absurd h hy⟩
      obtain ⟨vc, c1, e1, hv0⟩ := H1
      rw [e1]; try simp only
      have H2 : ∃ hc c2, (if x = 0 then some (0, c1)
            else num_routes32_fuel map sx sy f c1 (x - 1) y) = some (hc, c2) := by
        by_cases hx : x = 0
        · exact ⟨0, c1, by simp only [hx, if_true]⟩
        · obtain ⟨⟨r, c'⟩, hr⟩ := ih c1 (x - 1) y (by omega)
          exact ⟨r, c', by simp only [hx, if_false, hr]⟩
      obtain ⟨hc, c2, e2⟩ := H2
      rw [e2]; try simp only
      by_cases hvh : vc ≠ 0 ∧ hc ≠ 0
      · rw [if_pos hvh]
        have hy : y ≠ 0 := fun h => hvh.1 (hv0 h)
        obtain ⟨⟨r, c'⟩, hr⟩ := ih c2 (x - 1) (y - 1) (by omega)
        rw [hr]; exact ⟨_, rfl⟩
      · rw [if_neg hvh]; exact ⟨_, rfl⟩

theorem node32_eval_total (map : Map) (sx sy : Nat) (c : Cache) (x y : Nat) :
    ∃ r c', eval32 map sx sy c x y = some (r, c') := by
  obtain ⟨⟨r, c'⟩, h⟩ := node32_fuel_total map sx sy (x + y + 1) c x y (by omega)
  exact ⟨r, c', h⟩

/-- Any fuel above `end_x + end_y` gives the result of `eval32`. -/
theorem node32_fuel_eq_eval (map : Map) (sx sy : Nat) (c : Cache) (x y fuel : Nat)
    (h : x + y < fuel) : num_routes32_fuel map sx sy fuel c x y = eval32 map sx sy c x y := by
  obtain ⟨r, c', he⟩ := node32_eval_total map sx sy c x y
  rw [he]
  exact node32_fuel_mono map sx sy (by omega) he

theorem node32_eval_out (map : Map) (sx sy : Nat) (c : Cache) (x y : Nat) (h : x < sx ∨ y < sy) :
    eval32 map sx sy c x y = some (0, c) := by
  simp [eval32, num_routes32_fuel, h]

theorem node32_eval_start (map : Map) (sx sy : Nat) (c : Cache) :
    eval32 map sx sy c sx sy = some (1, c) := by
  simp [eval32, num_routes32_fuel]

theorem node32_eval_oob (map : Map) (sx sy : Nat) (c : Cache) (x y : Nat)
    (h2 : ¬ (x = sx ∧ y = sy)) (h3 : x ≥ map.width ∨ y ≥ map.height) :
    eval32 map sx sy c x y = some (0, c) := by
  unfold eval32
  rw [num_routes32_fuel]
  by_cases h1 : x < sx ∨ y < sy
  · simp only [h1, if_true]
  · simp only [h1, h2, h3, if_true, if_false]

theorem node32_eval_hit (map : Map) (sx sy : Nat) (c : Cache) (x y p : Nat)
    (h1 : ¬ (x < sx ∨ y < sy)) (h2 : ¬ (x = sx ∧ y = sy))
    (h3 : ¬ (x ≥ map.width ∨ y ≥ map.height)) (hf : find ⟨x, y⟩ c = some p) :
    eval32 map sx sy c x y = some (p, c) := by
  unfold eval32
  rw [num_routes32_fuel]
  simp only [h1, h2, h3, if_false, hf]

theorem node32_eval_blocked (map : Map) (sx sy : Nat) (c : Cache) (x y : Nat)
    (h1 : ¬ (x < sx ∨ y < sy)) (h2 : ¬ (x = sx ∧ y = sy))
    (h3 : ¬ (x ≥ map.width ∨ y ≥ map.height)) (hf : find ⟨x, y⟩ c = none)
    (hb : (⟨x, y⟩ : Coords) ∈ map.blocks) :
    eval32 map sx sy c x y = some (0, c) := by
  unfold eval32
  rw [num_routes32_fuel]
  simp only [h1, h2, h3, if_false, hf, hb, if_true]

theorem node32_eval_miss (map : Map) (sx sy : Nat) (c : Cache) (x y : Nat)
    (h1 : ¬ (x < sx ∨ y < sy)) (h2 : ¬ (x = sx ∧ y = sy))
    (h3 : ¬ (x ≥ map.width ∨ y ≥ map.height)) (hf : find ⟨x, y⟩ c = none)
    (hb : (⟨x, y⟩ : Coords) ∉ map.blocks) :
    eval32 map sx sy c x y =
      match (if y = 0 then some (0, c) else eval32 map sx sy c x (y - 1)) with
      | none => none
      | some (v_count, cache1) =>
        match (if x = 0 then some (0, cache1) else eval32 map sx sy cache1 (x - 1) y) with
        | none => none
        | some (h_count, cache2) =>
          if v_count ≠ 0 ∧ h_count ≠ 0 then
            match eval32 map sx sy cache2 (x - 1) (y - 1) with
            | none => none
            | some (d_count, cache3) =>
              some (add32 (sub32 (add32 v_count h_count) d_count) 1,
                emplace cache3 ⟨x, y⟩ (add32 (sub32 (add32 v_count h_count) d_count) 1))
          else
            some (add32 v_count h_count, emplace cache2 ⟨x, y⟩ (add32 v_count h_count)) := by
  have hxy : 0 < x + y := by
    rcases Nat.eq_zero_or_pos (x + y) with h | h
    · exfalso; apply h2; constructor <;> omega
    · exact h
  have e1 : ∀ c', y ≠ 0 → num_routes32_fuel map sx sy (x + y) c' x (y - 1)
      = eval32 map sx sy c' x (y - 1) :=
    fun c' hy => node32_fuel_eq_eval map sx sy c' x (y - 1) (x + y) (by omega)
  have e2 : ∀ c', x ≠ 0 → num_routes32_fuel map sx sy (x + y) c' (x - 1) y
      = eval32 map sx sy c' (x - 1) y :=
    fun c' hx => node32_fuel_eq_eval map sx sy c' (x - 1) y (x + y) (by omega)
  have e3 : ∀ c', num_routes32_fuel map sx sy (x + y) c' (x - 1) (y - 1)
      = eval32 map sx sy c' (x - 1) (y - 1) :=
    fun c' => node32_fuel_eq_eval map sx sy c' (x - 1) (y - 1) (x + y) (by omega)
  conv => lhs; unfold eval32
  rw [num_routes32_fuel]
  simp only [h1, h2, h3, if_false, hf, hb, e3]
  by_cases hy : y = 0
  · by_cases hx : x = 0
    · simp only [if_pos hx, if_pos hy]
    · simp only [if_neg hx, if_pos hy, e2 _ hx]
  · by_cases hx : x = 0
    · simp only [if_pos hx, if_neg hy, e1 _ hy]
    · simp only [if_neg hx, if_neg hy, e1 _ hy, e2 _ hx]



/-- Big-step induction for the node-blocked engine: every call returns, and a
property of (memo table before, end, count, memo table after) that holds in the
return paths of `num_routes` holds of every call (32-bit counts). -/
theorem node32_eval_induction (map : Map) (sx sy : Nat)
    (P : Cache → Nat → Nat → Nat → Cache → Prop)
    (h_out : ∀ c x y, (x < sx ∨ y < sy) → P c x y 0 c)
    (h_start : ∀ c, P c sx sy 1 c)
    (h_oob : ∀ c x y, ¬ (x < sx ∨ y < sy) → ¬ (x = sx ∧ y = sy) →
      (x ≥ map.width ∨ y ≥ map.height) → P c x y 0 c)
    (h_hit : ∀ c x y p, ¬ (x < sx ∨ y < sy) → ¬ (x = sx ∧ y = sy) →
      ¬ (x ≥ map.width ∨ y ≥ map.height) → find ⟨x, y⟩ c = some p → P c x y p c)
    (h_blocked : ∀ c x y, ¬ (x < sx ∨ y < sy) → ¬ (x = sx ∧ y = sy) →
      ¬ (x ≥ map.width ∨ y ≥ map.height) → find ⟨x, y⟩ c = none →
      (⟨x, y⟩ : Coords) ∈ map.blocks → P c x y 0 c)
    (h_plain : ∀ c x y vc c1 hc c2, ¬ (x < sx ∨ y < sy) → ¬ (x = sx ∧ y = sy) →
      ¬ (x ≥ map.width ∨ y ≥ map.height) → find ⟨x, y⟩ c = none →
      (⟨x, y⟩ : Coords) ∉ map.blocks →
      (y ≠ 0 → P c x (y - 1) vc c1) → (y = 0 → vc = 0 ∧ c1 = c) →
      (x ≠ 0 → P c1 (x - 1) y hc c2) → (x = 0 → hc = 0 ∧ c2 = c1) →
      ¬ (vc ≠ 0 ∧ hc ≠ 0) →
      P c x y (add32 vc hc) (emplace c2 ⟨x, y⟩ (add32 vc hc)))
    (h_corr : ∀ c x y vc c1 hc c2 dc c3, ¬ (x < sx ∨ y < sy) → ¬ (x = sx ∧ y = sy) →
      ¬ (x ≥ map.width ∨ y ≥ map.height) → find ⟨x, y⟩ c = none →
      (⟨x, y⟩ : Coords) ∉ map.blocks →
      y ≠ 0 → x ≠ 0 → P c x (y - 1) vc c1 → P c1 (x - 1) y hc c2 →
      vc ≠ 0 → hc ≠ 0 → P c2 (x - 1) (y - 1) dc c3 →
      P c x y (add32 (sub32 (add32 vc hc) dc) 1) (emplace c3 ⟨x, y⟩ (add32 (sub32 (add32 vc hc) dc) 1))) :
    ∀ c x y, ∃ r c', eval32 map sx sy c x y = some (r, c') ∧ P c x y r c' := by
  have key : ∀ n c x y, x + y < n → ∃ r c', eval32 map sx sy c x y = some (r, c') ∧ P c x y r c' := by
    intro n
    induction n with
    | zero => intro c x y h; omega
    | succ n ih =>
      intro c x y hn
      by_cases h1 : x < sx ∨ y < sy
      · exact ⟨0, c, node32_eval_out map sx sy c x y h1, h_out c x y h1⟩
      by_cases h2 : x = sx ∧ y = sy
      · obtain ⟨rfl, rfl⟩ := h2
        exact ⟨1, c, node32_eval_start map _ _ c, h_start c⟩
      by_cases h3 : x ≥ map.width ∨ y ≥ map.height
      · exact ⟨0, c, node32_eval_oob map sx sy c x y h2 h3, h_oob c x y h1 h2 h3⟩
      cases hf : find ⟨x, y⟩ c with
      | some p => exact ⟨p, c, node32_eval_hit map sx sy c x y p h1 h2 h3 hf, h_hit c x y p h1 h2 h3 hf⟩
      | none =>
        by_cases hb : (⟨x, y⟩ : Coords) ∈ map.blocks
        · exact ⟨0, c, node32_eval_blocked map sx sy c x y h1 h2 h3 hf hb,
            h_blocked c x y h1 h2 h3 hf hb⟩
        rw [node32_eval_miss map sx sy c x y h1 h2 h3 hf hb]
        have H1 : ∃ vc c1, (if y = 0 then some (0, c)
              else eval32 map sx sy c x (y - 1)) = some (vc, c1) ∧
            (y ≠ 0 → P c x (y - 1) vc c1) ∧ (y = 0 → vc = 0 ∧ c1 = c) := by
          by_cases hy : y = 0
          · exact ⟨0, c, by rw [if_pos hy], fun h => absurd hy h, fun _ => ⟨rfl, rfl⟩⟩
          · obtain ⟨r, c', he, hp⟩ := ih c x (y - 1) (by omega)
            exact ⟨r, c', by rw [if_neg hy, he], fun _ => hp, fun h => absurd h hy⟩
        obtain ⟨vc, c1, e1, p1, q1⟩ := H1
        have H2 : ∃ hc c2, (if x = 0 then some (0, c1)
              else eval32 map sx sy c1 (x - 1) y) = some (hc, c2) ∧
            (x ≠ 0 → P c1 (x - 1) y hc c2) ∧ (x = 0 → hc = 0 ∧ c2 = c1) := by
          by_cases hx : x = 0
          · exact ⟨0, c1, by rw [if_pos hx], fun h => absurd hx h, fun _ => ⟨rfl, rfl⟩⟩
          · obtain ⟨r, c', he, hp⟩ := ih c1 (x - 1) y (by omega)
            exact ⟨r, c', by rw [if_neg hx, he], fun _ => hp, fun h => absurd h hx⟩
        obtain ⟨hc, c2, e2, p2, q2⟩ := H2
        rw [e1]; simp only; rw [e2]; simp only
        by_cases hvh : vc ≠ 0 ∧ hc ≠ 0
        · rw [if_pos hvh]
          have hy : y ≠ 0 := fun h => hvh.1 (q1 h).1
          have hx : x ≠ 0 := fun h => hvh.2 (q2 h).1
          obtain ⟨dc, c3, e3, p3⟩ := ih c2 (x - 1) (y - 1) (by omega)
          rw [e3]
          exact ⟨_, _, rfl, h_corr c x y vc c1 hc c2 dc c3 h1 h2 h3 hf hb hy hx
            (p1 hy) (p2 hx) hvh.1 hvh.2 p3⟩
        · rw [if_neg hvh]
          exact ⟨_, _, rfl, h_plain c x y vc c1 hc c2 h1 h2 h3 hf hb p1 q1 p2 q2 hvh⟩
  intro c x y
  exact key (x + y + 1) c x y (by omega)

theorem count_free32_eq (map : Map) (sx sy x y : Nat) :
    count_free32 map sx sy x y =
      if x < sx ∨ y < sy then 0
      else if x = sx ∧ y = sy then 1
      else if x ≥ map.width ∨ y ≥ map.height then 0
      else if (⟨x, y⟩ : Coords) ∈ map.blocks then 0
      else
        if (if y = 0 then 0 else count_free32 map sx sy x (y - 1)) ≠ 0 ∧
           (if x = 0 then 0 else count_free32 map sx sy (x - 1) y) ≠ 0 then
          add32 (sub32 (add32 (if y = 0 then 0 else count_free32 map sx sy x (y - 1))
            (if x = 0 then 0 else count_free32 map sx sy (x - 1) y))
            (count_free32 map sx sy (x - 1) (y - 1))) 1
        else add32 (if y = 0 then 0 else count_free32 map sx sy x (y - 1))
            (if x = 0 then 0 else count_free32 map sx sy (x - 1) y) := by
  rw [count_free32]
  simp only [dite_eq_ite]


/-- A memo table all of whose entries hold the memo-free count of their key stays
so through a call, and the call returns the memo-free count. -/
theorem node32_eval_sound (map : Map) (sx sy : Nat) (c : Cache) (x y : Nat)
    (hc : ∀ k v, find k c = some v → v = count_free32 map sx sy k.x k.y) :
    ∃ c', eval32 map sx sy c x y = some (count_free32 map sx sy x y, c') ∧
      ∀ k v, find k c' = some v → v = count_free32 map sx sy k.x k.y := by
  have main := node32_eval_induction map sx sy
    (fun c x y r c' => (∀ k v, find k c = some v → v = count_free32 map sx sy k.x k.y) →
      r = count_free32 map sx sy x y ∧
      ∀ k v, find k c' = some v → v = count_free32 map sx sy k.x k.y)
    (by
      intro c x y h1 hc
      refine ⟨?_, hc⟩
      rw [count_free32_eq, if_pos h1])
    (by
      intro c hc
      refine ⟨?_, hc⟩
      rw [count_free32_eq]
      simp)
    (by
      intro c x y h1 h2 h3 hc
      refine ⟨?_, hc⟩
      rw [count_free32_eq, if_neg h1, if_neg h2, if_pos h3])
    (by
      intro c x y p h1 h2 h3 hf hc
      exact ⟨hc _ _ hf, hc⟩)
    (by
      intro c x y h1 h2 h3 hf hb hc
      refine ⟨?_, hc⟩
      rw [count_free32_eq, if_neg h1, if_neg h2, if_neg h3, if_pos hb])
    (by
      intro c x y vc c1 hcnt c2 h1 h2 h3 hf hb p1 q1 p2 q2 hvh hc
      have A : vc = (if y = 0 then 0 else count_free32 map sx sy x (y - 1)) ∧
          ∀ k v, find k c1 = some v → v = count_free32 map sx sy k.x k.y := by
        by_cases hy : y = 0
        · obtain ⟨e, rfl⟩ := q1 hy
          exact ⟨by rw [if_pos hy, e], hc⟩
        · obtain ⟨e, h⟩ := p1 hy hc
          exact ⟨by rw [if_neg hy, e], h⟩
      obtain ⟨ev, hc1⟩ := A
      have B : hcnt = (if x = 0 then 0 else count_free32 map sx sy (x - 1) y) ∧
          ∀ k v, find k c2 = some v → v = count_free32 map sx sy k.x k.y := by
        by_cases hx : x = 0
        · obtain ⟨e, rfl⟩ := q2 hx
          exact ⟨by rw [if_pos hx, e], hc1⟩
        · obtain ⟨e, h⟩ := p2 hx hc1
          exact ⟨by rw [if_neg hx, e], h⟩
      obtain ⟨eh, hc2⟩ := B
      have R : add32 vc hcnt = count_free32 map sx sy x y := by
        rw [count_free32_eq map sx sy x y, if_neg h1, if_neg h2, if_neg h3, if_neg hb, ← ev, ← eh,
          if_neg hvh]
      refine ⟨R, ?_⟩
      intro k v hk
      rw [find_emplace] at hk
      cases hk2 : find k c2 with
      | some w =>
        rw [hk2] at hk
        simp only [Option.some.injEq] at hk
        subst hk
        exact hc2 _ _ hk2
      | none =>
        rw [hk2] at hk
        simp only at hk
        split at hk
        · rename_i hkk
          subst hkk
          simp only [Option.some.injEq] at hk
          rw [← hk]; exact R
        · cases hk)
    (by
      intro c x y vc c1 hcnt c2 dc c3 h1 h2 h3 hf hb hy hx p1 p2 hv hh p3 hc
      obtain ⟨ev, hc1⟩ := p1 hc
      obtain ⟨eh, hc2⟩ := p2 hc1
      obtain ⟨ed, hc3⟩ := p3 hc2
      have R : add32 (sub32 (add32 vc hcnt) dc) 1 = count_free32 map sx sy x y := by
        rw [count_free32_eq map sx sy x y, if_neg h1, if_neg h2, if_neg h3, if_neg hb,
          if_neg hy, if_neg hx, ← ev, ← eh, ← ed, if_pos ⟨hv, hh⟩]
      refine ⟨R, ?_⟩
      intro k v hk
      rw [find_emplace] at hk
      cases hk2 : find k c3 with
      | some w =>
        rw [hk2] at hk
        simp only [Option.some.injEq] at hk
        subst hk
        exact hc3 _ _ hk2
      | none =>
        rw [hk2] at hk
        simp only at hk
        split at hk
        · rename_i hkk
          subst hkk
          simp only [Option.some.injEq] at hk
          rw [← hk]; exact R
        · cases hk)
    c x y
  obtain ⟨r, c', he, hp⟩ := main
  obtain ⟨e, h⟩ := hp hc
  subst e
  exact ⟨c', he, h⟩


theorem count_free32_out (map : Map) (sx sy x y : Nat) (h : x < sx ∨ y < sy) :
    count_free32 map sx sy x y = 0 := by
  rw [count_free32_eq, if_pos h]

theorem count_free32_start (map : Map) (sx sy : Nat) : count_free32 map sx sy sx sy = 1 := by
  rw [count_free32_eq]; simp


theorem node32_call_of_eval (st : SearchState) (x y r : Nat) (c' : Cache)
    (h : eval32 st.map st.start_x st.start_y st.lookup_cache x y = some (r, c')) :
    st.num_routes32 x y = some (r, { st with lookup_cache := c' }) := by
  unfold SearchState.num_routes32
  rw [h]

/-- A fresh search state returns the memo-free count. -/
theorem num_routes32_eq_count_free32 (map : Map) (sx sy x y : Nat) :
    num_routes32 map sx sy x y = some (count_free32 map sx sy x y) := by
  obtain ⟨c', he, _⟩ := node32_eval_sound map sx sy [] x y (by intro k v h; simp [find] at h)
  unfold num_routes32
  rw [node32_call_of_eval (SearchState.new map sx sy) x y _ c' he]

/-- Calls through a search state whose memo table is sound return the memo-free
counts and leave a sound memo table. -/
theorem SearchState.run32_sound (map : Map) (sx sy : Nat) (calls : List Coords) :
    ∀ c : Cache, (∀ k v, find k c = some v → v = count_free32 map sx sy k.x k.y) →
      ∃ c', SearchState.run32 ⟨map, sx, sy, c⟩ calls =
          some (calls.map (fun e => count_free32 map sx sy e.x e.y), ⟨map, sx, sy, c'⟩) ∧
        ∀ k v, find k c' = some v → v = count_free32 map sx sy k.x k.y := by
  induction calls with
  | nil => intro c hc; exact ⟨c, rfl, hc⟩
  | cons e rest ih =>
    intro c hc
    obtain ⟨c1, he, hc1⟩ := node32_eval_sound map sx sy c e.x e.y hc
    obtain ⟨c2, hr, hc2⟩ := ih c1 hc1
    refine ⟨c2, ?_, hc2⟩
    rw [SearchState.run32, node32_call_of_eval ⟨map, sx, sy, c⟩ e.x e.y _ c1 he]
    simp only
    rw [hr]
    rfl


end RouteCountOld

/-! ## 32-bit counts against unbounded counts -/

namespace RouteCountOld
open RouteCount (Coords find emplace Cache find_emplace find_emplace_ok)

/-- A 32-bit count is below `2^32`. -/
theorem count_free32_lt (map : Map) (sx sy x y : Nat) :
    count_free32 map sx sy x y < 4294967296 := by
  rw [count_free32_eq]
  unfold add32
  split_ifs <;> omega

/-- As long as the unbounded count of a coordinate is below `2^32`, the 32-bit
count is the unbounded count. -/
theorem count_free32_eq_count_free (map : Map) (sx sy : Nat) :
    ∀ n x y, x + y < n → count_free map sx sy x y < 4294967296 →
      count_free32 map sx sy x y = count_free map sx sy x y := by
  intro n
  induction n with
  | zero => intro x y h; omega
  | succ n ih =>
    intro x y hn hlt
    have e := count_free_eq map sx sy x y
    have e32 := count_free32_eq map sx sy x y
    by_cases h1 : x < sx ∨ y < sy
    · rw [if_pos h1] at e e32; rw [e, e32]
    rw [if_neg h1] at e e32
    by_cases h2 : x = sx ∧ y = sy
    · rw [if_pos h2] at e e32; rw [e, e32]
    rw [if_neg h2] at e e32
    by_cases h3 : x ≥ map.width ∨ y ≥ map.height
    · rw [if_pos h3] at e e32; rw [e, e32]
    rw [if_neg h3] at e e32
    by_cases hb : (⟨x, y⟩ : Coords) ∈ map.blocks
    · rw [if_pos hb] at e e32; rw [e, e32]
    rw [if_neg hb] at e e32
    by_cases hvh : (if y = 0 then 0 else count_free map sx sy x (y - 1)) ≠ 0 ∧
        (if x = 0 then 0 else count_free map sx sy (x - 1) y) ≠ 0
    · rw [if_pos hvh] at e
      have hy : y ≠ 0 := by
        intro h0; rw [if_pos h0] at hvh; exact hvh.1 rfl
      have hx : x ≠ 0 := by
        intro h0; rw [if_pos h0] at hvh; exact hvh.2 rfl
      rw [if_neg hy, if_neg hx] at hvh e
      obtain ⟨d1, d2⟩ := count_free_diag_le map sx sy (n + 1) x y hn hx hy hvh.1 hvh.2
      have hV := ih x (y - 1) (by omega) (by omega)
      have hH := ih (x - 1) y (by omega) (by omega)
      have hD := ih (x - 1) (y - 1) (by omega) (by omega)
      rw [if_neg hy, if_neg hx, hV, hH, hD, if_pos hvh] at e32
      rw [e32, e]
      unfold add32 sub32
      omega
    · rw [if_neg hvh] at e
      by_cases hy : y = 0
      · by_cases hx : x = 0
        · rw [if_pos hy, if_pos hx] at hvh e
          rw [if_pos hy, if_pos hx, if_neg hvh] at e32
          rw [e32, e]; rfl
        · rw [if_pos hy, if_neg hx] at hvh e
          have hH := ih (x - 1) y (by omega) (by omega)
          rw [if_pos hy, if_neg hx, hH, if_neg hvh] at e32
          rw [e32, e]
          unfold add32
          omega
      · by_cases hx : x = 0
        · rw [if_neg hy, if_pos hx] at hvh e
          have hV := ih x (y - 1) (by omega) (by omega)
          rw [if_neg hy, if_pos hx, hV, if_neg hvh] at e32
          rw [e32, e]
          unfold add32
          omega
        · rw [if_neg hy, if_neg hx] at hvh e
          have hV := ih x (y - 1) (by omega) (by omega)
          have hH := ih (x - 1) y (by omega) (by omega)
          rw [if_neg hy, if_neg hx, hV, hH, if_neg hvh] at e32
          rw [e32, e]
          unfold add32
          omega

/-- As long as the count of the unbounded reading is below `2^32`, the code with
its 32-bit counts returns it. -/
theorem num_routes32_eq_num_routes (map : Map) (sx sy x y n : Nat)
    (hn : num_routes map sx sy x y = some n) (hlt : n < 4294967296) :
    num_routes32 map sx sy x y = some n := by
  rw [num_routes_eq_count_free] at hn
  injection hn with hn
  rw [num_routes32_eq_count_free32,
    count_free32_eq_count_free map sx sy (x + y + 1) x y (by omega) (by omega), hn]

/-- A coordinate with a non-zero 32-bit count is in the quadrant of the start,
and it is the start or an unblocked coordinate inside the bounds. -/
theorem count_free32_ne_zero_guards (map : Map) (sx sy x y : Nat)
    (h : count_free32 map sx sy x y ≠ 0) :
    ¬ (x < sx ∨ y < sy) ∧
      ((x = sx ∧ y = sy) ∨
        (¬ (x ≥ map.width ∨ y ≥ map.height) ∧ (⟨x, y⟩ : Coords) ∉ map.blocks)) := by
  have e := count_free32_eq map sx sy x y
  by_cases h1 : x < sx ∨ y < sy
  · rw [if_pos h1] at e; exact absurd e h
  refine ⟨h1, ?_⟩
  rw [if_neg h1] at e
  by_cases h2 : x = sx ∧ y = sy
  · exact Or.inl h2
  rw [if_neg h2] at e
  by_cases h3 : x ≥ map.width ∨ y ≥ map.height
  · rw [if_pos h3] at e; exact absurd e h
  rw [if_neg h3] at e
  by_cases hb : (⟨x, y⟩ : Coords) ∈ map.blocks
  · rw [if_pos hb] at e; exact absurd e h
  exact Or.inr ⟨h3, hb⟩

/-- After a call on an unblocked coordinate past the three guards the memo table
has an entry for it. -/
theorem node32_eval_entry (map : Map) (sx sy : Nat) :
    ∀ c x y, ∃ r c', eval32 map sx sy c x y = some (r, c') ∧
      (¬ (x < sx ∨ y < sy) → ¬ (x = sx ∧ y = sy) → ¬ (x ≥ map.width ∨ y ≥ map.height) →
        (⟨x, y⟩ : Coords) ∉ map.blocks → ∃ w, find ⟨x, y⟩ c' = some w) := by
  apply node32_eval_induction map sx sy
    (fun _ x y _ c' => ¬ (x < sx ∨ y < sy) → ¬ (x = sx ∧ y = sy) →
      ¬ (x ≥ map.width ∨ y ≥ map.height) →
      (⟨x, y⟩ : Coords) ∉ map.blocks → ∃ w, find ⟨x, y⟩ c' = some w)
  · intro c x y h h1 _ _ _; exact absurd h h1
  · intro c _ h2 _ _; exact absurd ⟨rfl, rfl⟩ h2
  · intro c x y _ _ h _ _ h3 _; exact absurd h h3
  · intro c x y p _ _ _ hf _ _ _ _; exact ⟨p, hf⟩
  · intro c x y _ _ _ _ hb _ _ _ hb2; exact absurd hb hb2
  · intro c x y vc c1 hc c2 _ _ _ _ _ _ _ _ _ _ _ _ _ _
    rw [find_emplace]
    cases find ⟨x, y⟩ c2 with
    | some w => exact ⟨w, rfl⟩
    | none => exact ⟨_, if_pos rfl⟩
  · intro c x y vc c1 hc c2 dc c3 _ _ _ _ _ _ _ _ _ _ _ _ _ _ _ _
    rw [find_emplace]
    cases find ⟨x, y⟩ c3 with
    | some w => exact ⟨w, rfl⟩
    | none => exact ⟨_, if_pos rfl⟩

/-- From a sound memo table, the call on an unblocked coordinate past the three
guards returns the 32-bit count and leaves it in the (sound) memo table. -/
theorem node32_eval_sound_entry (map : Map) (sx sy : Nat) (c : Cache) (x y : Nat)
    (hc : ∀ k v, find k c = some v → v = count_free32 map sx sy k.x k.y)
    (h1 : ¬ (x < sx ∨ y < sy)) (h2 : ¬ (x = sx ∧ y = sy))
    (h3 : ¬ (x ≥ map.width ∨ y ≥ map.height)) (hb : (⟨x, y⟩ : Coords) ∉ map.blocks) :
    ∃ c', eval32 map sx sy c x y = some (count_free32 map sx sy x y, c') ∧
      (∀ k v, find k c' = some v → v = count_free32 map sx sy k.x k.y) ∧
      find ⟨x, y⟩ c' = some (count_free32 map sx sy x y) := by
  obtain ⟨c', he, hc'⟩ := node32_eval_sound map sx sy c x y hc
  obtain ⟨r, c'', he2, hw⟩ := node32_eval_entry map sx sy c x y
  rw [he] at he2
  injection he2 with he2
  injection he2 with _ hcc
  subst hcc
  obtain ⟨w, hw⟩ := hw h1 h2 h3 hb
  refine ⟨c', he, hc', ?_⟩
  rw [hw, hc' _ _ hw]

end RouteCountOld

/-! ## The ring map: the count doubles with every ring and reaches `2^32` -/

namespace RouteCountOld
open RouteCount (Coords find emplace Cache find_emplace find_emplace_ok)

theorem mem_ring_blocks (x y : Nat) :
    (⟨x, y⟩ : Coords) ∈ ring_blocks ↔ x < 64 ∧ y < 64 ∧ ¬ ring_open x y := by
  unfold ring_blocks
  simp only [List.mem_flatMap, List.mem_map, List.mem_filter, List.mem_range, decide_eq_true_eq]
  constructor
  · rintro ⟨a, ha, b, ⟨hb, hnb⟩, hab⟩
    injection hab with h1 h2
    subst h1; subst h2
    exact ⟨ha, hb, hnb⟩
  · rintro ⟨hx, hy, hn⟩
    exact ⟨x, hx, y, ⟨hy, hn⟩, rfl⟩

/-- The count of a coordinate of the ring map that is not open is 0. -/
theorem ring_count_zero (x y : Nat) (h : ¬ ring_open x y) :
    count_free ring_map 0 0 x y = 0 := by
  have h2 : ¬ (x = 0 ∧ y = 0) := by
    rintro ⟨rfl, rfl⟩
    exact h (by decide)
  rw [count_free_eq, if_neg (by omega), if_neg h2]
  by_cases h3 : x ≥ ring_map.width ∨ y ≥ ring_map.height
  · rw [if_pos h3]
  · rw [if_neg h3, if_pos]
    have h4 : ¬ (x ≥ 64 ∨ y ≥ 64) := h3
    exact (mem_ring_blocks x y).2 ⟨by omega, by omega, h⟩

/-- The recurrence at an open coordinate of the ring map other than the start. -/
theorem ring_count_open (x y : Nat) (ho : ring_open x y) (hx : x < 64) (hy : y < 64)
    (hne : ¬ (x = 0 ∧ y = 0)) :
    count_free ring_map 0 0 x y =
      if (if y = 0 then 0 else count_free ring_map 0 0 x (y - 1)) ≠ 0 ∧
         (if x = 0 then 0 else count_free ring_map 0 0 (x - 1) y) ≠ 0 then
        (if y = 0 then 0 else count_free ring_map 0 0 x (y - 1)) +
          (if x = 0 then 0 else count_free ring_map 0 0 (x - 1) y) -
          count_free ring_map 0 0 (x - 1) (y - 1) + 1
      else (if y = 0 then 0 else count_free ring_map 0 0 x (y - 1)) +
          (if x = 0 then 0 else count_free ring_map 0 0 (x - 1) y) := by
  have h3 : ¬ (x ≥ ring_map.width ∨ y ≥ ring_map.height) := by
    show ¬ (x ≥ 64 ∨ y ≥ 64)
    omega
  have hb : (⟨x, y⟩ : Coords) ∉ ring_map.blocks := by
    intro hb
    exact ((mem_ring_blocks x y).1 hb).2.2 ho
  have e := count_free_eq ring_map 0 0 x y
  rw [if_neg (by omega), if_neg hne, if_neg h3, if_neg hb] at e
  exact e

/-- An open coordinate whose upper neighbour is not open has the count of its
left neighbour. -/
theorem ring_from_left (x y : Nat) (ho : ring_open (x + 1) y) (hx : x + 1 < 64) (hy : y < 64)
    (hv : y = 0 ∨ ¬ ring_open (x + 1) (y - 1)) :
    count_free ring_map 0 0 (x + 1) y = count_free ring_map 0 0 x y := by
  have hV : (if y = 0 then 0 else count_free ring_map 0 0 (x + 1) (y - 1)) = 0 := by
    by_cases h0 : y = 0
    · rw [if_pos h0]
    · rw [if_neg h0]
      rcases hv with hv | hv
      · exact absurd hv h0
      · exact ring_count_zero _ _ hv
  rw [ring_count_open (x + 1) y ho hx hy (by omega), hV, if_neg (by simp),
    if_neg (by omega), Nat.add_sub_cancel, Nat.zero_add]

/-- An open coordinate whose left neighbour is not open has the count of its
upper neighbour. -/
theorem ring_from_above (x y : Nat) (ho : ring_open x (y + 1)) (hx : x < 64) (hy : y + 1 < 64)
    (hh : x = 0 ∨ ¬ ring_open (x - 1) (y + 1)) :
    count_free ring_map 0 0 x (y + 1) = count_free ring_map 0 0 x y := by
  have hH : (if x = 0 then 0 else count_free ring_map 0 0 (x - 1) (y + 1)) = 0 := by
    by_cases h0 : x = 0
    · rw [if_pos h0]
    · rw [if_neg h0]
      rcases hh with hh | hh
      · exact absurd hh h0
      · exact ring_count_zero _ _ hh
  rw [ring_count_open x (y + 1) ho hx hy (by omega), hH, if_neg (by simp),
    if_neg (by omega), Nat.add_sub_cancel, Nat.add_zero]

/-- An open coordinate with two non-zero neighbours: the sum, less the count of
the diagonal neighbour, plus one. -/
theorem ring_corner (x y : Nat) (ho : ring_open (x + 1) (y + 1)) (hx : x + 1 < 64)
    (hy : y + 1 < 64) (hv : count_free ring_map 0 0 (x + 1) y ≠ 0)
    (hh : count_free ring_map 0 0 x (y + 1) ≠ 0) :
    count_free ring_map 0 0 (x + 1) (y + 1) =
      count_free ring_map 0 0 (x + 1) y + count_free ring_map 0 0 x (y + 1) -
        count_free ring_map 0 0 x y + 1 := by
  rw [ring_count_open (x + 1) (y + 1) ho hx hy (by omega), if_neg (by omega : ¬ (y + 1 = 0)),
    if_neg (by omega : ¬ (x + 1 = 0)), Nat.add_sub_cancel, Nat.add_sub_cancel, if_pos ⟨hv, hh⟩]

/-- The count at the corner of the `i`-th ring is `2^(i+1) - 1`. -/
theorem ring_diag : ∀ i, i ≤ 31 →
    count_free ring_map 0 0 (2 * i) (2 * i) + 1 = 2 ^ (i + 1) := by
  intro i
  induction i with
  | zero => intro _; rw [count_free_start]; rfl
  | succ i ih =>
    intro hi
    have hc := ih (by omega)
    have e : 2 * (i + 1) = 2 * i + 1 + 1 := by ring
    rw [e]
    have a1 := ring_from_left (2 * i) (2 * i) (by unfold ring_open; omega) (by omega) (by omega)
      (by unfold ring_open; omega)
    have a2 := ring_from_left (2 * i + 1) (2 * i) (by unfold ring_open; omega) (by omega)
      (by omega) (by unfold ring_open; omega)
    have a3 := ring_from_above (2 * i + 1 + 1) (2 * i) (by unfold ring_open; omega) (by omega)
      (by omega) (by unfold ring_open; omega)
    have b1 := ring_from_above (2 * i) (2 * i) (by unfold ring_open; omega) (by omega) (by omega)
      (by unfold ring_open; omega)
    have b2 := ring_from_above (2 * i) (2 * i + 1) (by unfold ring_open; omega) (by omega)
      (by omega) (by unfold ring_open; omega)
    have b3 := ring_from_left (2 * i) (2 * i + 1 + 1) (by unfold ring_open; omega) (by omega)
      (by omega) (by unfold ring_open; omega)
    have d0 := ring_count_zero (2 * i + 1) (2 * i + 1) (by unfold ring_open; omega)
    have hp : 2 ^ (i + 1 + 1) = 2 ^ (i + 1) * 2 := pow_succ 2 (i + 1)
    have hpos : 0 < 2 ^ (i + 1) := Nat.two_pow_pos (i + 1)
    rw [a2, a1] at a3
    rw [b2, b1] at b3
    have hcor := ring_corner (2 * i + 1) (2 * i + 1) (by unfold ring_open; omega) (by omega)
      (by omega) (by rw [a3]; omega) (by rw [b3]; omega)
    rw [hcor, a3, b3, d0, hp]
    omega

theorem ring_count_62_62 : count_free ring_map 0 0 62 62 = 4294967295 := by
  have h := ring_diag 31 (by omega)
  have e1 : 2 * 31 = 62 := by norm_num
  have e2 : 2 ^ (31 + 1) = 4294967296 := by norm_num
  rw [e1, e2] at h
  omega

theorem ring_count_63_62 : count_free ring_map 0 0 63 62 = 4294967295 := by
  have h := ring_from_left 62 62 (by decide) (by decide) (by decide) (by decide)
  have e : 62 + 1 = 63 := rfl
  rw [ring_count_62_62, e] at h
  exact h

theorem ring_count_62_63 : count_free ring_map 0 0 62 63 = 4294967295 := by
  have h := ring_from_above 62 62 (by decide) (by decide) (by decide) (by decide)
  have e : 62 + 1 = 63 := rfl
  rw [ring_count_62_62, e] at h
  exact h

/-- With unbounded counts the count of (63,63) on the ring map is `2^32`. -/
theorem ring_count_63_63 : count_free ring_map 0 0 63 63 = 4294967296 := by
  have e : 62 + 1 = 63 := rfl
  have h := ring_corner 62 62 (by decide) (by decide) (by decide)
    (by rw [e, ring_count_63_62]; omega) (by rw [e, ring_count_62_63]; omega)
  rw [e, ring_count_63_62, ring_count_62_63, ring_count_62_62] at h
  exact h

theorem ring_count32_62_62 : count_free32 ring_map 0 0 62 62 = 4294967295 := by
  rw [count_free32_eq_count_free ring_map 0 0 (62 + 62 + 1) 62 62 (by omega)
    (by rw [ring_count_62_62]; omega)]
  exact ring_count_62_62

theorem ring_count32_63_62 : count_free32 ring_map 0 0 63 62 = 4294967295 := by
  rw [count_free32_eq_count_free ring_map 0 0 (63 + 62 + 1) 63 62 (by omega)
    (by rw [ring_count_63_62]; omega)]
  exact ring_count_63_62

theorem ring_count32_62_63 : count_free32 ring_map 0 0 62 63 = 4294967295 := by
  rw [count_free32_eq_count_free ring_map 0 0 (62 + 63 + 1) 62 63 (by omega)
    (by rw [ring_count_62_63]; omega)]
  exact ring_count_62_63

theorem ring_end_unblocked : (⟨63, 63⟩ : Coords) ∉ ring_map.blocks := by
  intro hb
  exact ((mem_ring_blocks 63 63).1 hb).2.2 (by decide)

/-- With the 32-bit counts of the source the count of (63,63) on the ring map
wraps around to 0. -/
theorem ring_count32_63_63 : count_free32 ring_map 0 0 63 63 = 0 := by
  have e := count_free32_eq ring_map 0 0 63 63
  have s : 63 - 1 = 62 := rfl
  rw [if_neg (by omega : ¬ (63 < 0 ∨ 63 < 0)), if_neg (by omega : ¬ (63 = 0 ∧ 63 = 0)),
    if_neg (by decide : ¬ (63 ≥ ring_map.width ∨ 63 ≥ ring_map.height)),
    if_neg ring_end_unblocked, if_neg (by omega : ¬ (63 = 0)),
    if_neg (by omega : ¬ (63 = 0)), s, ring_count32_63_62,
    ring_count32_62_63, ring_count32_62_62,
    if_pos (by omega : (4294967295 : Nat) ≠ 0 ∧ (4294967295 : Nat) ≠ 0)] at e
  rw [e]
  rfl

end RouteCountOld

/-! ## How fast the unbounded count can grow -/

namespace RouteCountOld
open RouteCount (Coords find emplace Cache find_emplace find_emplace_ok)

/-- The unbounded count at most doubles (plus one) with every step away from the
start: at distance `k` from the start it is below `2^(k+1)`. -/
theorem count_free_lt_two_pow (map : Map) (sx sy : Nat) :
    ∀ n x y, x + y < n →
      count_free map sx sy x y + 1 ≤ 2 ^ ((x - sx) + (y - sy) + 1) := by
  intro n
  induction n with
  | zero => intro x y h; omega
  | succ n ih =>
    intro x y hn
    have hp : 2 ^ ((x - sx) + (y - sy) + 1) = 2 ^ ((x - sx) + (y - sy)) * 2 := pow_succ _ _
    have hpos : 0 < 2 ^ ((x - sx) + (y - sy)) := Nat.two_pow_pos _
    have e := count_free_eq map sx sy x y
    by_cases h1 : x < sx ∨ y < sy
    · rw [if_pos h1] at e; omega
    rw [if_neg h1] at e
    by_cases h2 : x = sx ∧ y = sy
    · rw [if_pos h2] at e; omega
    rw [if_neg h2] at e
    by_cases h3 : x ≥ map.width ∨ y ≥ map.height
    · rw [if_pos h3] at e; omega
    rw [if_neg h3] at e
    by_cases hb : (⟨x, y⟩ : Coords) ∈ map.blocks
    · rw [if_pos hb] at e; omega
    rw [if_neg hb] at e
    have hV : (if y = 0 then 0 else count_free map sx sy x (y - 1)) + 1 ≤
        2 ^ ((x - sx) + (y - sy)) := by
      by_cases hy : y = 0
      · rw [if_pos hy]; omega
      rw [if_neg hy]
      by_cases hy2 : y - 1 < sy
      · rw [count_free_out map sx sy x (y - 1) (Or.inr hy2)]; omega
      · have h := ih x (y - 1) (by omega)
        have e1 : (x - sx) + (y - 1 - sy) + 1 = (x - sx) + (y - sy) := by omega
        rw [e1] at h
        exact h
    have hH : (if x = 0 then 0 else count_free map sx sy (x - 1) y) + 1 ≤
        2 ^ ((x - sx) + (y - sy)) := by
      by_cases hx : x = 0
      · rw [if_pos hx]; omega
      rw [if_neg hx]
      by_cases hx2 : x - 1 < sx
      · rw [count_free_out map sx sy (x - 1) y (Or.inl hx2)]; omega
      · have h := ih (x - 1) y (by omega)
        have e1 : (x - 1 - sx) + (y - sy) + 1 = (x - sx) + (y - sy) := by omega
        rw [e1] at h
        exact h
    rw [hp]
    generalize 2 ^ ((x - sx) + (y - sy)) = p at hV hH hpos
    generalize (if y = 0 then 0 else count_free map sx sy x (y - 1)) = v at e hV
    generalize (if x = 0 then 0 else count_free map sx sy (x - 1) y) = h at e hH
    by_cases hvh : v ≠ 0 ∧ h ≠ 0
    · rw [if_pos hvh] at e; omega
    · rw [if_neg hvh] at e; omega

/-- Within 31 steps of the start the unbounded count is below `2^32`. -/
theorem count_free_lt_of_near (map : Map) (sx sy x y : Nat)
    (hk : (x - sx) + (y - sy) ≤ 31) : count_free map sx sy x y < 4294967296 := by
  have h := count_free_lt_two_pow map sx sy (x + y + 1) x y (by omega)
  have h2 : 2 ^ ((x - sx) + (y - sy) + 1) ≤ 2 ^ 32 :=
    Nat.pow_le_pow_right (by omega) (by omega)
  have e : 2 ^ 32 = 4294967296 := by norm_num
  omega

/-- Within 31 steps of the start the unbounded counts of the upper and the left
neighbour sum to less than `2^32 - 1`. -/
theorem count_free_near_sum (map : Map) (sx sy x y : Nat) (hx : x ≠ 0) (hy : y ≠ 0)
    (hk : (x - sx) + (y - sy) ≤ 31) :
    count_free map sx sy x (y - 1) + count_free map sx sy (x - 1) y + 1 < 4294967296 := by
  have e : 2 ^ 31 = 2147483648 := by norm_num
  have hV : count_free map sx sy x (y - 1) + 1 ≤ 2147483648 := by
    by_cases h1 : x < sx ∨ y - 1 < sy
    · rw [count_free_out map sx sy x (y - 1) h1]; omega
    · have h := count_free_lt_two_pow map sx sy (x + y + 1) x (y - 1) (by omega)
      have h2 : 2 ^ ((x - sx) + (y - 1 - sy) + 1) ≤ 2 ^ 31 :=
        Nat.pow_le_pow_right (by omega) (by omega)
      omega
  have hH : count_free map sx sy (x - 1) y + 1 ≤ 2147483648 := by
    by_cases h1 : x - 1 < sx ∨ y < sy
    · rw [count_free_out map sx sy (x - 1) y h1]; omega
    · have h := count_free_lt_two_pow map sx sy (x + y + 1) (x - 1) y (by omega)
      have h2 : 2 ^ ((x - 1 - sx) + (y - sy) + 1) ≤ 2 ^ 31 :=
        Nat.pow_le_pow_right (by omega) (by omega)
      omega
  omega

end RouteCountOld

/-! ## The claims on the node-blocked engine with its 32-bit counts (C4, C5, C19) -/

namespace RouteCountOld
open RouteCount (Coords find emplace Cache find_emplace find_emplace_ok)

/-- The calls around the correction term, from a sound memo table `c0`: the three
calls on the neighbours of an unblocked `(x, y)` in the order of the source, and
the call on `(x, y)` itself, which stores its count. -/
theorem node32_correction_calls (map : Map) (sx sy : Nat) (c0 : Cache) (x y : Nat)
    (hc0 : ∀ k v, find k c0 = some v → v = count_free32 map sx sy k.x k.y)
    (hx : x ≠ 0) (hy : y ≠ 0) (hb : (⟨x, y⟩ : Coords) ∉ map.blocks) :
    ∃ c1 c2 c3 c4,
      SearchState.num_routes32 ⟨map, sx, sy, c0⟩ x (y - 1) =
        some (count_free32 map sx sy x (y - 1), ⟨map, sx, sy, c1⟩) ∧
      SearchState.num_routes32 ⟨map, sx, sy, c1⟩ (x - 1) y =
        some (count_free32 map sx sy (x - 1) y, ⟨map, sx, sy, c2⟩) ∧
      SearchState.num_routes32 ⟨map, sx, sy, c2⟩ (x - 1) (y - 1) =
        some (count_free32 map sx sy (x - 1) (y - 1), ⟨map, sx, sy, c3⟩) ∧
      SearchState.num_routes32 ⟨map, sx, sy, c0⟩ x y =
        some (count_free32 map sx sy x y, ⟨map, sx, sy, c4⟩) ∧
      (count_free32 map sx sy x (y - 1) ≠ 0 → count_free32 map sx sy (x - 1) y ≠ 0 →
        count_free32 map sx sy x y =
          add32 (sub32 (add32 (count_free32 map sx sy x (y - 1))
            (count_free32 map sx sy (x - 1) y)) (count_free32 map sx sy (x - 1) (y - 1))) 1 ∧
        find ⟨x, y⟩ c4 = some (count_free32 map sx sy x y) ∧
        (find ⟨x, y⟩ c0 = none → c4 = emplace c3 ⟨x, y⟩ (count_free32 map sx sy x y))) := by
  obtain ⟨c1, he1, hc1⟩ := node32_eval_sound map sx sy c0 x (y - 1) hc0
  obtain ⟨c2, he2, hc2⟩ := node32_eval_sound map sx sy c1 (x - 1) y hc1
  obtain ⟨c3, he3, _⟩ := node32_eval_sound map sx sy c2 (x - 1) (y - 1) hc2
  obtain ⟨c4, he4, _⟩ := node32_eval_sound map sx sy c0 x y hc0
  refine ⟨c1, c2, c3, c4,
    node32_call_of_eval ⟨map, sx, sy, c0⟩ _ _ _ c1 he1,
    node32_call_of_eval ⟨map, sx, sy, c1⟩ _ _ _ c2 he2,
    node32_call_of_eval ⟨map, sx, sy, c2⟩ _ _ _ c3 he3,
    node32_call_of_eval ⟨map, sx, sy, c0⟩ _ _ _ c4 he4, ?_⟩
  intro hv hh
  obtain ⟨g1, g1'⟩ := count_free32_ne_zero_guards map sx sy x (y - 1) hv
  obtain ⟨g2, g2'⟩ := count_free32_ne_zero_guards map sx sy (x - 1) y hh
  have h1 : ¬ (x < sx ∨ y < sy) := by omega
  have h2 : ¬ (x = sx ∧ y = sy) := by omega
  have h3 : ¬ (x ≥ map.width ∨ y ≥ map.height) := by
    rcases g1' with g | ⟨g, _⟩
    · omega
    rcases g2' with g' | ⟨g', _⟩
    · omega
    omega
  have e := count_free32_eq map sx sy x y
  rw [if_neg h1, if_neg h2, if_neg h3, if_neg hb, if_neg hy, if_neg hx, if_pos ⟨hv, hh⟩] at e
  obtain ⟨c4', he4', _, hfind⟩ := node32_eval_sound_entry map sx sy c0 x y hc0 h1 h2 h3 hb
  rw [he4] at he4'
  injection he4' with he4'
  injection he4' with _ hcc
  subst hcc
  refine ⟨e, hfind, ?_⟩
  intro hf
  rw [node32_eval_miss map sx sy c0 x y h1 h2 h3 hf hb, if_neg hy, he1] at he4
  simp only at he4
  rw [if_neg hx, he2] at he4
  simp only at he4
  rw [if_pos ⟨hv, hh⟩, he3] at he4
  simp only at he4
  injection he4 with he4
  injection he4 with hr hcc
  rw [← hcc, hr]

/-- A single call through a fresh search state. -/
theorem node32_run_single (map : Map) (sx sy x y r : Nat) (c' : Cache)
    (h : eval32 map sx sy [] x y = some (r, c')) :
    (SearchState.new map sx sy).run32 [⟨x, y⟩] = some ([r], ⟨map, sx, sy, c'⟩) := by
  have hcall := node32_call_of_eval ⟨map, sx, sy, []⟩ x y r c' h
  unfold SearchState.new
  rw [SearchState.run32, hcall]
  simp only
  rw [SearchState.run32]

/-- C5 as stated fails: on the ring map the call `num_routes (63,63)`
on a fresh search state returns 0 and stores 0 for (63,63), where the memo-free
recurrence of section 4.3 of the specification gives `2^32`. -/
theorem node_memoization_counterexample :
    count_free ring_map 0 0 63 63 = 4294967296 ∧
    num_routes32 ring_map 0 0 63 63 = some 0 ∧
    ∃ st', (SearchState.new ring_map 0 0).run32 [⟨63, 63⟩] = some ([0], st') ∧
      find ⟨63, 63⟩ st'.lookup_cache = some 0 := by
  refine ⟨ring_count_63_63, ?_, ?_⟩
  · rw [num_routes32_eq_count_free32, ring_count32_63_63]
  · obtain ⟨c', he, _, hf⟩ := node32_eval_sound_entry ring_map 0 0 [] 63 63
      (by intro k v h; simp [find] at h) (by omega) (by omega) (by decide) ring_end_unblocked
    rw [ring_count32_63_63] at he hf
    exact ⟨⟨ring_map, 0, 0, c'⟩, node32_run_single ring_map 0 0 63 63 0 c' he, hf⟩

/-- C5, amended. Node-blocked engine, memoization is transparent: for every map,
every start and every finite sequence of `num_routes` calls issued through one
`SearchState` (created fresh), each call returns exactly the value of the
memo-free recurrence of section 4.3 of the specification evaluated in the
32-bit `unsigned` arithmetic of the source (`count_free32`), which is also the
value a fresh `SearchState` returns for that end, and every entry of
`lookup_cache` holds that value for its coordinate; this value is the one of the
recurrence over the unbounded naturals wherever the latter is below `2^32`, as
it is at every coordinate within 31 steps of the start. -/
theorem node32_memoization_transparent (map : Map) (start_x start_y : Nat)
    (calls : List Coords) :
    ∃ st' : SearchState,
      (SearchState.new map start_x start_y).run32 calls =
        some (calls.map (fun e => count_free32 map start_x start_y e.x e.y), st') ∧
      (∀ e ∈ calls, num_routes32 map start_x start_y e.x e.y =
        some (count_free32 map start_x start_y e.x e.y)) ∧
      (∀ k v, find k st'.lookup_cache = some v →
        v = count_free32 map start_x start_y k.x k.y) ∧
      (∀ x y, count_free map start_x start_y x y < 4294967296 →
        count_free32 map start_x start_y x y = count_free map start_x start_y x y) ∧
      (∀ x y, (x - start_x) + (y - start_y) ≤ 31 →
        count_free32 map start_x start_y x y = count_free map start_x start_y x y) := by
  obtain ⟨c', hr, hc'⟩ := SearchState.run32_sound map start_x start_y calls []
    (by intro k v h; simp [find] at h)
  exact ⟨⟨map, start_x, start_y, c'⟩, hr,
    fun e _ => num_routes32_eq_count_free32 map start_x start_y e.x e.y, hc',
    fun x y h => count_free32_eq_count_free map start_x start_y (x + y + 1) x y (by omega) h,
    fun x y h => count_free32_eq_count_free map start_x start_y (x + y + 1) x y (by omega)
      (count_free_lt_of_near map start_x start_y x y h)⟩

/-- C19 as stated fails: on the ring map, from a fresh counter,
`v_count`, `h_count` and the count of the diagonal neighbour of (63,63) are all
`2^32 - 1`, so both are non-zero and the third is at most each of them; yet
`v_count + h_count` has wrapped around to `2^32 - 2`, the unsigned subtraction
`count -= ...` wraps, and the count returned and stored for (63,63) is 0. -/
theorem node_correction_counterexample :
    ∃ st1 st2 st3 st4,
      (SearchState.new ring_map 0 0).num_routes32 63 62 = some (4294967295, st1) ∧
      st1.num_routes32 62 63 = some (4294967295, st2) ∧
      st2.num_routes32 62 62 = some (4294967295, st3) ∧
      (SearchState.new ring_map 0 0).num_routes32 63 63 = some (0, st4) ∧
      st4.lookup_cache = emplace st3.lookup_cache ⟨63, 63⟩ 0 ∧
      find ⟨63, 63⟩ st4.lookup_cache = some 0 ∧
      add32 4294967295 4294967295 = 4294967294 ∧
      add32 4294967295 4294967295 < 4294967295 ∧
      add32 (sub32 (add32 4294967295 4294967295) 4294967295) 1 = 0 ∧
      ¬ (max 4294967295 4294967295 + 1 ≤ 0) := by
  obtain ⟨c1, c2, c3, c4, h1, h2, h3, h4, h5⟩ := node32_correction_calls ring_map 0 0 [] 63 63
    (by intro k v h; simp [find] at h) (by omega) (by omega) ring_end_unblocked
  have s : 63 - 1 = 62 := rfl
  rw [s] at h1 h2 h3 h5
  rw [ring_count32_63_62] at h1 h5
  rw [ring_count32_62_63] at h2 h5
  rw [ring_count32_62_62] at h3 h5
  rw [ring_count32_63_63] at h4 h5
  obtain ⟨_, hfind, hc4⟩ := h5 (by omega) (by omega)
  exact ⟨⟨ring_map, 0, 0, c1⟩, ⟨ring_map, 0, 0, c2⟩, ⟨ring_map, 0, 0, c3⟩, ⟨ring_map, 0, 0, c4⟩,
    h1, h2, h3, h4, hc4 rfl, hfind, rfl, by decide, rfl, by decide⟩

/-- C19, amended. Node-blocked engine, the correction term, with the 32-bit
`unsigned` counts of the source: for every map, start and unblocked end with
`end_x ≠ 0` and `end_y ≠ 0` that is within 31 steps of the start or, more
generally, such that the unbounded counts of its upper and left neighbours sum
to less than `2^32 - 1`, in every counter state reached from a fresh counter
the calls `v_count = num_routes (end_x, end_y - 1)`,
`h_count = num_routes (end_x - 1, end_y)` and `num_routes (end_x - 1, end_y - 1)`,
made in this order, and the call `num_routes (end_x, end_y)` return, and when
`v_count` and `h_count` are both non-zero the third value is at most `v_count`
and at most `h_count`, the sum `v_count + h_count` does not wrap, the unsigned
subtraction `count -= ...` does not wrap, and the count that the call on the
end returns and leaves in `lookup_cache` is `v_count + h_count - ... + 1`, at
least `max (v_count, h_count) + 1`; when the end had no entry, the call on the
end stores this count on top of the memo table left by the three calls. -/
theorem node32_correction_never_wraps (map : Map) (start_x start_y : Nat)
    (earlier : List Coords) (end_x end_y : Nat) (hx : end_x ≠ 0) (hy : end_y ≠ 0)
    (hb : (⟨end_x, end_y⟩ : Coords) ∉ map.blocks)
    (hnear : (end_x - start_x) + (end_y - start_y) ≤ 31 ∨
      count_free map start_x start_y end_x (end_y - 1) +
        count_free map start_x start_y (end_x - 1) end_y + 1 < 4294967296) :
    ∃ rs st0 v_count st1 h_count st2 d_count st3 count st4,
      (SearchState.new map start_x start_y).run32 earlier = some (rs, st0) ∧
      st0.num_routes32 end_x (end_y - 1) = some (v_count, st1) ∧
      st1.num_routes32 (end_x - 1) end_y = some (h_count, st2) ∧
      st2.num_routes32 (end_x - 1) (end_y - 1) = some (d_count, st3) ∧
      st0.num_routes32 end_x end_y = some (count, st4) ∧
      (v_count ≠ 0 → h_count ≠ 0 →
        d_count ≤ v_count ∧ d_count ≤ h_count ∧
        add32 v_count h_count = v_count + h_count ∧
        d_count ≤ add32 v_count h_count ∧
        count = add32 (sub32 (add32 v_count h_count) d_count) 1 ∧
        count = v_count + h_count - d_count + 1 ∧
        find ⟨end_x, end_y⟩ st4.lookup_cache = some count ∧
        (find ⟨end_x, end_y⟩ st0.lookup_cache = none →
          st4.lookup_cache = emplace st3.lookup_cache ⟨end_x, end_y⟩ count) ∧
        max v_count h_count + 1 ≤ count) := by
  have hsmall : count_free map start_x start_y end_x (end_y - 1) +
      count_free map start_x start_y (end_x - 1) end_y + 1 < 4294967296 :=
    hnear.elim (count_free_near_sum map start_x start_y end_x end_y hx hy) id
  obtain ⟨c0, hr0, hc0⟩ := SearchState.run32_sound map start_x start_y earlier []
    (by intro k v h; simp [find] at h)
  obtain ⟨c1, c2, c3, c4, h1, h2, h3, h4, h5⟩ :=
    node32_correction_calls map start_x start_y c0 end_x end_y hc0 hx hy hb
  refine ⟨_, ⟨map, start_x, start_y, c0⟩, _, ⟨map, start_x, start_y, c1⟩, _,
    ⟨map, start_x, start_y, c2⟩, _, ⟨map, start_x, start_y, c3⟩, _,
    ⟨map, start_x, start_y, c4⟩, hr0, h1, h2, h3, h4, ?_⟩
  intro hv hh
  obtain ⟨e, hfind, hc4⟩ := h5 hv hh
  have eV := count_free32_eq_count_free map start_x start_y (end_x + end_y + 1) end_x
    (end_y - 1) (by omega) (by omega)
  have eH := count_free32_eq_count_free map start_x start_y (end_x + end_y + 1) (end_x - 1)
    end_y (by omega) (by omega)
  obtain ⟨d1, d2⟩ := count_free_diag_le map start_x start_y (end_x + end_y + 1) end_x end_y
    (by omega) hx hy (by rw [← eV]; exact hv) (by rw [← eH]; exact hh)
  have eD := count_free32_eq_count_free map start_x start_y (end_x + end_y + 1) (end_x - 1)
    (end_y - 1) (by omega) (by omega)
  rw [← eV, ← eD] at d1
  rw [← eH, ← eD] at d2
  rw [← eV, ← eH] at hsmall
  refine ⟨d1, d2, ?_, ?_, e, ?_, hfind, hc4, ?_⟩
  · unfold add32; omega
  · unfold add32; omega
  · rw [e]; unfold add32 sub32; omega
  · rw [e]
    unfold add32 sub32
    rcases Nat.le_total (count_free32 map start_x start_y end_x (end_y - 1))
      (count_free32 map start_x start_y (end_x - 1) end_y) with hle | hle
    · rw [max_eq_right hle]; omega
    · rw [max_eq_left hle]; omega

/-- Witness of C19 (amended): the 3x3 grid without blocks, start (0,0), end
(2,2), after the earlier call (1,2); the calls return 3, 3 and 2, and the call
on the end returns 5. -/
theorem node32_correction_never_wraps_witness :
    (2 ≠ 0 ∧ 2 ≠ 0 ∧ (⟨2, 2⟩ : Coords) ∉ (⟨3, 3, []⟩ : Map).blocks ∧
      (2 - 0) + (2 - 0) ≤ 31) ∧
    num_routes32 ⟨3, 3, []⟩ 0 0 2 1 = some 3 ∧ num_routes32 ⟨3, 3, []⟩ 0 0 1 2 = some 3 ∧
    num_routes32 ⟨3, 3, []⟩ 0 0 1 1 = some 2 ∧ num_routes32 ⟨3, 3, []⟩ 0 0 2 2 = some 5 ∧
    ∃ rs st0 v_count st1 h_count st2 d_count st3 count st4,
      (SearchState.new ⟨3, 3, []⟩ 0 0).run32 [⟨1, 2⟩] = some (rs, st0) ∧
      st0.num_routes32 2 (2 - 1) = some (v_count, st1) ∧
      st1.num_routes32 (2 - 1) 2 = some (h_count, st2) ∧
      st2.num_routes32 (2 - 1) (2 - 1) = some (d_count, st3) ∧
      st0.num_routes32 2 2 = some (count, st4) ∧
      (v_count ≠ 0 → h_count ≠ 0 →
        d_count ≤ v_count ∧ d_count ≤ h_count ∧
        add32 v_count h_count = v_count + h_count ∧
        d_count ≤ add32 v_count h_count ∧
        count = add32 (sub32 (add32 v_count h_count) d_count) 1 ∧
        count = v_count + h_count - d_count + 1 ∧
        find ⟨2, 2⟩ st4.lookup_cache = some count ∧
        (find ⟨2, 2⟩ st0.lookup_cache = none →
          st4.lookup_cache = emplace st3.lookup_cache ⟨2, 2⟩ count) ∧
        max v_count h_count + 1 ≤ count) :=
  ⟨by decide, by decide, by decide, by decide, by decide,
    node32_correction_never_wraps ⟨3, 3, []⟩ 0 0 [⟨1, 2⟩] 2 2 (by decide) (by decide) (by decide)
      (Or.inl (by decide))⟩

end RouteCountOld
